import Mathlib

/-!
# DCC++ base station: packet registers (PacketRegister.cpp)

A shallow embedding of `RegisterList` from `src/DCCpp_Uno/PacketRegister.cpp`
and theorems about it.

Conventions of the embedding

* A C byte array (`byte *b`, `byte buf[]`) is a map from index to value,
  `Bytes = Nat → Nat`; a store into it truncates to 8 bits (`setByte`).
* A `Register *` is an `Option Nat`: `none` is `NULL`, `some i` is `reg + i`.
* `regMap` is indexed by the C `int` slot number, an `Int`.
* `loadPacket` spins in `while(nextReg!=NULL);` until the interrupt handler
  (not part of this file) has reset `nextReg`.  The function `loadPacket`
  below describes a call that returns: the loop has run to its exit, where
  `nextReg` is `NULL` (`awaitNext`).  The step function `step` further down
  makes the interleaving with the interrupt handler explicit.
* Memory outside the arrays is not modelled separately: `reg` and `regMap` are
  total maps, so an access beyond `maxNumRegs` reads and writes the map at that
  index.
* The sketch targets AVR boards (`DCCpp_Uno`): `int` and `unsigned int` have
  16 bits, `unsigned long` has 32.
-/

set_option linter.dupNamespace false

namespace DCCpp

/-! ## Bytes -/

/-- A C byte array seen from its base pointer. -/
abbrev Bytes := Nat → Nat

/-- The store `a[i] = v` into a byte array: the value is truncated to 8 bits. -/
def setByte (a : Bytes) (i v : Nat) : Bytes :=
  fun j => if j = i then v % 256 else a j

/-- Arduino `bitSet(x, n)`: `x |= (1UL << n)`. -/
def bitSet (x n : Nat) : Nat := x ||| (1 <<< n)

/-- The first `n` bytes of a byte array, as a list. -/
def payloadOf (b : Bytes) (n : Nat) : List Nat := (List.range n).map b

/-- The byte array holding the listed bytes (zero elsewhere). -/
def bytesOf (l : List Nat) : Bytes := fun i => l.getD i 0

/-! ## Registers -/

/-- Modelled from the spec: the `Register` type is declared in
`PacketRegister.h`, which is not among the sources.  Its two members used by
`loadPacket` are the bit-packed byte buffer `buf` and the bit count `nBits`. -/
structure Register where
  buf : Bytes
  nBits : Nat

/-- The members of `RegisterList` that `PacketRegister.cpp` reads and writes. -/
structure RegisterList where
  maxNumRegs : Nat
  reg : Nat → Register
  regMap : Int → Option Nat
  speedTable : Int → Nat
  currentReg : Nat
  maxLoadedReg : Nat
  nextReg : Option Nat
  recycleReg : Option Nat
  currentBit : Nat
  nRepeat : Int
  packetsTransmitted : Nat

/-- The constructor `RegisterList::RegisterList(maxNumRegs)`: all arrays are
`calloc`ed (zero bytes, `NULL` pointers), `regMap[0]`, `currentReg` and
`maxLoadedReg` point to `reg[0]`. -/
def RegisterList.RegisterList (maxNumRegs : Nat) : RegisterList where
  maxNumRegs := maxNumRegs
  reg := fun _ => { buf := fun _ => 0, nBits := 0 }
  regMap := fun i => if i = 0 then some 0 else none
  speedTable := fun _ => 0
  currentReg := 0
  maxLoadedReg := 0
  nextReg := none
  recycleReg := none
  currentBit := 0
  nRepeat := 0
  packetsTransmitted := 0

/-- The invalid flag of a register: the least significant bit of `buf[6]`. -/
def invalidFlag (r : Register) : Nat := r.buf 6 % 2

/-! ## loadPacket, statement by statement -/

/-- Lines 67-69: `b[nBytes]=b[0]; for(i=1;i<nBytes;i++) b[nBytes]^=b[i];`. -/
def addChecksum (b : Bytes) (nBytes : Nat) : Bytes :=
  (List.range nBytes).tail.foldl
    (fun b i => setByte b nBytes (b nBytes ^^^ b i))
    (setByte b nBytes (b 0))

/-- Lines 75-103: the bit packing of `b` (checksum included, `nBytes` already
incremented) into `buf`, and the value stored in `p->nBits`. -/
def packBits (buf b : Bytes) (nBytes : Nat) : Bytes × Nat :=
  let buf := setByte buf 0 (b 0 >>> 1)
  let buf := setByte buf 1 (b 0 <<< 7)
  let buf := setByte buf 1 (buf 1 + b 1 >>> 2)
  let buf := setByte buf 2 (b 1 <<< 6)
  let buf := setByte buf 2 (buf 2 + b 2 >>> 3)
  let buf := setByte buf 3 (b 2 <<< 5)
  if nBytes = 3 then
    (setByte buf 3 (bitSet (buf 3) 4), 28)
  else
    let buf := setByte buf 3 (buf 3 + b 3 >>> 4)
    let buf := setByte buf 4 (b 3 <<< 4)
    if nBytes = 4 then
      (setByte buf 4 (bitSet (buf 4) 3), 37)
    else
      let buf := setByte buf 4 (buf 4 + b 4 >>> 5)
      let buf := setByte buf 5 (b 4 <<< 3)
      if nBytes = 5 then
        (setByte buf 5 (bitSet (buf 5) 2), 46)
      else
        let buf := setByte buf 5 (buf 5 + b 5 >>> 6)
        let buf := setByte buf 6 (b 5 <<< 2)
        (setByte buf 5 (bitSet (buf 5) 1), 55)

/-- Line 43: `nReg=nReg%((maxNumRegs+1))`, the C remainder (sign of the dividend). -/
def coerceReg (nReg : Int) (maxNumRegs : Nat) : Int :=
  Int.tmod nReg ((maxNumRegs : Int) + 1)

/-- Lines 46-52: `newReg=maxLoadedReg+1`, replaced by `recycleReg` when the
loop over `reg .. maxLoadedReg` meets it. -/
def chooseReg (st : RegisterList) : Nat :=
  match (List.range (st.maxLoadedReg + 1)).find?
      (fun loopReg => decide (some loopReg = st.recycleReg)) with
  | some loopReg => loopReg
  | none => st.maxLoadedReg + 1

/-- Lines 46-57 for `nReg != 0`: choose the new register, remember the one
`regMap[nReg]` pointed to in `recycleReg`, and remap `nReg`. -/
def selectReg (st : RegisterList) (nReg : Int) : RegisterList :=
  let newReg := chooseReg st
  { st with
    recycleReg := st.regMap nReg
    regMap := fun i => if i = nReg then some newReg else st.regMap i }

/-- The exit of `while(nextReg!=NULL);`: the interrupt handler has reset `nextReg`. -/
def awaitNext (st : RegisterList) : RegisterList :=
  { st with nextReg := none }

/-- Line 62: `p=regMap[nReg]` (`regMap[0]` is `reg`; a `NULL` entry is read as `reg`). -/
def targetReg (st : RegisterList) (nReg : Int) : Nat :=
  (st.regMap nReg).getD 0

/-- Lines 75-103 on register `p`. -/
def encodeReg (st : RegisterList) (p : Nat) (b : Bytes) (nBytes : Nat) : RegisterList :=
  let r := packBits (st.reg p).buf b nBytes
  { st with reg := fun i => if i = p then { buf := r.1, nBits := r.2 } else st.reg i }

/-- Line 104: `buf[6] &= 0xFE` on register `p`. -/
def clearInvalid (st : RegisterList) (p : Nat) : RegisterList :=
  { st with reg := fun i =>
      if i = p then { st.reg p with buf := setByte (st.reg p).buf 6 ((st.reg p).buf 6 &&& 0xFE) }
      else st.reg i }

/-- Lines 106-107: `if (nReg != 0 && recycleReg!=NULL) (recycleReg->buf)[6] |= 0x01`. -/
def markRecycle (st : RegisterList) (nReg : Int) : RegisterList :=
  match st.recycleReg with
  | some r =>
    if nReg ≠ 0 then
      { st with reg := fun i =>
          if i = r then { st.reg r with buf := setByte (st.reg r).buf 6 ((st.reg r).buf 6 ||| 0x01) }
          else st.reg i }
    else st
  | none => st

/-- The pointer comparison `max(maxLoadedReg,nextReg)`; `NULL` is below every register. -/
def maxReg (maxLoadedReg : Nat) (nextReg : Option Nat) : Nat :=
  match nextReg with
  | some q => max maxLoadedReg q
  | none => maxLoadedReg

/-- Lines 112-117, `nextReg=p; this->nRepeat=nRepeat; maxLoadedReg=max(maxLoadedReg,nextReg)`,
when the interrupt handler does not reset `nextReg` between `interrupts()` on line 114 and
the read of `nextReg` on line 117.  `publishWith` has both cases. -/
def publish (st : RegisterList) (p : Nat) (nRepeat : Int) : RegisterList :=
  let st := { st with nextReg := some p }
  { st with nRepeat := nRepeat, maxLoadedReg := maxReg st.maxLoadedReg st.nextReg }

/-- The function `RegisterList::loadPacket(nReg, b, nBytes, nRepeat, printFlag)`.
Returns the register list after the call and the caller's array `b`, which
the call extends by the checksum byte.  The debug print is left out.  The interrupt
handler enters as the exit of the busy-waits (`awaitNext`); a call during which it also
resets `nextReg` between lines 114 and 117 is `loadPacketWith` with `adopted = true`.
Registers and slot numbers beyond the arrays are further entries of `reg` and `regMap`;
`inside` tells whether a call stays inside the arrays. -/
def loadPacket (st : RegisterList) (nReg : Int) (b : Bytes) (nBytes : Nat) (nRepeat : Int) :
    RegisterList × Bytes :=
  let nReg := coerceReg nReg st.maxNumRegs
  let st := if nReg ≠ 0 then selectReg st nReg else awaitNext st
  let p := targetReg st nReg
  let b := addChecksum b nBytes
  let nBytes := nBytes + 1
  let st := encodeReg st p b nBytes
  let st := clearInvalid st p
  let st := markRecycle st nReg
  let st := if nReg ≠ 0 then awaitNext st else st
  (publish st p nRepeat, b)

/-! ## Reading a register as a bit stream -/

/-- Stream bit `j` of a buffer read MSB-first: bit `7 - j % 8` of byte `j / 8`. -/
def streamBit (buf : Bytes) (j : Nat) : Nat :=
  (buf (j / 8) / 2 ^ (7 - j % 8)) % 2

/-- The byte made of the 8 stream bits at indices `9i+1 .. 9i+8`, first bit most significant. -/
def decodeByte (buf : Bytes) (i : Nat) : Nat :=
  (List.range 8).foldl (fun acc t => 2 * acc + streamBit buf (9 * i + 1 + t)) 0

/-- The XOR `b[0] ^ b[1] ^ ... ^ b[k-1]`. -/
def xorBytes (b : Bytes) (k : Nat) : Nat :=
  (List.range k).foldl (fun acc i => acc ^^^ b i) 0


/-- The register a `loadPacket(nReg, ...)` call writes and hands to the interrupt handler. -/
def loadTarget (st : RegisterList) (nReg : Int) : Nat :=
  let nReg := coerceReg nReg st.maxNumRegs
  targetReg (if nReg ≠ 0 then selectReg st nReg else awaitNext st) nReg

/-! ## Command builders -/

/-- Arduino `highByte(w)`: `(uint8_t)((w) >> 8)`. -/
def highByte (w : Int) : Nat := ((w >>> (8 : Nat)) % 256).toNat

/-- Arduino `lowByte(w)`: `(uint8_t)((w) & 0xff)`. -/
def lowByte (w : Int) : Nat := (w % 256).toNat

/-- The conversion of a C `int` to `byte` on a store. -/
def toByte (v : Int) : Nat := (v % 256).toNat

/-- The statement `b[nB++]=v` on the pair `(b, nB)`. -/
def pushByte (p : Bytes × Nat) (v : Nat) : Bytes × Nat :=
  (setByte p.1 p.2 v, p.2 + 1)

/-- The two statements every command builder starts its packet with:
`if(cab>127) b[nB++]=highByte(cab) | 0xC0;` and `b[nB++]=lowByte(cab);`. -/
def pushCab (p : Bytes × Nat) (cab : Int) : Bytes × Nat :=
  let p := if cab > 127 then pushByte p (highByte cab ||| 0xC0) else p
  pushByte p (lowByte cab)

/-- How a decoder reads address bytes: a first byte below `0x80` is the address,
otherwise the address is `((first & 0x3F) << 8) | second`. -/
def decodeCab : List Nat → Option Nat
  | [] => none
  | first :: rest =>
    if first < 0x80 then some first
    else
      match rest with
      | [] => none
      | second :: _ => some (((first &&& 0x3F) <<< 8) ||| second)

/-- The locals of `setThrottle` when it calls `loadPacket`. -/
structure ThrottleLocals where
  b : Bytes
  nB : Nat
  tSpeed : Int
  tDirection : Int

/-- Lines 132-155 of `setThrottle`: the packet bytes, the capped speed and the
masked direction.  The array `byte b[5]` starts out as zeros here; every byte
that is read later is written first. -/
def throttleLocals (cab tSpeed tDirection : Int) : ThrottleLocals :=
  let p : Bytes × Nat := (fun _ => 0, 0)
  let p := if cab > 127 then pushByte p (highByte cab ||| 0xC0) else p
  let tSpeed := if tSpeed > 126 then 126 else tSpeed
  let tDirection := Int.land tDirection 0x01
  let p := pushByte p (lowByte cab)
  let p := pushByte p 0x3F
  if tSpeed ≥ 0 then
    let p := pushByte p (toByte (tSpeed + (if tSpeed > 0 then 1 else 0) + tDirection * 128))
    { b := p.1, nB := p.2, tSpeed := tSpeed, tDirection := tDirection }
  else
    let p := pushByte p 1
    { b := p.1, nB := p.2, tSpeed := 0, tDirection := tDirection }

/-- What `setThrottle` prints: `<T nReg tSpeed tDirection>`. -/
structure ThrottleResponse where
  nReg : Int
  tSpeed : Int
  tDirection : Int
deriving DecidableEq

/-- The function `RegisterList::setThrottle` on the four integers `sscanf` has read
(`nReg cab tSpeed tDirection`).  Returns the new register list and the response,
`none` when the command is ignored. -/
def setThrottle (st : RegisterList) (nReg cab tSpeed tDirection : Int) :
    RegisterList × Option ThrottleResponse :=
  if nReg < 1 ∨ nReg > st.maxNumRegs then (st, none)
  else
    let l := throttleLocals cab tSpeed tDirection
    let st := (loadPacket st nReg l.b l.nB 0).1
    ({ st with speedTable := fun i =>
          if i = nReg then toByte (l.tSpeed + l.tDirection * 128) else st.speedTable i },
      some { nReg := nReg, tSpeed := l.tSpeed, tDirection := l.tDirection })

/-! ## Sequences of throttle commands -/

/-- The register list after the throttle commands `n 3 0 1` for the listed slot numbers `n`. -/
def throttleAll (st : RegisterList) (slots : List Int) : RegisterList :=
  slots.foldl (fun st n => (setThrottle st n 3 0 1).1) st

/-- The slot table while only slot number `s` is being loaded, with or without resets of
`nextReg` by the interrupt handler between lines 114 and 117: untouched; or `s` on register 1 or 2 and `maxLoadedReg` at most 2,
with `recycleReg` either `NULL` while `maxLoadedReg` is at most 1, or on register 1 or 2. -/
def soleSlot (st : RegisterList) (s : Int) : Prop :=
  (st.regMap s = none ∧ st.recycleReg = none ∧ st.maxLoadedReg = 0) ∨
  ((st.regMap s = some 1 ∨ st.regMap s = some 2) ∧ st.maxLoadedReg ≤ 2 ∧
    ((st.recycleReg = none ∧ st.maxLoadedReg ≤ 1) ∨ st.recycleReg = some 1 ∨
      st.recycleReg = some 2))

/-! ## loadPacket interleaved with the interrupt handler -/

/-- The places in `loadPacket` where the interrupt handler can run between two steps:
before line 45, 62, 104, 106, 109 and 112. -/
inductive LoadPc where
  | select
  | encode
  | clear
  | mark
  | wait
  | store
deriving DecidableEq

/-- The activation record of a `loadPacket` call: its program point, the arguments
(`nReg` after line 43) and the local `p`. -/
structure Frame where
  pc : LoadPc
  nReg : Int
  b : Bytes
  nBytes : Nat
  nRepeat : Int
  p : Nat

/-- The register list together with the `loadPacket` call in progress, if any. -/
structure System where
  regs : RegisterList
  call : Option Frame

/-- What can happen next: the foreground enters `loadPacket`, the foreground executes the
next step of the call in progress, or the interrupt handler adopts `nextReg`. -/
inductive Event where
  | call (nReg : Int) (b : Bytes) (nBytes : Nat) (nRepeat : Int)
  | run
  | adopt

/-- Modelled from the spec: the interrupt handler (the waveform engine) is not among the
sources; of its effects on the register list only `nextReg = NULL`, done once it has adopted
the register, matters to `loadPacket`. -/
def adoptNext (st : RegisterList) : RegisterList :=
  { st with nextReg := none }

/-- One step of the foreground inside `loadPacket`.  A busy-wait that finds `nextReg` set
leaves the state as it is.  Lines 112-117 are one step: the read of `nextReg` on line 117
sees the pointer stored on line 113.  The result is `none` where the step would leave the
arrays: `newReg` beyond `reg[maxNumRegs]`. -/
def runStep (regs : RegisterList) (fr : Frame) : Option System :=
  match fr.pc with
  | .select =>
    if fr.nReg ≠ 0 then
      if chooseReg regs > regs.maxNumRegs then none
      else
        some { regs := selectReg regs fr.nReg,
               call := some { fr with pc := .encode, p := targetReg (selectReg regs fr.nReg) fr.nReg } }
    else if regs.nextReg = none then
      some { regs := regs, call := some { fr with pc := .encode, p := targetReg regs fr.nReg } }
    else some { regs := regs, call := some fr }
  | .encode =>
    some { regs := encodeReg regs fr.p (addChecksum fr.b fr.nBytes) (fr.nBytes + 1),
           call := some { fr with pc := .clear, b := addChecksum fr.b fr.nBytes,
                                  nBytes := fr.nBytes + 1 } }
  | .clear => some { regs := clearInvalid regs fr.p, call := some { fr with pc := .mark } }
  | .mark => some { regs := markRecycle regs fr.nReg, call := some { fr with pc := .wait } }
  | .wait =>
    if fr.nReg ≠ 0 ∧ regs.nextReg ≠ none then some { regs := regs, call := some fr }
    else some { regs := regs, call := some { fr with pc := .store } }
  | .store => some { regs := publish regs fr.p fr.nRepeat, call := none }

/-- One event.  The result is `none` when the event cannot happen in this state (a second
call while one is in progress, a step with no call in progress) or would leave the arrays
(a slot number coerced to a negative index of `regMap`). -/
def step (s : System) : Event → Option System
  | .call nReg b nBytes nRepeat =>
    match s.call with
    | some _ => none
    | none =>
      if coerceReg nReg s.regs.maxNumRegs < 0 then none
      else
        some { s with call := some { pc := .select, nReg := coerceReg nReg s.regs.maxNumRegs,
                                     b := b, nBytes := nBytes, nRepeat := nRepeat, p := 0 } }
  | .run =>
    match s.call with
    | none => none
    | some fr => runStep s.regs fr
  | .adopt => some { s with regs := adoptNext s.regs }

/-- A sequence of events from a state. -/
def runEvents (s : System) : List Event → Option System
  | [] => some s
  | e :: es => (step s e).bind (fun s => runEvents s es)

/-- The system after the constructor: no call in progress. -/
def System.init (maxNumRegs : Nat) : System :=
  { regs := RegisterList.RegisterList maxNumRegs, call := none }

/-- The claimed hand-off invariant: `nextReg` is `NULL` or points to a register whose
invalid flag is 0. -/
def nextValid (st : RegisterList) : Bool :=
  match st.nextReg with
  | none => true
  | some q => invalidFlag (st.reg q) == 0

/-! ## Invariants of the slot table -/

/-- What `loadPacket` calls during which the interrupt handler does not reset `nextReg`
between lines 114 and 117 keep of the register list: slot number 0 is register 0, the other
mapped registers lie in `1..maxLoadedReg`, are pairwise different and different from
`recycleReg`, and `nextReg` is `NULL` or valid. -/
structure Good (st : RegisterList) : Prop where
  zero : st.regMap 0 = some 0
  pos : ∀ i q, i ≠ 0 → st.regMap i = some q →
    1 ≤ q ∧ q ≤ st.maxLoadedReg ∧ st.recycleReg ≠ some q
  inj : ∀ i j q, st.regMap i = some q → st.regMap j = some q → i = j
  recyc : ∀ r, st.recycleReg = some r → 1 ≤ r
  next : nextValid st = true

/-- The register list after line 57 (or after the wait of line 59). -/
def preRegs (st : RegisterList) (nReg : Int) : RegisterList :=
  if nReg ≠ 0 then selectReg st nReg else st

/-- The register list at each program point of a call that started in `st`, when the
interrupt handler has not run since. -/
def inFlight (st : RegisterList) (fr : Frame) (b : Bytes) (n : Nat) : RegisterList :=
  match fr.pc with
  | .select => st
  | .encode => preRegs st fr.nReg
  | .clear => encodeReg (preRegs st fr.nReg) fr.p b n
  | .mark => clearInvalid (encodeReg (preRegs st fr.nReg) fr.p b n) fr.p
  | .wait => markRecycle (clearInvalid (encodeReg (preRegs st fr.nReg) fr.p b n) fr.p) fr.nReg
  | .store => markRecycle (clearInvalid (encodeReg (preRegs st fr.nReg) fr.p b n) fr.p) fr.nReg

/-- The invariant of the interleaved system: between calls the register list is `Good`;
inside a call it is what the steps taken so far make of a `Good` register list. -/
def Inv (s : System) : Prop :=
  match s.call with
  | none => Good s.regs
  | some fr =>
    0 ≤ fr.nReg ∧
    ∃ st b n, Good st ∧ s.regs = inFlight st fr b n ∧
      (fr.pc ≠ .select → fr.p = targetReg (preRegs st fr.nReg) fr.nReg) ∧
      (fr.pc ≠ .select → fr.nReg = 0 → st.nextReg = none) ∧
      (fr.pc = .store → st.nextReg = none)

/-! ## The acknowledgement detector -/

/-- What one pass of the loop in `ackdetect` reads from outside: the current probe
`progMonitor.read()`, `tickCounter` and `packetsTransmitted`. -/
structure Sample where
  current : Nat
  tickCounter : Nat
  packetsTransmitted : Nat

/-- The locals of `ackdetect` that live across passes; the three flags are bytes that only
ever hold 0 or 1. -/
structure AckLocals where
  upflankFound : Bool
  ackFound : Bool
  searchLowflank : Bool
  upflankTickCounter : Nat
  oldPacketCounter : Nat

/-- The conversion of an `unsigned int` to `int` on the AVR targets of this sketch, where
both have 16 bits. -/
def toInt16 (n : Nat) : Int :=
  if n % 65536 < 32768 then ((n % 65536 : Nat) : Int) else ((n % 65536 : Nat) : Int) - 65536

/-- The difference `(unsigned long)(a - b)` of two 32-bit counters. -/
def subU32 (a b : Nat) : Nat :=
  (a % 4294967296 + (4294967296 - b % 4294967296)) % 4294967296

/-- The static array `resetPacket[3]={0x00,0x00,0}`. -/
def resetPacket : Bytes := bytesOf [0x00, 0x00, 0]

/-- Lines 265-310: one pass of the `for(;;)` loop of `ackdetect`, with threshold
`ACK_SAMPLE_THRESHOLD = thr` (a macro defined outside the sources).  The third component is
the value returned, `none` when the loop goes on. -/
def ackStep (thr : Int) (base : Nat) (regs : RegisterList) (l : AckLocals) (x : Sample) :
    RegisterList × AckLocals × Option Nat :=
  let current := if base > x.current then base else x.current
  let c := toInt16 (current - base)
  let rl : RegisterList × AckLocals :=
    if l.upflankFound ≠ true then
      if c > thr then
        (regs, { l with upflankFound := true, upflankTickCounter := x.tickCounter })
      else (regs, l)
    else
      if l.searchLowflank = true ∧ c < thr then
        let acktime := subU32 x.tickCounter l.upflankTickCounter
        if acktime < 1125 ∨ acktime > 2125 then
          (regs, { l with upflankFound := false, searchLowflank := true })
        else
          ((loadPacket regs 1 resetPacket 2 1).1,
            { l with searchLowflank := false, ackFound := true,
                     oldPacketCounter := x.packetsTransmitted })
      else (regs, l)
  if rl.2.ackFound = true ∧ subU32 x.packetsTransmitted rl.2.oldPacketCounter ≥ 3 then
    (rl.1, rl.2, some 1)
  else if subU32 x.packetsTransmitted rl.2.oldPacketCounter ≥ 9 then
    ((loadPacket rl.1 1 resetPacket 2 1).1, rl.2, some (if rl.2.ackFound then 1 else 0))
  else (rl.1, rl.2, none)

/-- The loop of `ackdetect` over the samples it reads, one per pass; `none` when the
samples run out before the loop returns. -/
def ackLoop (thr : Int) (base : Nat) :
    RegisterList → AckLocals → List Sample → Option (Nat × RegisterList)
  | _, _, [] => none
  | regs, l, x :: xs =>
    match ackStep thr base regs l x with
    | (regs, _, some r) => some (r, regs)
    | (regs, l, none) => ackLoop thr base regs l xs

/-- The function `RegisterList::ackdetect(base)`: `entry` is `packetsTransmitted` as read
on line 263, `trace` the samples read by the passes of the loop. -/
def ackdetect (regs : RegisterList) (thr : Int) (base entry : Nat) (trace : List Sample) :
    Option (Nat × RegisterList) :=
  ackLoop thr base regs
    { upflankFound := false, ackFound := false, searchLowflank := true,
      upflankTickCounter := 0, oldPacketCounter := entry } trace

/-- The value `max(current,base)-base` of a sample. -/
def excess (base : Nat) (x : Sample) : Int :=
  ((max x.current base - base : Nat) : Int)

/-- The ack condition as claimed: some sample above the threshold is followed by a later
sample below it, the two between 1125 and 2125 ticks apart, the later one read before the
packet count is 9 past its value at entry. -/
def claimedAck (thr : Int) (base entry : Nat) (trace : List Sample) : Prop :=
  ∃ j < trace.length, ∃ i < j,
    thr < excess base (trace.getD i ⟨0, 0, 0⟩) ∧
    excess base (trace.getD j ⟨0, 0, 0⟩) < thr ∧
    1125 ≤ subU32 (trace.getD j ⟨0, 0, 0⟩).tickCounter (trace.getD i ⟨0, 0, 0⟩).tickCounter ∧
    subU32 (trace.getD j ⟨0, 0, 0⟩).tickCounter (trace.getD i ⟨0, 0, 0⟩).tickCounter ≤ 2125 ∧
    subU32 (trace.getD j ⟨0, 0, 0⟩).packetsTransmitted entry < 9

instance (thr : Int) (base entry : Nat) (trace : List Sample) :
    Decidable (claimedAck thr base entry trace) := by
  unfold claimedAck
  infer_instance

/-- The detector at work on a list of samples whose last one is the fall it accepts.  The
mode is `none` while it seeks a rise and `some u` once it has taken a rise at tick `u`: the
rise is the first sample above the threshold, the fall the first later sample below it; a
fall more than 2125 or less than 1125 ticks after the rise sends the detector back to
seeking a rise. -/
inductive Confirms (thr : Int) (base : Nat) : Option Nat → List Sample → Prop where
  | noRise (x : Sample) (xs : List Sample) :
      ¬ thr < excess base x → Confirms thr base none xs → Confirms thr base none (x :: xs)
  | rise (x : Sample) (xs : List Sample) :
      thr < excess base x → Confirms thr base (some x.tickCounter) xs →
      Confirms thr base none (x :: xs)
  | noFall (u : Nat) (x : Sample) (xs : List Sample) :
      ¬ excess base x < thr → Confirms thr base (some u) xs →
      Confirms thr base (some u) (x :: xs)
  | badFall (u : Nat) (x : Sample) (xs : List Sample) :
      excess base x < thr →
      ¬ (1125 ≤ subU32 x.tickCounter u ∧ subU32 x.tickCounter u ≤ 2125) →
      Confirms thr base none xs → Confirms thr base (some u) (x :: xs)
  | goodFall (u : Nat) (x : Sample) :
      excess base x < thr →
      1125 ≤ subU32 x.tickCounter u ∧ subU32 x.tickCounter u ≤ 2125 →
      Confirms thr base (some u) [x]

/-- The verdict of the loop of `ackdetect`: the value returned, if any. -/
def ackVerdict (thr : Int) (base : Nat) (regs : RegisterList) (l : AckLocals)
    (xs : List Sample) : Option Nat :=
  (ackLoop thr base regs l xs).map Prod.fst

/-- The locals while the detector seeks a rise, seeks a fall after a rise at tick `u`, and
lingers after an accepted fall read at packet count `old`. -/
def seekRise (entry u : Nat) : AckLocals :=
  { upflankFound := false, ackFound := false, searchLowflank := true,
    upflankTickCounter := u, oldPacketCounter := entry }

/-- See `seekRise`. -/
def seekFall (entry u : Nat) : AckLocals :=
  { upflankFound := true, ackFound := false, searchLowflank := true,
    upflankTickCounter := u, oldPacketCounter := entry }

/-- See `seekRise`. -/
def lingering (old u : Nat) : AckLocals :=
  { upflankFound := true, ackFound := true, searchLowflank := false,
    upflankTickCounter := u, oldPacketCounter := old }

/-- The samples `xs` start with an accepted rise and fall, read before any pass has seen
the packet count 9 past `entry`, and go on until the packet count is 3 past its value at
the accepted fall. -/
def Acked (thr : Int) (base entry : Nat) (m : Option Nat) (xs : List Sample) : Prop :=
  ∃ pre y post, xs = pre ++ y :: post ∧ Confirms thr base m (pre ++ [y]) ∧
    (∀ z ∈ pre, subU32 z.packetsTransmitted entry < 9) ∧
    ∃ z ∈ post, 3 ≤ subU32 z.packetsTransmitted y.packetsTransmitted

/-! ## Function and accessory commands -/

/-- The C operator `x | y` on `int`, two's complement. -/
def cOr (x y : Int) : Int := Int.lor x y

/-- The C operator `x & y` on `int`, two's complement. -/
def cAnd (x y : Int) : Int := Int.land x y

/-- The C operator `x ^ y` on `int`, two's complement. -/
def cXor (x y : Int) : Int := Int.xor x y

/-- Lines 176-193 of `setFunction`, on the integers `sscanf` has read: `cab`, `fByte` and,
when there is a third number (`nParams == 3`), `eByte`: the packet bytes `(b, nB)`.  The
array `byte b[5]` starts out as zeros here; every byte that is read later is written
first. -/
def functionPacket (cab fByte : Int) (eByte : Option Int) : Bytes × Nat :=
  let p : Bytes × Nat := (fun _ => 0, 0)
  let p := if cab > 127 then pushByte p (highByte cab ||| 0xC0) else p
  let p := pushByte p (lowByte cab)
  match eByte with
  | none => pushByte p (toByte (cAnd (cOr fByte 0x80) 0xBF))
  | some eByte => pushByte (pushByte p (toByte (cAnd (cOr fByte 0xDE) 0xDF))) (toByte eByte)

/-- The function `RegisterList::setFunction`: the packet goes to `loadPacket(0,b,nB,4,1)`. -/
def setFunction (st : RegisterList) (cab fByte : Int) (eByte : Option Int) : RegisterList :=
  (loadPacket st 0 (functionPacket cab fByte eByte).1 (functionPacket cab fByte eByte).2 4).1

/-- The test `x != x&m` as C parses it: `!=` binds tighter than `&`, so it is
`(x != x) & m`, and the branch is taken when that is not 0. -/
def neMask (x m : Int) : Bool :=
  cAnd (if x ≠ x then 1 else 0) m ≠ 0

/-- Lines 222-223 of `setAccessory`: the two packet bytes. -/
def accessoryBytes (aAdd aNum activate : Int) : Nat × Nat :=
  (toByte (Int.tmod aAdd 64 + 128),
   toByte (cXor ((Int.tmod (Int.tdiv aAdd 64) 8) * 16 + aNum * 2 + activate) 0xF8))

/-- The function `RegisterList::setAccessory` on the three integers `sscanf` has read.
`reversed` says whether the build defines `ACCESSORIES_REVERSED`.  The shifts `<<4` and
`<<1` are written as multiplications by 16 and 2. -/
def setAccessory (st : RegisterList) (reversed : Bool) (aAdd aNum activate : Int) :
    RegisterList :=
  if neMask aAdd 511 then st
  else if neMask aNum 3 then st
  else if neMask activate 1 then st
  else
    let activate := if reversed then (if activate = 0 then 1 else 0) else activate
    let b : Bytes := fun _ => 0
    let b := setByte b 0 (accessoryBytes aAdd aNum activate).1
    let b := setByte b 1 (accessoryBytes aAdd aNum activate).2
    (loadPacket st 0 b 2 4).1

/-- The accessory bytes as the specification writes them, with masks and shifts. -/
def accessoryBytesSpec (addr port activate : Nat) : Nat × Nat :=
  ((addr &&& 0x3F) ||| 0x80,
   ((((addr >>> 6) &&& 7) <<< 4) ||| (port <<< 1) ||| activate) ^^^ 0xF8)

/-! ## Raw packets -/

/-- The array `b` after `sscanf` has stored the values read by `%x`, each as a 16-bit
`unsigned int` at `b+i`: the low byte goes to `b[i]`, the high byte to `b[i+1]`. -/
def storeHex (b : Bytes) : Nat → List Nat → Bytes
  | _, [] => b
  | i, v :: vs => storeHex (setByte (setByte b i v) (i + 1) (v / 256)) (i + 1) vs

/-- The function `RegisterList::writeTextPacket` on what `sscanf` has read: the slot number
and the values of the `%x` conversions that succeeded, at most five.  The second component
says whether `<mInvalid Packet>` is printed. -/
def writeTextPacket (st : RegisterList) (nReg : Int) (vals : List Nat) : RegisterList × Bool :=
  let nBytes := (vals.take 5).length
  let b := storeHex (fun _ => 0) 0 (vals.take 5)
  if nBytes < 2 ∨ nBytes > 5 then (st, true)
  else ((loadPacket st nReg b nBytes 0).1, false)

/-! ## Configuration variables -/

/-- The address bytes every CV command builds from its operation selector `op`:
`cv--`, then `op+(highByte(cv)&0x03)` and `lowByte(cv)`, each stored in a byte. -/
def cvAddress (op : Nat) (cv : Int) : Nat × Nat :=
  ((op + (highByte (cv - 1) &&& 0x03)) % 256, lowByte (cv - 1))

/-- The lines `bValue=bValue%2; bNum=bNum%8;` of `writeCVBit` and `writeCVBitMain`, with the
C remainder: the normalised bit number and value. -/
def cvBitArgs (bNum bValue : Int) : Int × Int :=
  (Int.tmod bNum 8, Int.tmod bValue 2)

/-- The byte `0xF0+bValue*8+bNum` of `writeCVBit` and `writeCVBitMain`, from the normalised
arguments. -/
def cvBitByte (bNum bValue : Int) : Nat :=
  toByte (0xF0 + (cvBitArgs bNum bValue).2 * 8 + (cvBitArgs bNum bValue).1)

/-- Lines 463-467 of `writeCVBit`: the array `bWrite` of the write-bit packet. -/
def cvBitPacket (cv bNum bValue : Int) : Bytes :=
  let b : Bytes := fun _ => 0
  let b := setByte b 0 (cvAddress 0x78 cv).1
  let b := setByte b 1 (cvAddress 0x78 cv).2
  setByte b 2 (cvBitByte bNum bValue)

/-- Lines 505-517 of `writeCVByteMain`: the packet bytes `(b, nB)`. -/
def cvByteMainPacket (cab cv bValue : Int) : Bytes × Nat :=
  let p := pushCab (fun _ => 0, 0) cab
  let p := pushByte p (cvAddress 0xEC cv).1
  let p := pushByte p (cvAddress 0xEC cv).2
  pushByte p (toByte bValue)

/-- The function `RegisterList::writeCVByteMain` on the three integers `sscanf` has read. -/
def writeCVByteMain (st : RegisterList) (cab cv bValue : Int) : RegisterList :=
  (loadPacket st 0 (cvByteMainPacket cab cv bValue).1 (cvByteMainPacket cab cv bValue).2 4).1

/-- Lines 531-546 of `writeCVBitMain`: the packet bytes `(b, nB)`. -/
def cvBitMainPacket (cab cv bNum bValue : Int) : Bytes × Nat :=
  let p := pushCab (fun _ => 0, 0) cab
  let p := pushByte p (cvAddress 0xE8 cv).1
  let p := pushByte p (cvAddress 0xE8 cv).2
  pushByte p (cvBitByte bNum bValue)

/-- The function `RegisterList::writeCVBitMain` on the four integers `sscanf` has read. -/
def writeCVBitMain (st : RegisterList) (cab cv bNum bValue : Int) : RegisterList :=
  (loadPacket st 0 (cvBitMainPacket cab cv bNum bValue).1
    (cvBitMainPacket cab cv bNum bValue).2 4).1

/-! ## Invalid flags between calls -/

/-- What `loadPacket` calls during which the interrupt handler does not reset `nextReg`
between lines 114 and 117 keep of the invalid flags: the registers mapped from slot numbers
other than 0 have the flag clear, the register `recycleReg` points to has it set and is not
above `maxLoadedReg`. -/
structure Flags (st : RegisterList) : Prop where
  live : ∀ i q, i ≠ 0 → st.regMap i = some q → invalidFlag (st.reg q) = 0
  dead : ∀ r, st.recycleReg = some r → invalidFlag (st.reg r) = 1
  low : ∀ r, st.recycleReg = some r → r ≤ st.maxLoadedReg

/-! ## Reading a configuration variable on the programming track -/

/-- The Arduino macro `bitClear(value, bit)`, `value &= ~(1UL << bit)`, on a 32-bit
`unsigned long`. -/
def bitClear (x n : Nat) : Nat := x &&& (4294967295 ^^^ (1 <<< n))

/-- The Arduino macro `bitWrite(value, bit, bitvalue)` on an `int` variable: `value` is
converted to `unsigned long`, the bit is set when `bitvalue` is not 0 and cleared
otherwise, and the result is stored back in the 16-bit `int`. -/
def bitWrite (value : Int) (bit bitvalue : Nat) : Int :=
  if bitvalue ≠ 0 then toInt16 (bitSet (value % 4294967296).toNat bit)
  else toInt16 (bitClear (value % 4294967296).toNat bit)

/-- What one call of `ackdetect` reads from outside: `packetsTransmitted` on line 263 and
the samples of the passes of its loop. -/
structure Probe where
  entry : Nat
  trace : List Sample

/-- The function `RegisterList::poweron`, with `low` the outcome of
`digitalRead(SIGNAL_ENABLE_PIN_PROG) == LOW`; the busy-wait for `numpackets` packets
changes nothing the model keeps.  Returns the register list and `turnoff`. -/
def poweron (st : RegisterList) (low : Bool) : RegisterList × Nat :=
  ((loadPacket st 1 resetPacket 2 1).1, if low then 1 else 0)

/-- The function `RegisterList::readBaseCurrent`: `reads` are the `ACK_BASE_COUNT` values
of `progMonitor.read()`, summed in a 16-bit `unsigned int`. -/
def readBaseCurrent (reads : List Nat) : Nat :=
  reads.foldl (fun base r => (base + r) % 65536) 0 / reads.length

/-- What `readCV` prints: `<r callBack|callBackSub|cv bValue>`. -/
structure CVResponse where
  callBack : Int
  callBackSub : Int
  cv : Int
  bValue : Int
deriving DecidableEq

/-- Lines 365-372: pass `i` of the loop of `readCV` over the eight bits.  The state is the
register list, the array `bRead` and `bValue`; `env i regs` is what the `ackdetect` call of
pass `i` reads from outside, which may depend on the register list `regs` the waveform
generator transmits from when the call starts.  The result is `none` when an earlier pass
or this call of `ackdetect` does not return. -/
def probeBit (thr : Int) (base : Nat) (env : Nat → RegisterList → Probe)
    (s : Option (RegisterList × Bytes × Int)) (i : Nat) : Option (RegisterList × Bytes × Int) :=
  match s with
  | none => none
  | some (st, bRead, bValue) =>
    let bRead := setByte bRead 2 (0xE8 + i)
    let st := (loadPacket st 0 resetPacket 2 3).1
    let r := loadPacket st 1 bRead 3 1
    match ackdetect r.1 thr base (env i r.1).entry (env i r.1).trace with
    | none => none
    | some (d, st) => some (st, r.2, bitWrite bValue i d)

/-- The function `RegisterList::readCV` on the three integers `sscanf` has read
(`cv callBack callBackSub`), with threshold `ACK_SAMPLE_THRESHOLD = thr`.  The ninth call
of `ackdetect`, for the verify-byte packet, reads `env 8 regs`.  Returns the register list
and the response, `none` when a call of `ackdetect` does not return. -/
def readCV (st : RegisterList) (thr : Int) (low : Bool) (reads : List Nat)
    (env : Nat → RegisterList → Probe) (cv callBack callBackSub : Int) :
    Option (RegisterList × CVResponse) :=
  let cv := cv - 1
  let bRead : Bytes := fun _ => 0
  let bRead := setByte bRead 0 (0x78 + (highByte cv &&& 0x03))
  let bRead := setByte bRead 1 (lowByte cv)
  let bValue : Int := 0
  let pw := poweron st low
  let base := readBaseCurrent reads
  match (List.range 8).foldl (probeBit thr base env) (some (pw.1, bRead, bValue)) with
  | none => none
  | some (st, bRead, bValue) =>
    let bRead := setByte bRead 0 (0x74 + (highByte cv &&& 0x03))
    let bRead := setByte bRead 2 (toByte bValue)
    let st := (loadPacket st 0 resetPacket 2 3).1
    let r := loadPacket st 1 bRead 3 1
    match ackdetect r.1 thr base (env 8 r.1).entry (env 8 r.1).trace with
    | none => none
    | some (d, st) =>
      some (st, { callBack := callBack, callBackSub := callBackSub, cv := cv + 1,
                  bValue := if d = 0 then -1 else bValue })

/-- The bytes a register holds, read back from its bit stream: `nBits` counts a start bit
and 8 data bits for each byte and the stop bit. -/
def frameOf (r : Register) : List Nat :=
  (List.range ((r.nBits - 1) / 9)).map (decodeByte r.buf)

/-- Slot number `s` has the packet `p` installed: `regMap[s]` and `nextReg` point to one
register, which holds the bytes of `p` followed by their XOR and has its invalid flag
clear. -/
def installed (regs : RegisterList) (s : Int) (p : List Nat) : Prop :=
  match regs.regMap s with
  | some q =>
    regs.nextReg = some q ∧ frameOf (regs.reg q) = p ++ [xorBytes (bytesOf p) p.length] ∧
      invalidFlag (regs.reg q) = 0
  | none => False

instance (regs : RegisterList) (s : Int) (p : List Nat) : Decidable (installed regs s p) := by
  unfold installed
  cases regs.regMap s <;> infer_instance

/-! ## loadPacket with the interrupt handler at line 114 -/

/-- Lines 112-117 in full.  `nextReg=p` is stored with interrupts disabled; once
`interrupts()` on line 114 has run, the interrupt handler may adopt the register and reset
`nextReg` to `NULL` before line 117 reads `nextReg` for `max(maxLoadedReg,nextReg)`:
`adopted` says whether it does.  `max` belongs to the Arduino core, which is not among the
sources, and is taken to read `nextReg` once.  `publish` is the case `adopted = false`. -/
def publishWith (st : RegisterList) (p : Nat) (nRepeat : Int) (adopted : Bool) : RegisterList :=
  let st := { st with nextReg := some p }
  let st := if adopted then adoptNext st else st
  { st with nRepeat := nRepeat, maxLoadedReg := maxReg st.maxLoadedReg st.nextReg }

/-- The function `RegisterList::loadPacket` as in `loadPacket`, with lines 112-117 as in
`publishWith`.  Returns the register list after the call. -/
def loadPacketWith (st : RegisterList) (nReg : Int) (b : Bytes) (nBytes : Nat) (nRepeat : Int)
    (adopted : Bool) : RegisterList :=
  let nReg := coerceReg nReg st.maxNumRegs
  let st := if nReg ≠ 0 then selectReg st nReg else awaitNext st
  let p := targetReg st nReg
  let b := addChecksum b nBytes
  let nBytes := nBytes + 1
  let st := encodeReg st p b nBytes
  let st := clearInvalid st p
  let st := markRecycle st nReg
  let st := if nReg ≠ 0 then awaitNext st else st
  publishWith st p nRepeat adopted

/-- The arguments of one `loadPacket` call, and whether the interrupt handler resets
`nextReg` between lines 114 and 117 of that call. -/
structure Call where
  nReg : Int
  b : Bytes
  nBytes : Nat
  nRepeat : Int
  adopted : Bool

/-- Whether a `loadPacket` call for `nReg` stays inside the arrays: the coerced slot number
is an index of `regMap[0..maxNumRegs]` and the register written is one of
`reg[0..maxNumRegs]`. -/
def inside (st : RegisterList) (nReg : Int) : Bool :=
  decide (0 ≤ coerceReg nReg st.maxNumRegs) && decide (loadTarget st nReg ≤ st.maxNumRegs)

/-- The register list after a sequence of completed `loadPacket` calls, run one after
another; `none` once a call leaves the arrays, where the program has no defined behaviour.
Resets of `nextReg` by the interrupt handler at other times than between lines 114 and 117
are not listed: they change `nextReg` only, which every call overwrites after it has waited
for `NULL`. -/
def runCalls : RegisterList → List Call → Option RegisterList
  | st, [] => some st
  | st, c :: cs =>
    if inside st c.nReg then
      runCalls (loadPacketWith st c.nReg c.b c.nBytes c.nRepeat c.adopted) cs
    else none

/-! # Theorems -/

/-! ## The checksum -/

theorem loadPacket_snd (st : RegisterList) (nReg : Int) (b : Bytes) (nBytes : Nat) (nRepeat : Int) :
    (loadPacket st nReg b nBytes nRepeat).2 = addChecksum b nBytes := rfl

theorem xor_byte_lt {x y : Nat} (hx : x < 256) (hy : y < 256) : x ^^^ y < 256 :=
  Nat.xor_lt_two_pow (n := 8) hx hy

/-- C1. For a payload of `k` bytes, `2 ≤ k ≤ 5`, `loadPacket` stores at position `k` of the
caller's array the XOR of bytes `0 .. k-1` and changes no other position. -/
theorem loadPacket_checksum (st : RegisterList) (nReg : Int) (b : Bytes) (k : Nat) (nRepeat : Int)
    (hk : 2 ≤ k ∧ k ≤ 5) (hb : ∀ i < k, b i < 256) :
    (loadPacket st nReg b k nRepeat).2 k = xorBytes b k ∧
      ∀ i, i ≠ k → (loadPacket st nReg b k nRepeat).2 i = b i := by
  rw [loadPacket_snd]
  obtain ⟨h2, h5⟩ := hk
  have h0 := hb 0 (by omega)
  have h1 := hb 1 (by omega)
  have h01 := xor_byte_lt h0 h1
  interval_cases k
  · constructor
    · simp [addChecksum, xorBytes, setByte, List.range_succ, Nat.mod_eq_of_lt, *]
    · intro i hi
      simp [addChecksum, setByte, List.range_succ, hi]
  · have h012 := xor_byte_lt h01 (hb 2 (by omega))
    constructor
    · simp [addChecksum, xorBytes, setByte, List.range_succ, Nat.mod_eq_of_lt, *]
    · intro i hi
      simp [addChecksum, setByte, List.range_succ, hi]
  · have h012 := xor_byte_lt h01 (hb 2 (by omega))
    have h0123 := xor_byte_lt h012 (hb 3 (by omega))
    constructor
    · simp [addChecksum, xorBytes, setByte, List.range_succ, Nat.mod_eq_of_lt, *]
    · intro i hi
      simp [addChecksum, setByte, List.range_succ, hi]
  · have h012 := xor_byte_lt h01 (hb 2 (by omega))
    have h0123 := xor_byte_lt h012 (hb 3 (by omega))
    have h01234 := xor_byte_lt h0123 (hb 4 (by omega))
    constructor
    · simp [addChecksum, xorBytes, setByte, List.range_succ, Nat.mod_eq_of_lt, *]
    · intro i hi
      simp [addChecksum, setByte, List.range_succ, hi]

theorem bytesOf_lt (i : Nat) : bytesOf [0x2A, 0x3F, 0xC1] i < 256 := by
  unfold bytesOf
  rcases i with _ | _ | _ | i <;> simp

/-- C1, witness: the payload `[0x2A, 0x3F, 0xC1]` gets the checksum `0xD4`. -/
theorem loadPacket_checksum_witness :
    (2 ≤ 3 ∧ 3 ≤ 5) ∧
    (loadPacket (RegisterList.RegisterList 12) 3 (bytesOf [0x2A, 0x3F, 0xC1]) 3 0).2 3 = 0xD4 ∧
    xorBytes (bytesOf [0x2A, 0x3F, 0xC1]) 3 = 0xD4 :=
  ⟨by decide,
   ((loadPacket_checksum (RegisterList.RegisterList 12) 3 (bytesOf [0x2A, 0x3F, 0xC1]) 3 0
      (by decide) (fun i _ => bytesOf_lt i)).1.trans (by decide)),
   by decide⟩

theorem loadPacket_nextReg (st : RegisterList) (nReg : Int) (b : Bytes) (nBytes : Nat) (nRepeat : Int) :
    (loadPacket st nReg b nBytes nRepeat).1.nextReg = some (loadTarget st nReg) := rfl

theorem markRecycle_buf (st : RegisterList) (nReg : Int) (p j : Nat) (hj : j ≠ 6) :
    ((markRecycle st nReg).reg p).buf j = (st.reg p).buf j := by
  unfold markRecycle
  split
  · split
    · simp only []
      split
      · next h => subst h; simp [setByte, hj]
      · rfl
    · rfl
  · rfl

theorem markRecycle_nBits (st : RegisterList) (nReg : Int) (p : Nat) :
    ((markRecycle st nReg).reg p).nBits = (st.reg p).nBits := by
  unfold markRecycle
  split
  · split
    · simp only []
      split
      · next h => subst h; rfl
      · rfl
    · rfl
  · rfl

theorem clearInvalid_buf (st : RegisterList) (p q j : Nat) (hj : j ≠ 6) :
    ((clearInvalid st p).reg q).buf j = (st.reg q).buf j := by
  unfold clearInvalid
  simp only []
  split
  · next h => subst h; simp [setByte, hj]
  · rfl

theorem clearInvalid_nBits (st : RegisterList) (p q : Nat) :
    ((clearInvalid st p).reg q).nBits = (st.reg q).nBits := by
  unfold clearInvalid
  simp only []
  split
  · next h => subst h; rfl
  · rfl

theorem loadPacket_reg (st : RegisterList) (nReg : Int) (b : Bytes) (nBytes : Nat) (nRepeat : Int) :
    ∃ st1 : RegisterList, st1.reg = st.reg ∧
    (loadPacket st nReg b nBytes nRepeat).1.reg =
      (markRecycle (clearInvalid (encodeReg st1 (loadTarget st nReg) (addChecksum b nBytes) (nBytes + 1))
        (loadTarget st nReg)) (coerceReg nReg st.maxNumRegs)).reg := by
  by_cases h : coerceReg nReg st.maxNumRegs ≠ 0
  · exact ⟨selectReg st (coerceReg nReg st.maxNumRegs), rfl, by simp [loadPacket, loadTarget, h, publish, awaitNext]⟩
  · exact ⟨awaitNext st, rfl, by simp [loadPacket, loadTarget, h, publish, awaitNext]⟩

/-- The written register holds, outside `buf[6]`, what the bit packing produced. -/
theorem loadPacket_buf (st : RegisterList) (nReg : Int) (b : Bytes) (nBytes : Nat) (nRepeat : Int)
    (j : Nat) (hj : j ≠ 6) :
    ((loadPacket st nReg b nBytes nRepeat).1.reg (loadTarget st nReg)).buf j =
      (packBits (st.reg (loadTarget st nReg)).buf (addChecksum b nBytes) (nBytes + 1)).1 j := by
  obtain ⟨st1, h1, h2⟩ := loadPacket_reg st nReg b nBytes nRepeat
  rw [h2, markRecycle_buf _ _ _ _ hj, clearInvalid_buf _ _ _ _ hj]
  simp [encodeReg, h1]

theorem loadPacket_nBits (st : RegisterList) (nReg : Int) (b : Bytes) (nBytes : Nat) (nRepeat : Int) :
    ((loadPacket st nReg b nBytes nRepeat).1.reg (loadTarget st nReg)).nBits =
      (packBits (st.reg (loadTarget st nReg)).buf (addChecksum b nBytes) (nBytes + 1)).2 := by
  obtain ⟨st1, h1, h2⟩ := loadPacket_reg st nReg b nBytes nRepeat
  rw [h2, markRecycle_nBits, clearInvalid_nBits]
  simp [encodeReg, h1]

set_option maxRecDepth 100000 in
theorem bitSet_eq : ∀ n < 5, ∀ x < 256, bitSet x n = x + 2 ^ n * (1 - x / 2 ^ n % 2) := by
  decide

theorem byte_horner (x : Nat) (h : x < 256) :
    2 * (2 * (2 * (2 * (2 * (2 * (2 * (x / 128 % 2) + x / 64 % 2) + x / 32 % 2) + x / 16 % 2) +
      x / 8 % 2) + x / 4 % 2) + x / 2 % 2) + x % 2 = x := by
  omega

set_option maxHeartbeats 1000000 in
theorem packBits_streamBit_two (buf b : Bytes) (i t : Nat)
    (hb : ∀ j ≤ 2, b j < 256) (hi : i ≤ 2) (ht : t < 8) :
    streamBit (packBits buf b 3).1 (9 * i + 1 + t) = b i / 2 ^ (7 - t) % 2 := by
  have h0 := hb 0 (by omega)
  have h1 := hb 1 (by omega)
  have h2 := hb 2 (by omega)
  interval_cases i <;> interval_cases t <;>
    simp (disch := omega) [packBits, streamBit, setByte, Nat.shiftLeft_eq,
      Nat.shiftRight_eq_div_pow, bitSet_eq] <;> omega

set_option maxHeartbeats 1000000 in
theorem packBits_streamBit_three (buf b : Bytes) (i t : Nat)
    (hb : ∀ j ≤ 3, b j < 256) (hi : i ≤ 3) (ht : t < 8) :
    streamBit (packBits buf b 4).1 (9 * i + 1 + t) = b i / 2 ^ (7 - t) % 2 := by
  have h0 := hb 0 (by omega)
  have h1 := hb 1 (by omega)
  have h2 := hb 2 (by omega)
  have h3 := hb 3 (by omega)
  interval_cases i <;> interval_cases t <;>
    simp (disch := omega) [packBits, streamBit, setByte, Nat.shiftLeft_eq,
      Nat.shiftRight_eq_div_pow, bitSet_eq] <;> omega

set_option maxHeartbeats 1000000 in
theorem packBits_streamBit_four (buf b : Bytes) (i t : Nat)
    (hb : ∀ j ≤ 4, b j < 256) (hi : i ≤ 4) (ht : t < 8) :
    streamBit (packBits buf b 5).1 (9 * i + 1 + t) = b i / 2 ^ (7 - t) % 2 := by
  have h0 := hb 0 (by omega)
  have h1 := hb 1 (by omega)
  have h2 := hb 2 (by omega)
  have h3 := hb 3 (by omega)
  have h4 := hb 4 (by omega)
  interval_cases i <;> interval_cases t <;>
    simp (disch := omega) [packBits, streamBit, setByte, Nat.shiftLeft_eq,
      Nat.shiftRight_eq_div_pow, bitSet_eq] <;> omega

set_option maxHeartbeats 1000000 in
theorem packBits_streamBit_five (buf b : Bytes) (i t : Nat)
    (hb : ∀ j ≤ 5, b j < 256) (hi : i ≤ 5) (ht : t < 8) (hne : ¬ (i = 5 ∧ t = 0)) :
    streamBit (packBits buf b 6).1 (9 * i + 1 + t) = b i / 2 ^ (7 - t) % 2 := by
  have h0 := hb 0 (by omega)
  have h1 := hb 1 (by omega)
  have h2 := hb 2 (by omega)
  have h3 := hb 3 (by omega)
  have h4 := hb 4 (by omega)
  have h5 := hb 5 (by omega)
  interval_cases i <;> interval_cases t <;>
    simp (disch := omega) [packBits, streamBit, setByte, Nat.shiftLeft_eq,
      Nat.shiftRight_eq_div_pow, bitSet_eq] <;> omega

/-- Every data bit of the frame, except the first bit of the sixth byte, is the
corresponding bit of the packed byte. -/
theorem packBits_streamBit (buf b : Bytes) (k i t : Nat) (hk : 2 ≤ k ∧ k ≤ 5)
    (hb : ∀ j ≤ k, b j < 256) (hi : i ≤ k) (ht : t < 8) (hne : ¬ (i = 5 ∧ t = 0)) :
    streamBit (packBits buf b (k + 1)).1 (9 * i + 1 + t) = b i / 2 ^ (7 - t) % 2 := by
  obtain ⟨h2, h5⟩ := hk
  interval_cases k
  · exact packBits_streamBit_two buf b i t hb hi ht
  · exact packBits_streamBit_three buf b i t hb hi ht
  · exact packBits_streamBit_four buf b i t hb hi ht
  · exact packBits_streamBit_five buf b i t hb hi ht hne

theorem packBits_nBits (buf b : Bytes) (k : Nat) (hk : 2 ≤ k ∧ k ≤ 5) :
    (packBits buf b (k + 1)).2 = 9 * k + 10 := by
  obtain ⟨h2, h5⟩ := hk
  interval_cases k <;> simp [packBits]

theorem packBits_stopBit (buf b : Bytes) (k : Nat) (hk : 2 ≤ k ∧ k ≤ 4) :
    streamBit (packBits buf b (k + 1)).1 (9 * k + 9) = 1 := by
  obtain ⟨h2, h5⟩ := hk
  interval_cases k <;>
    simp (disch := omega) [packBits, streamBit, setByte, Nat.shiftLeft_eq,
      Nat.shiftRight_eq_div_pow, bitSet_eq] <;> omega

theorem decodeByte_eq (buf : Bytes) (i x : Nat) (hx : x < 256)
    (h : ∀ t < 8, streamBit buf (9 * i + 1 + t) = x / 2 ^ (7 - t) % 2) :
    decodeByte buf i = x := by
  have e := byte_horner x hx
  simp only [decodeByte, List.range_succ, List.range_zero, List.nil_append, List.cons_append,
    List.foldl_cons, List.foldl_nil]
  rw [h 0 (by omega), h 1 (by omega), h 2 (by omega), h 3 (by omega), h 4 (by omega),
    h 5 (by omega), h 6 (by omega), h 7 (by omega)]
  simpa using e

/-- Decoding the packed buffer gives back every byte, the sixth byte (the checksum of a
five-byte payload) excepted. -/
theorem packBits_decode (buf b : Bytes) (k i : Nat) (hk : 2 ≤ k ∧ k ≤ 5)
    (hb : ∀ j ≤ k, b j < 256) (hi : i ≤ k) (hne : i ≠ 5) :
    decodeByte (packBits buf b (k + 1)).1 i = b i :=
  decodeByte_eq _ i (b i) (hb i hi)
    (fun t ht => packBits_streamBit buf b k i t hk hb hi ht (fun h => hne h.1))

theorem foldl_checksum_of_ne (n j : Nat) (hj : j ≠ n) (l : List Nat) (b : Bytes) :
    (l.foldl (fun b i => setByte b n (b n ^^^ b i)) b) j = b j := by
  induction l generalizing b with
  | nil => rfl
  | cons a l ih => rw [List.foldl_cons, ih]; simp [setByte, hj]

theorem foldl_checksum_lt (n : Nat) (l : List Nat) (b : Bytes) (hb : b n < 256) :
    (l.foldl (fun b i => setByte b n (b n ^^^ b i)) b) n < 256 := by
  induction l generalizing b with
  | nil => exact hb
  | cons a l ih =>
    rw [List.foldl_cons]
    exact ih _ (by simp only [setByte, if_true]; exact Nat.mod_lt _ (by decide))

theorem addChecksum_of_ne (b : Bytes) (n j : Nat) (hj : j ≠ n) : addChecksum b n j = b j := by
  unfold addChecksum
  rw [foldl_checksum_of_ne n j hj]
  simp [setByte, hj]

theorem addChecksum_lt (b : Bytes) (n : Nat) : addChecksum b n n < 256 := by
  unfold addChecksum
  exact foldl_checksum_lt n _ _ (by simp only [setByte, if_true]; exact Nat.mod_lt _ (by decide))

theorem addChecksum_bytes (b : Bytes) (k : Nat) (hb : ∀ i < k, b i < 256) :
    ∀ j ≤ k, addChecksum b k j < 256 := by
  intro j hj
  rcases Nat.lt_or_eq_of_le hj with h | h
  · rw [addChecksum_of_ne b k j (by omega)]; exact hb j h
  · subst h; exact addChecksum_lt b j

theorem decodeByte_congr (buf buf2 : Bytes) (i : Nat) (hi : i ≤ 4)
    (h : ∀ j, j ≠ 6 → buf j = buf2 j) : decodeByte buf i = decodeByte buf2 i := by
  interval_cases i <;> simp [decodeByte, streamBit, List.range_succ, h]

theorem streamBit_congr (buf buf2 : Bytes) (j : Nat) (hj : j < 48)
    (h : ∀ j, j ≠ 6 → buf j = buf2 j) : streamBit buf j = streamBit buf2 j := by
  unfold streamBit
  rw [h (j / 8) (by omega)]

/-- For payloads of 2, 3 or 4 bytes the register written by `loadPacket` decodes to the
payload followed by its checksum, and the frame ends with the stop bit. -/
theorem loadPacket_frame_short (st : RegisterList) (nReg : Int) (b : Bytes) (k : Nat)
    (nRepeat : Int) (hk : 2 ≤ k ∧ k ≤ 4) (hb : ∀ i < k, b i < 256) :
    ((loadPacket st nReg b k nRepeat).1.reg (loadTarget st nReg)).nBits = 9 * k + 10 ∧
    streamBit ((loadPacket st nReg b k nRepeat).1.reg (loadTarget st nReg)).buf (9 * k + 9) = 1 ∧
    ∀ i ≤ k, decodeByte ((loadPacket st nReg b k nRepeat).1.reg (loadTarget st nReg)).buf i
      = (loadPacket st nReg b k nRepeat).2 i := by
  have hbuf := loadPacket_buf st nReg b k nRepeat
  refine ⟨?_, ?_, ?_⟩
  · rw [loadPacket_nBits]; exact packBits_nBits _ _ k ⟨hk.1, by omega⟩
  · rw [streamBit_congr _ _ _ (by omega) hbuf]; exact packBits_stopBit _ _ k hk
  · intro i hi
    rw [decodeByte_congr _ _ i (by omega) hbuf, loadPacket_snd]
    exact packBits_decode _ _ k i ⟨hk.1, by omega⟩ (addChecksum_bytes b k hb) hi (by omega)

/-- C2. A five-byte payload (raw packet `0 0 0 0 0 0`): the bit count is 55, but the
bit at the last position of the frame, stream index 54, is 0; the bit that was set
instead is stream bit 46, the first bit of the checksum. -/
theorem loadPacket_five_bytes_stop_bit :
    ((loadPacket (RegisterList.RegisterList 12) 0 (bytesOf [0, 0, 0, 0, 0]) 5 0).1.reg 0).nBits = 55 ∧
    streamBit ((loadPacket (RegisterList.RegisterList 12) 0 (bytesOf [0, 0, 0, 0, 0]) 5 0).1.reg 0).buf 54 = 0 ∧
    streamBit ((loadPacket (RegisterList.RegisterList 12) 0 (bytesOf [0, 0, 0, 0, 0]) 5 0).1.reg 0).buf 46 = 1 ∧
    (loadPacket (RegisterList.RegisterList 12) 0 (bytesOf [0, 0, 0, 0, 0]) 5 0).1.nextReg = some 0 := by
  decide

/-- C3. A five-byte payload (raw packet `0 0 0 0 0 0`): the checksum stored by `loadPacket`
is 0, but the 8 stream bits at indices 46..53 of the register decode to 0x80. -/
theorem loadPacket_five_bytes_decode :
    (loadPacket (RegisterList.RegisterList 12) 0 (bytesOf [0, 0, 0, 0, 0]) 5 0).2 5 = 0 ∧
    xorBytes (bytesOf [0, 0, 0, 0, 0]) 5 = 0 ∧
    decodeByte ((loadPacket (RegisterList.RegisterList 12) 0 (bytesOf [0, 0, 0, 0, 0]) 5 0).1.reg 0).buf 5
      = 0x80 := by
  decide

/-! ## The fields each statement of loadPacket leaves alone -/

theorem markRecycle_fields (st : RegisterList) (nReg : Int) :
    (markRecycle st nReg).regMap = st.regMap ∧
    (markRecycle st nReg).recycleReg = st.recycleReg ∧
    (markRecycle st nReg).maxLoadedReg = st.maxLoadedReg ∧
    (markRecycle st nReg).nextReg = st.nextReg ∧
    (markRecycle st nReg).maxNumRegs = st.maxNumRegs ∧
    (markRecycle st nReg).nRepeat = st.nRepeat ∧
    (markRecycle st nReg).speedTable = st.speedTable := by
  unfold markRecycle
  split
  · split <;> simp
  · simp

@[simp] theorem markRecycle_regMap (st : RegisterList) (nReg : Int) :
    (markRecycle st nReg).regMap = st.regMap := (markRecycle_fields st nReg).1

@[simp] theorem markRecycle_recycleReg (st : RegisterList) (nReg : Int) :
    (markRecycle st nReg).recycleReg = st.recycleReg := (markRecycle_fields st nReg).2.1

@[simp] theorem markRecycle_maxLoadedReg (st : RegisterList) (nReg : Int) :
    (markRecycle st nReg).maxLoadedReg = st.maxLoadedReg := (markRecycle_fields st nReg).2.2.1

@[simp] theorem markRecycle_nextReg (st : RegisterList) (nReg : Int) :
    (markRecycle st nReg).nextReg = st.nextReg := (markRecycle_fields st nReg).2.2.2.1

@[simp] theorem markRecycle_maxNumRegs (st : RegisterList) (nReg : Int) :
    (markRecycle st nReg).maxNumRegs = st.maxNumRegs := (markRecycle_fields st nReg).2.2.2.2.1

@[simp] theorem markRecycle_speedTable (st : RegisterList) (nReg : Int) :
    (markRecycle st nReg).speedTable = st.speedTable := (markRecycle_fields st nReg).2.2.2.2.2.2

theorem coerceReg_of_mem (nReg : Int) (n : Nat) (h : 0 ≤ nReg ∧ nReg ≤ n) :
    coerceReg nReg n = nReg :=
  Int.tmod_eq_of_lt h.1 (by omega)

/-- The pointer fields after `loadPacket` on a slot number that is not coerced to 0. -/
theorem loadPacket_fields_of_ne (st : RegisterList) (nReg : Int) (b : Bytes) (nBytes : Nat)
    (nRepeat : Int) (h : coerceReg nReg st.maxNumRegs ≠ 0) :
    loadTarget st nReg = chooseReg st ∧
    (loadPacket st nReg b nBytes nRepeat).1.regMap =
      (fun i => if i = coerceReg nReg st.maxNumRegs then some (chooseReg st) else st.regMap i) ∧
    (loadPacket st nReg b nBytes nRepeat).1.recycleReg = st.regMap (coerceReg nReg st.maxNumRegs) ∧
    (loadPacket st nReg b nBytes nRepeat).1.maxLoadedReg = max st.maxLoadedReg (chooseReg st) ∧
    (loadPacket st nReg b nBytes nRepeat).1.nextReg = some (chooseReg st) ∧
    (loadPacket st nReg b nBytes nRepeat).1.nRepeat = nRepeat ∧
    (loadPacket st nReg b nBytes nRepeat).1.maxNumRegs = st.maxNumRegs ∧
    (loadPacket st nReg b nBytes nRepeat).1.speedTable = st.speedTable := by
  have ht : loadTarget st nReg = chooseReg st := by
    simp [loadTarget, h, targetReg, selectReg]
  refine ⟨ht, ?_, ?_, ?_, ?_, ?_, ?_, ?_⟩ <;>
    simp [loadPacket, h, publish, awaitNext, clearInvalid, encodeReg, selectReg, targetReg, maxReg]

/-- The pointer fields after `loadPacket` on slot number 0. -/
theorem loadPacket_fields_of_zero (st : RegisterList) (nReg : Int) (b : Bytes) (nBytes : Nat)
    (nRepeat : Int) (h : coerceReg nReg st.maxNumRegs = 0) :
    loadTarget st nReg = (st.regMap 0).getD 0 ∧
    (loadPacket st nReg b nBytes nRepeat).1.regMap = st.regMap ∧
    (loadPacket st nReg b nBytes nRepeat).1.recycleReg = st.recycleReg ∧
    (loadPacket st nReg b nBytes nRepeat).1.maxLoadedReg =
      max st.maxLoadedReg ((st.regMap 0).getD 0) ∧
    (loadPacket st nReg b nBytes nRepeat).1.nextReg = some ((st.regMap 0).getD 0) ∧
    (loadPacket st nReg b nBytes nRepeat).1.nRepeat = nRepeat ∧
    (loadPacket st nReg b nBytes nRepeat).1.maxNumRegs = st.maxNumRegs ∧
    (loadPacket st nReg b nBytes nRepeat).1.speedTable = st.speedTable := by
  have ht : loadTarget st nReg = (st.regMap 0).getD 0 := by
    simp [loadTarget, h, targetReg, awaitNext]
  refine ⟨ht, ?_, ?_, ?_, ?_, ?_, ?_, ?_⟩ <;>
    simp [loadPacket, h, publish, awaitNext, clearInvalid, encodeReg, targetReg, maxReg]

/-! ## Cab addresses -/

theorem highByte_natCast (n : Nat) : highByte (n : Int) = n / 256 % 256 := by
  unfold highByte
  have e : ((n : Int) >>> (8 : Nat)) % 256 = ((n / 256 % 256 : Nat) : Int) := by
    simp [Int.shiftRight_eq_div_pow]
  rw [e, Int.toNat_ofNat]

theorem lowByte_natCast (n : Nat) : lowByte (n : Int) = n % 256 := by
  unfold lowByte
  have e : (n : Int) % 256 = ((n % 256 : Nat) : Int) := by norm_num
  rw [e, Int.toNat_ofNat]

set_option maxRecDepth 100000 in
theorem cab_high_bits : ∀ h < 64, (h ||| 0xC0) % 256 = h + 192 ∧ (h + 192) &&& 0x3F = h := by
  decide

theorem shift_or_low (h l : Nat) (hl : l < 256) : (h <<< 8) ||| l = h * 256 + l := by
  rw [Nat.shiftLeft_eq, Nat.mul_comm]
  exact (Nat.mul_add_lt_is_or (i := 8) hl h).symm

/-- C8. For a cab address `c` in `1..10239` the address bytes a command builder emits
(`lowByte(c)` alone when `c ≤ 127`, else `highByte(c)|0xC0` and `lowByte(c)`) decode back
to `c`, and the first byte tells the two forms apart: it is below `0x80` exactly in the
one-byte form. -/
theorem cab_address_round_trip (c : Int) (hc : 1 ≤ c ∧ c ≤ 10239) (b : Bytes) :
    (decodeCab (payloadOf (pushCab (b, 0) c).1 (pushCab (b, 0) c).2)).map Int.ofNat = some c ∧
    ((pushCab (b, 0) c).2 = 1 ∨ (pushCab (b, 0) c).2 = 2) ∧
    ((pushCab (b, 0) c).2 = 1 ↔ (pushCab (b, 0) c).1 0 < 0x80) ∧
    ((pushCab (b, 0) c).2 = 1 ↔ c ≤ 127) := by
  obtain ⟨h1, h2⟩ := hc
  obtain ⟨n, rfl⟩ := Int.eq_ofNat_of_zero_le (by omega : 0 ≤ c)
  by_cases h : (n : Int) > 127
  · have hn : 127 < n := by omega
    have hhi : n / 256 % 256 = n / 256 := Nat.mod_eq_of_lt (by omega)
    obtain ⟨e1, e2⟩ := cab_high_bits (n / 256) (by omega)
    have e3 := shift_or_low (n / 256) (n % 256) (Nat.mod_lt _ (by decide))
    have hp : pushCab (b, 0) (n : Int) =
        (setByte (setByte b 0 (n / 256 ||| 0xC0)) 1 (n % 256), 2) := by
      simp only [pushCab, h, if_true, pushByte, highByte_natCast, lowByte_natCast, hhi]
    rw [hp]
    have b0 : setByte (setByte b 0 (n / 256 ||| 0xC0)) 1 (n % 256) 0 = n / 256 + 192 := by
      simp [setByte, e1]
    have b1 : setByte (setByte b 0 (n / 256 ||| 0xC0)) 1 (n % 256) 1 = n % 256 := by
      simp [setByte]
    refine ⟨?_, Or.inr rfl, ?_, ?_⟩
    · simp only [payloadOf, List.range_succ, List.range_zero, List.nil_append, List.cons_append,
        List.map_cons, List.map_nil, b0, b1, decodeCab]
      rw [if_neg (by omega), e2, e3]
      simp only [Option.map_some', Option.some.injEq]
      have := Nat.div_add_mod n 256
      show ((n / 256 * 256 + n % 256 : Nat) : Int) = (n : Int)
      congr 1
      omega
    · show (2 : Nat) = 1 ↔ setByte (setByte b 0 (n / 256 ||| 0xC0)) 1 (n % 256) 0 < 128
      rw [b0]; constructor <;> intro h' <;> omega
    · constructor <;> intro h' <;> omega
  · have hn : n ≤ 127 := by omega
    have hlo : n % 256 = n := Nat.mod_eq_of_lt (by omega)
    have hp : pushCab (b, 0) (n : Int) = (setByte b 0 n, 1) := by
      simp only [pushCab, h, if_false, pushByte, lowByte_natCast, hlo]
    rw [hp]
    have b0 : setByte b 0 n 0 = n := by simp [setByte, hlo]
    refine ⟨?_, Or.inl rfl, ?_, ?_⟩
    · simp only [payloadOf, List.range_succ, List.range_zero, List.nil_append,
        List.map_cons, List.map_nil, b0, decodeCab]
      rw [if_pos (by omega)]
      rfl
    · show (1 : Nat) = 1 ↔ setByte b 0 n 0 < 128
      rw [b0]; constructor <;> intro h' <;> omega
    · constructor <;> intro h' <;> omega

/-- C8, witness: cab 3000 is emitted as `0xCB 0xB8` and read back as 3000. -/
theorem cab_address_round_trip_witness :
    ((1 : Int) ≤ 3000 ∧ (3000 : Int) ≤ 10239) ∧
    (decodeCab (payloadOf (pushCab (fun _ => 0, 0) 3000).1 (pushCab (fun _ => 0, 0) 3000).2)).map
      Int.ofNat = some 3000 ∧
    payloadOf (pushCab (fun _ => 0, 0) 3000).1 (pushCab (fun _ => 0, 0) 3000).2 = [0xCB, 0xB8] :=
  ⟨by decide, (cab_address_round_trip 3000 (by decide) (fun _ => 0)).1, by decide⟩

/-! ## Throttle -/

theorem ldiff_one (m : Nat) : Nat.ldiff 1 m = 1 - m % 2 := by
  apply Nat.eq_of_testBit_eq
  intro i
  rw [Nat.testBit_ldiff]
  rcases Nat.mod_two_eq_zero_or_one m with h | h
  · rw [h]
    cases i with
    | zero => simp [Nat.testBit_zero, h]
    | succ i => simp [Nat.testBit_succ]
  · rw [h]
    cases i with
    | zero => simp [Nat.testBit_zero, h]
    | succ i => simp [Nat.testBit_succ]

/-- On a two's complement `int`, `x & 0x01` is the remainder of `x` modulo 2. -/
theorem land_one (x : Int) : Int.land x 0x01 = x % 2 := by
  cases x with
  | ofNat n =>
    show ((n &&& 1 : Nat) : Int) = _
    rw [Nat.and_one_is_mod]; rfl
  | negSucc m =>
    show ((Nat.ldiff 1 m : Nat) : Int) = _
    rw [ldiff_one]
    have e : Int.negSucc m = -((m : Int) + 1) := Int.negSucc_eq m
    rw [e]
    omega

theorem throttleLocals_tDirection (cab tSpeed tDirection : Int) :
    (throttleLocals cab tSpeed tDirection).tDirection = tDirection % 2 := by
  simp only [throttleLocals, land_one]
  split_ifs <;> rfl

theorem throttleLocals_nB (cab tSpeed tDirection : Int) :
    (throttleLocals cab tSpeed tDirection).nB = (pushCab (fun _ => 0, 0) cab).2 + 2 := by
  simp only [throttleLocals, pushCab, pushByte]
  split_ifs <;> rfl

theorem throttleLocals_b_cab (cab tSpeed tDirection : Int) (i : Nat)
    (hi : i < (pushCab (fun _ => 0, 0) cab).2) :
    (throttleLocals cab tSpeed tDirection).b i = (pushCab (fun _ => 0, 0) cab).1 i := by
  simp only [throttleLocals, pushCab, pushByte] at *
  split_ifs at * <;> simp only [setByte] at * <;> interval_cases i <;> simp

theorem throttleLocals_b_lt (cab tSpeed tDirection : Int) (i : Nat)
    (hi : i < (throttleLocals cab tSpeed tDirection).nB) :
    (throttleLocals cab tSpeed tDirection).b i < 256 := by
  simp only [throttleLocals, pushCab, pushByte] at *
  split_ifs at * <;> simp only [setByte] at * <;> interval_cases i <;> simp <;> omega

theorem throttleLocals_b_3F (cab tSpeed tDirection : Int) :
    (throttleLocals cab tSpeed tDirection).b ((throttleLocals cab tSpeed tDirection).nB - 2) = 0x3F := by
  simp only [throttleLocals, pushCab, pushByte]
  split_ifs <;> simp [setByte]

theorem throttleLocals_speed_byte (cab tSpeed tDirection : Int) :
    (0 ≤ tSpeed →
      ((throttleLocals cab tSpeed tDirection).b ((throttleLocals cab tSpeed tDirection).nB - 1) : Int)
        = min tSpeed 126 + (if tSpeed > 0 then 1 else 0) + (tDirection % 2) * 128) ∧
    (tSpeed < 0 →
      (throttleLocals cab tSpeed tDirection).b ((throttleLocals cab tSpeed tDirection).nB - 1) = 1) := by
  have hd := Int.emod_two_eq tDirection
  simp only [throttleLocals, pushCab, pushByte, land_one]
  constructor
  · intro h0
    split_ifs <;> simp [setByte, toByte] <;> omega
  · intro h0
    split_ifs <;> first | omega | simp [setByte]

theorem throttleLocals_tSpeed (cab tSpeed tDirection : Int) :
    (throttleLocals cab tSpeed tDirection).tSpeed = if tSpeed < 0 then 0 else min tSpeed 126 := by
  simp only [throttleLocals]
  split_ifs <;> simp only [] <;> omega

/-- C9. An accepted throttle command (`1 ≤ nReg ≤ maxNumRegs`) loads the packet made of the
cab-address bytes, `0x3F` and a speed byte whose low 7 bits are 0 for speed 0, 1 for a
negative speed and `min(speed,126)+1` (in `2..127`) for a speed of at least 1; the packet
goes to the register mapped to `nReg`, which is handed over in `nextReg`, with repeat 0. -/
theorem setThrottle_packet (st : RegisterList) (nReg cab tSpeed tDirection : Int)
    (h : 1 ≤ nReg ∧ nReg ≤ st.maxNumRegs) :
    payloadOf (throttleLocals cab tSpeed tDirection).b (throttleLocals cab tSpeed tDirection).nB
      = payloadOf (pushCab (fun _ => 0, 0) cab).1 (pushCab (fun _ => 0, 0) cab).2
        ++ [0x3F, (throttleLocals cab tSpeed tDirection).b
              ((throttleLocals cab tSpeed tDirection).nB - 1)] ∧
    (tSpeed = 0 → (throttleLocals cab tSpeed tDirection).b
        ((throttleLocals cab tSpeed tDirection).nB - 1) % 128 = 0) ∧
    (tSpeed < 0 → (throttleLocals cab tSpeed tDirection).b
        ((throttleLocals cab tSpeed tDirection).nB - 1) % 128 = 1) ∧
    (1 ≤ tSpeed →
      (((throttleLocals cab tSpeed tDirection).b
        ((throttleLocals cab tSpeed tDirection).nB - 1) % 128 : Nat) : Int) = min tSpeed 126 + 1 ∧
      2 ≤ (throttleLocals cab tSpeed tDirection).b
        ((throttleLocals cab tSpeed tDirection).nB - 1) % 128) ∧
    (setThrottle st nReg cab tSpeed tDirection).1.nRepeat = 0 ∧
    (setThrottle st nReg cab tSpeed tDirection).1.regMap nReg = some (loadTarget st nReg) ∧
    (setThrottle st nReg cab tSpeed tDirection).1.nextReg = some (loadTarget st nReg) ∧
    ((setThrottle st nReg cab tSpeed tDirection).1.reg (loadTarget st nReg)).nBits
      = 9 * (throttleLocals cab tSpeed tDirection).nB + 10 ∧
    ∀ i < (throttleLocals cab tSpeed tDirection).nB,
      decodeByte ((setThrottle st nReg cab tSpeed tDirection).1.reg (loadTarget st nReg)).buf i
        = (throttleLocals cab tSpeed tDirection).b i := by
  have hc : coerceReg nReg st.maxNumRegs = nReg := coerceReg_of_mem nReg _ ⟨by omega, h.2⟩
  have hne : coerceReg nReg st.maxNumRegs ≠ 0 := by rw [hc]; omega
  have hg : ¬ (nReg < 1 ∨ nReg > st.maxNumRegs) := by omega
  obtain ⟨s0, s1⟩ := throttleLocals_speed_byte cab tSpeed tDirection
  have hd := Int.emod_two_eq tDirection
  have hnB := throttleLocals_nB cab tSpeed tDirection
  have hcab : (pushCab (fun _ => 0, 0) cab).2 = 1 ∨ (pushCab (fun _ => 0, 0) cab).2 = 2 := by
    simp only [pushCab, pushByte]; split_ifs <;> simp
  have h3F := throttleLocals_b_3F cab tSpeed tDirection
  obtain ⟨f1, f2, f3, f4, f5, f6, f7, f8⟩ :=
    loadPacket_fields_of_ne st nReg (throttleLocals cab tSpeed tDirection).b
      (throttleLocals cab tSpeed tDirection).nB 0 hne
  have hk : 2 ≤ (throttleLocals cab tSpeed tDirection).nB ∧
      (throttleLocals cab tSpeed tDirection).nB ≤ 4 := by omega
  obtain ⟨g1, g2, g3⟩ := loadPacket_frame_short st nReg (throttleLocals cab tSpeed tDirection).b
    (throttleLocals cab tSpeed tDirection).nB 0 hk (throttleLocals_b_lt cab tSpeed tDirection)
  refine ⟨?_, ?_, ?_, ?_, ?_, ?_, ?_, ?_, ?_⟩
  · rcases hcab with e | e
    · have hn : (throttleLocals cab tSpeed tDirection).nB = 3 := by omega
      have c0 := throttleLocals_b_cab cab tSpeed tDirection 0 (by omega)
      rw [hn] at h3F ⊢
      simp [payloadOf, List.range_succ, e, c0, h3F]
    · have hn : (throttleLocals cab tSpeed tDirection).nB = 4 := by omega
      have c0 := throttleLocals_b_cab cab tSpeed tDirection 0 (by omega)
      have c1 := throttleLocals_b_cab cab tSpeed tDirection 1 (by omega)
      rw [hn] at h3F ⊢
      simp [payloadOf, List.range_succ, e, c0, c1, h3F]
  · intro hs
    have := s0 (by omega)
    rw [hs] at this
    simp at this
    omega
  · intro hs
    rw [s1 hs]
  · intro hs
    have := s0 (by omega)
    rw [if_pos (by omega)] at this
    omega
  · simp [setThrottle, hg, f6]
  · simp [setThrottle, hg, f2, f1, hc]
  · simp [setThrottle, hg, f5, f1]
  · simp only [setThrottle, hg, if_false]
    exact g1
  · intro i hi
    simp only [setThrottle, hg, if_false]
    rw [g3 i (by omega), loadPacket_snd, addChecksum_of_ne _ _ _ (by omega)]

/-- C9, witness: `3 42 64 1` builds `[0x2A, 0x3F, 0xC1]`, `1 3000 -1 0` builds
`[0xCB, 0xB8, 0x3F, 0x01]`, and the load has repeat 0. -/
theorem setThrottle_packet_witness :
    ((1 : Int) ≤ 3 ∧ (3 : Int) ≤ (RegisterList.RegisterList 12).maxNumRegs) ∧
    payloadOf (throttleLocals 42 64 1).b (throttleLocals 42 64 1).nB = [0x2A, 0x3F, 0xC1] ∧
    payloadOf (throttleLocals 3000 (-1) 0).b (throttleLocals 3000 (-1) 0).nB
      = [0xCB, 0xB8, 0x3F, 0x01] ∧
    (setThrottle (RegisterList.RegisterList 12) 3 42 64 1).1.nRepeat = 0 :=
  ⟨by decide, by decide, by decide,
    (setThrottle_packet (RegisterList.RegisterList 12) 3 42 64 1 (by decide)).2.2.2.2.1⟩

/-- C10, counterexample. The accepted command `1 3 -1 1` (emergency stop, direction 1):
the speed byte is `0x01`, so its bit 7 is 0, while the low bit of the direction argument,
the direction in the response and bit 7 of `speedTable[1]` are all 1. -/
theorem setThrottle_direction_counterexample :
    (throttleLocals 3 (-1) 1).b ((throttleLocals 3 (-1) 1).nB - 1) = 0x01 ∧
    ((throttleLocals 3 (-1) 1).b ((throttleLocals 3 (-1) 1).nB - 1) / 128 % 2 : Int)
      ≠ Int.land 1 0x01 ∧
    (setThrottle (RegisterList.RegisterList 12) 1 3 (-1) 1).2
      = some { nReg := 1, tSpeed := 0, tDirection := 1 } ∧
    (setThrottle (RegisterList.RegisterList 12) 1 3 (-1) 1).1.speedTable 1 = 128 := by
  decide

/-- C10, amended. For an accepted throttle command with a speed of at least 0, bit 7 of the
speed byte is the low bit of the direction argument; for a negative speed the speed byte is
`0x01` whatever the direction.  In both cases the response carries the low bit of the
direction argument (with the capped speed, 0 for a negative one) and `speedTable[nReg]` is
that speed plus 128 times that bit. -/
theorem setThrottle_direction (st : RegisterList) (nReg cab tSpeed tDirection : Int)
    (h : 1 ≤ nReg ∧ nReg ≤ st.maxNumRegs) :
    (0 ≤ tSpeed →
      (((throttleLocals cab tSpeed tDirection).b
        ((throttleLocals cab tSpeed tDirection).nB - 1) / 128 % 2 : Nat) : Int)
        = Int.land tDirection 0x01) ∧
    (tSpeed < 0 →
      (throttleLocals cab tSpeed tDirection).b
        ((throttleLocals cab tSpeed tDirection).nB - 1) = 0x01) ∧
    (setThrottle st nReg cab tSpeed tDirection).2
      = some { nReg := nReg, tSpeed := if tSpeed < 0 then 0 else min tSpeed 126,
               tDirection := Int.land tDirection 0x01 } ∧
    (((setThrottle st nReg cab tSpeed tDirection).1.speedTable nReg : Nat) : Int)
      = (if tSpeed < 0 then 0 else min tSpeed 126) + Int.land tDirection 0x01 * 128 ∧
    (Int.land tDirection 0x01 = 0 ∨ Int.land tDirection 0x01 = 1) := by
  have hg : ¬ (nReg < 1 ∨ nReg > st.maxNumRegs) := by omega
  obtain ⟨s0, s1⟩ := throttleLocals_speed_byte cab tSpeed tDirection
  have hd := Int.emod_two_eq tDirection
  have hD := throttleLocals_tDirection cab tSpeed tDirection
  have hS := throttleLocals_tSpeed cab tSpeed tDirection
  rw [land_one]
  refine ⟨?_, s1, ?_, ?_, hd⟩
  · intro hs
    have := s0 hs
    split_ifs at this <;> omega
  · simp only [setThrottle, hg, if_false, hD, hS]
  · simp only [setThrottle, hg, if_false, hD, hS, if_true, toByte]
    split_ifs <;> omega

/-- C10, witness: `3 42 64 1` has direction bit 1 in the speed byte `0xC1`. -/
theorem setThrottle_direction_witness :
    ((1 : Int) ≤ 3 ∧ (3 : Int) ≤ (RegisterList.RegisterList 12).maxNumRegs) ∧
    (setThrottle (RegisterList.RegisterList 12) 3 42 64 1).2
      = some { nReg := 3, tSpeed := 64, tDirection := 1 } :=
  ⟨by decide, (setThrottle_direction (RegisterList.RegisterList 12) 3 42 64 1 (by decide)).2.2.1⟩

/-! ## The watermark -/

/-- C5. Capacity 12, throttle commands for slots 1, 2, ..., 12 and then slot 1 again: the
thirteenth call chooses physical register 13 and `maxLoadedReg` becomes 13, outside the
13-element array `reg[0..12]`.  With capacity 1, two commands for slot 1 choose register 2. -/
theorem throttleAll_overflow :
    (throttleAll (RegisterList.RegisterList 12) [1, 2, 3, 4, 5, 6, 7, 8, 9, 10, 11, 12]).maxLoadedReg
      = 12 ∧
    (throttleAll (RegisterList.RegisterList 12)
      [1, 2, 3, 4, 5, 6, 7, 8, 9, 10, 11, 12, 1]).maxLoadedReg = 13 ∧
    (throttleAll (RegisterList.RegisterList 12)
      [1, 2, 3, 4, 5, 6, 7, 8, 9, 10, 11, 12, 1]).nextReg = some 13 ∧
    (throttleAll (RegisterList.RegisterList 12)
      [1, 2, 3, 4, 5, 6, 7, 8, 9, 10, 11, 12, 1]).maxNumRegs = 12 ∧
    (throttleAll (RegisterList.RegisterList 1) [1, 1]).maxLoadedReg = 2 := by
  decide

/-! ## The invalid flag -/

theorem flag_after_and (x : Nat) : (x &&& 0xFE) % 256 % 2 = 0 := by
  have h : ¬ ((x &&& 0xFE) % 2 = 1) := by
    rw [Nat.and_mod_two_eq_one]
    omega
  omega

theorem flag_after_or (x : Nat) : (x ||| 0x01) % 256 % 2 = 1 := by
  have h : (x ||| 0x01) % 2 = 1 := by
    rw [Nat.or_mod_two_eq_one]
    omega
  omega

theorem clearInvalid_flag_self (st : RegisterList) (p : Nat) :
    invalidFlag ((clearInvalid st p).reg p) = 0 := by
  simp [clearInvalid, invalidFlag, setByte, flag_after_and]

theorem clearInvalid_reg_of_ne (st : RegisterList) (p q : Nat) (h : q ≠ p) :
    (clearInvalid st p).reg q = st.reg q := by
  simp [clearInvalid, h]

theorem encodeReg_reg_of_ne (st : RegisterList) (p q : Nat) (b : Bytes) (n : Nat) (h : q ≠ p) :
    (encodeReg st p b n).reg q = st.reg q := by
  simp [encodeReg, h]

theorem packBits_flag (buf b : Bytes) (n : Nat) :
    (packBits buf b n).1 6 % 2 = 0 ∨ (packBits buf b n).1 6 = buf 6 := by
  unfold packBits
  simp only []
  split_ifs
  · right; simp [setByte]
  · right; simp [setByte]
  · right; simp [setByte]
  · left
    simp only [setByte, if_true, if_false, show (6 : Nat) ≠ 5 by decide, Nat.shiftLeft_eq]
    omega

/-- Bit packing never raises the invalid flag of the register it writes. -/
theorem encodeReg_flag_le (st : RegisterList) (p q : Nat) (b : Bytes) (n : Nat)
    (h : invalidFlag (st.reg q) = 0) : invalidFlag ((encodeReg st p b n).reg q) = 0 := by
  by_cases hq : q = p
  · subst hq
    simp only [encodeReg, invalidFlag, if_true] at *
    rcases packBits_flag (st.reg q).buf b n with h1 | h1
    · exact h1
    · rw [h1]; exact h
  · rw [encodeReg_reg_of_ne _ _ _ _ _ hq]; exact h

theorem markRecycle_reg_of_ne (st : RegisterList) (nReg : Int) (q : Nat)
    (h : st.recycleReg ≠ some q) : (markRecycle st nReg).reg q = st.reg q := by
  unfold markRecycle
  split
  · next r hr =>
    split
    · have : q ≠ r := fun e => h (by rw [hr, e])
      simp [this]
    · rfl
  · rfl

theorem markRecycle_zero (st : RegisterList) : markRecycle st 0 = st := by
  unfold markRecycle
  split <;> simp

/-! ## The slot table invariant -/

theorem chooseReg_cases (st : RegisterList) :
    (st.recycleReg = some (chooseReg st) ∧ chooseReg st ≤ st.maxLoadedReg) ∨
      chooseReg st = st.maxLoadedReg + 1 := by
  unfold chooseReg
  split
  · next r hr =>
    left
    have h1 := List.find?_some hr
    have h2 := List.mem_of_find?_eq_some hr
    simp only [decide_eq_true_eq] at h1
    rw [List.mem_range] at h2
    exact ⟨h1.symm, by omega⟩
  · right; rfl

theorem good_init (maxNumRegs : Nat) : Good (RegisterList.RegisterList maxNumRegs) where
  zero := rfl
  pos := by
    intro i q hi h
    simp [RegisterList.RegisterList, hi] at h
  inj := by
    intro i j q hi hj
    simp only [RegisterList.RegisterList] at hi hj
    split_ifs at hi hj
    simp_all
  recyc := by
    intro r h
    simp [RegisterList.RegisterList] at h
  next := rfl

theorem good_adoptNext (st : RegisterList) (h : Good st) : Good (adoptNext st) where
  zero := h.zero
  pos := h.pos
  inj := h.inj
  recyc := h.recyc
  next := rfl

/-- The chosen register is at least 1 and is not mapped. -/
theorem chooseReg_fresh (st : RegisterList) (h : Good st) :
    1 ≤ chooseReg st ∧ ∀ i, st.regMap i ≠ some (chooseReg st) := by
  rcases chooseReg_cases st with ⟨h1, h2⟩ | h1
  · refine ⟨h.recyc _ h1, ?_⟩
    intro i hi
    by_cases h0 : i = 0
    · subst h0
      rw [h.zero] at hi
      have := h.recyc _ h1
      injection hi with hi
      omega
    · exact (h.pos i _ h0 hi).2.2 h1
  · refine ⟨by omega, ?_⟩
    intro i hi
    by_cases h0 : i = 0
    · subst h0
      rw [h.zero] at hi
      injection hi with hi
      omega
    · have := (h.pos i _ h0 hi).2.1
      omega

theorem store_fields (st : RegisterList) (nReg : Int) (p : Nat) (b : Bytes) (n : Nat)
    (nRepeat : Int) :
    (publish (markRecycle (clearInvalid (encodeReg st p b n) p) nReg) p nRepeat).regMap
      = st.regMap ∧
    (publish (markRecycle (clearInvalid (encodeReg st p b n) p) nReg) p nRepeat).recycleReg
      = st.recycleReg ∧
    (publish (markRecycle (clearInvalid (encodeReg st p b n) p) nReg) p nRepeat).maxLoadedReg
      = max st.maxLoadedReg p ∧
    (publish (markRecycle (clearInvalid (encodeReg st p b n) p) nReg) p nRepeat).nextReg
      = some p ∧
    (publish (markRecycle (clearInvalid (encodeReg st p b n) p) nReg) p nRepeat).reg
      = (markRecycle (clearInvalid (encodeReg st p b n) p) nReg).reg := by
  refine ⟨?_, ?_, ?_, ?_, ?_⟩ <;> simp [publish, encodeReg, clearInvalid, maxReg]

theorem good_store_of_ne (st : RegisterList) (h : Good st) (nReg : Int) (hn : nReg ≠ 0)
    (b : Bytes) (n : Nat) (nRepeat : Int) :
    Good (publish (markRecycle (clearInvalid (encodeReg (selectReg st nReg) (chooseReg st) b n)
      (chooseReg st)) nReg) (chooseReg st) nRepeat) := by
  obtain ⟨hp1, hp2⟩ := chooseReg_fresh st h
  obtain ⟨f1, f2, f3, f4, f5⟩ :=
    store_fields (selectReg st nReg) nReg (chooseReg st) b n nRepeat
  have g1 : (selectReg st nReg).regMap
      = fun i => if i = nReg then some (chooseReg st) else st.regMap i := rfl
  have g2 : (selectReg st nReg).recycleReg = st.regMap nReg := rfl
  have g3 : (selectReg st nReg).maxLoadedReg = st.maxLoadedReg := rfl
  rw [g1] at f1
  rw [g2] at f2
  rw [g3] at f3
  constructor
  · rw [f1]
    show (if (0 : Int) = nReg then some (chooseReg st) else st.regMap 0) = some 0
    rw [if_neg (fun e => hn e.symm)]
    exact h.zero
  · intro i q hi hq
    rw [f1] at hq
    rw [f2, f3]
    have hq' : (if i = nReg then some (chooseReg st) else st.regMap i) = some q := hq
    by_cases e : i = nReg
    · rw [if_pos e] at hq'
      injection hq' with hq'
      subst hq'
      exact ⟨hp1, le_max_right _ _, hp2 nReg⟩
    · rw [if_neg e] at hq'
      obtain ⟨a1, a2, -⟩ := h.pos i q hi hq'
      refine ⟨a1, le_trans a2 (le_max_left _ _), ?_⟩
      intro hc
      exact e (h.inj i nReg q hq' hc)
  · intro i j q hi hj
    rw [f1] at hi hj
    have hi' : (if i = nReg then some (chooseReg st) else st.regMap i) = some q := hi
    have hj' : (if j = nReg then some (chooseReg st) else st.regMap j) = some q := hj
    by_cases ei : i = nReg <;> by_cases ej : j = nReg
    · rw [ei, ej]
    · rw [if_pos ei] at hi'; rw [if_neg ej] at hj'
      injection hi' with hi'
      exact absurd (hi' ▸ hj') (hp2 j)
    · rw [if_neg ei] at hi'; rw [if_pos ej] at hj'
      injection hj' with hj'
      exact absurd (hj' ▸ hi') (hp2 i)
    · rw [if_neg ei] at hi'; rw [if_neg ej] at hj'
      exact h.inj i j q hi' hj'
  · intro r hr
    rw [f2] at hr
    exact (h.pos nReg r hn hr).1
  · have hne : (clearInvalid (encodeReg (selectReg st nReg) (chooseReg st) b n)
        (chooseReg st)).recycleReg ≠ some (chooseReg st) := hp2 nReg
    simp only [nextValid, f4, f5, beq_iff_eq]
    rw [markRecycle_reg_of_ne _ _ _ hne]
    exact clearInvalid_flag_self _ _

theorem good_store_of_zero (st : RegisterList) (h : Good st) (b : Bytes) (n : Nat)
    (nRepeat : Int) :
    Good (publish (markRecycle (clearInvalid (encodeReg st 0 b n) 0) 0) 0 nRepeat) := by
  obtain ⟨f1, f2, f3, f4, f5⟩ := store_fields st 0 0 b n nRepeat
  constructor
  · rw [f1]; exact h.zero
  · intro i q hi hq
    rw [f1] at hq
    rw [f2, f3]
    obtain ⟨a1, a2, a3⟩ := h.pos i q hi hq
    exact ⟨a1, le_trans a2 (le_max_left _ _), a3⟩
  · rw [f1]; exact h.inj
  · rw [f2]; exact h.recyc
  · simp only [nextValid, f4, f5, beq_iff_eq]
    rw [markRecycle_zero]
    exact clearInvalid_flag_self _ _

/-! ## The interleaved system keeps its invariant -/

theorem markRecycle_adoptNext (st : RegisterList) (nReg : Int) :
    markRecycle (adoptNext st) nReg = adoptNext (markRecycle st nReg) := by
  unfold markRecycle adoptNext
  cases h : st.recycleReg with
  | none => simp [h]
  | some r => by_cases hn : nReg ≠ 0 <;> simp [h, hn]

theorem preRegs_adoptNext (st : RegisterList) (nReg : Int) :
    preRegs (adoptNext st) nReg = adoptNext (preRegs st nReg) := by
  unfold preRegs
  split_ifs <;> rfl

theorem inFlight_adoptNext (st : RegisterList) (fr : Frame) (b : Bytes) (n : Nat) :
    inFlight (adoptNext st) fr b n = adoptNext (inFlight st fr b n) := by
  unfold inFlight
  cases fr.pc <;> simp only [preRegs_adoptNext, markRecycle_adoptNext] <;> first
    | rfl
    | (rw [← markRecycle_adoptNext]; rfl)

theorem targetReg_preRegs_adoptNext (st : RegisterList) (nReg : Int) :
    targetReg (preRegs (adoptNext st) nReg) nReg = targetReg (preRegs st nReg) nReg := by
  rw [preRegs_adoptNext]; rfl

theorem preRegs_nextReg (st : RegisterList) (nReg : Int) :
    (preRegs st nReg).nextReg = st.nextReg := by
  unfold preRegs
  split_ifs <;> rfl

theorem preRegs_reg (st : RegisterList) (nReg : Int) : (preRegs st nReg).reg = st.reg := by
  unfold preRegs
  split_ifs <;> rfl

theorem inFlight_nextReg (st : RegisterList) (fr : Frame) (b : Bytes) (n : Nat) :
    (inFlight st fr b n).nextReg = st.nextReg := by
  unfold inFlight
  cases fr.pc <;> simp only [markRecycle_nextReg] <;> first
    | rfl
    | exact preRegs_nextReg st fr.nReg

theorem inv_init (maxNumRegs : Nat) : Inv (System.init maxNumRegs) :=
  good_init maxNumRegs

theorem inv_adopt (s : System) (h : Inv s) : Inv { s with regs := adoptNext s.regs } := by
  obtain ⟨regs, call⟩ := s
  cases call with
  | none => exact good_adoptNext regs h
  | some fr =>
    obtain ⟨h0, st, b, n, hg, he, hp, hz, hs⟩ := h
    refine ⟨h0, adoptNext st, b, n, good_adoptNext st hg, ?_, ?_, fun _ _ => rfl, fun _ => rfl⟩
    · show adoptNext regs = _
      rw [inFlight_adoptNext]
      exact congrArg adoptNext he
    · intro hpc
      rw [targetReg_preRegs_adoptNext]
      exact hp hpc

theorem inv_run (regs : RegisterList) (fr : Frame) (s : System)
    (h : Inv { regs := regs, call := some fr }) (hs : runStep regs fr = some s) : Inv s := by
  obtain ⟨h0, st, b, n, hg, he, hp, hz, hst⟩ := h
  obtain ⟨pc, nReg, fb, nBytes, nRepeat, p⟩ := fr
  simp only at he hp hz hst h0
  cases pc with
  | select =>
    have he' : regs = st := he
    subst he'
    simp only [runStep] at hs
    by_cases hn : nReg ≠ 0
    · rw [if_pos hn] at hs
      split_ifs at hs
      injection hs with hs
      subst hs
      refine ⟨h0, regs, b, n, hg, ?_, ?_, ?_, ?_⟩
      · simp [inFlight, preRegs, hn]
      · intro _; simp [preRegs, hn]
      · intro _ h'; exact absurd h' hn
      · intro h'; simp at h'
    · rw [if_neg hn] at hs
      by_cases hx : regs.nextReg = none
      · rw [if_pos hx] at hs
        injection hs with hs
        subst hs
        refine ⟨h0, regs, b, n, hg, ?_, ?_, ?_, ?_⟩
        · simp [inFlight, preRegs, hn]
        · intro _; simp [preRegs, hn]
        · intro _ _; exact hx
        · intro h'; simp at h'
      · rw [if_neg hx] at hs
        injection hs with hs
        subst hs
        exact ⟨h0, regs, b, n, hg, rfl, by simp, by simp, by simp⟩
  | encode =>
    simp only [runStep] at hs
    injection hs with hs
    subst hs
    have hp' := hp (by simp)
    have hz' := hz (by simp)
    have he' : regs = preRegs st nReg := he
    refine ⟨h0, st, addChecksum fb nBytes, nBytes + 1, hg, ?_, fun _ => hp', fun _ => hz', ?_⟩
    · simp only [inFlight]; rw [he']
    · intro h'; simp at h'
  | clear =>
    simp only [runStep] at hs
    injection hs with hs
    subst hs
    have hp' := hp (by simp)
    have hz' := hz (by simp)
    have he' : regs = encodeReg (preRegs st nReg) p b n := he
    refine ⟨h0, st, b, n, hg, ?_, fun _ => hp', fun _ => hz', ?_⟩
    · simp only [inFlight]; rw [he']
    · intro h'; simp at h'
  | mark =>
    simp only [runStep] at hs
    injection hs with hs
    subst hs
    have hp' := hp (by simp)
    have hz' := hz (by simp)
    have he' : regs = clearInvalid (encodeReg (preRegs st nReg) p b n) p := he
    refine ⟨h0, st, b, n, hg, ?_, fun _ => hp', fun _ => hz', ?_⟩
    · simp only [inFlight]; rw [he']
    · intro h'; simp at h'
  | wait =>
    simp only [runStep] at hs
    have hp' := hp (by simp)
    have hz' := hz (by simp)
    have hnx : regs.nextReg = st.nextReg := by
      rw [he]; exact inFlight_nextReg st _ b n
    by_cases hc : nReg ≠ 0 ∧ regs.nextReg ≠ none
    · rw [if_pos hc] at hs
      injection hs with hs
      subst hs
      exact ⟨h0, st, b, n, hg, he, hp, hz, hst⟩
    · rw [if_neg hc] at hs
      injection hs with hs
      subst hs
      refine ⟨h0, st, b, n, hg, he, fun _ => hp', fun _ => hz', ?_⟩
      intro _
      by_cases hn : nReg = 0
      · exact hz' hn
      · rw [← hnx]
        by_contra hx
        exact hc ⟨hn, hx⟩
  | store =>
    simp only [runStep] at hs
    injection hs with hs
    subst hs
    have hp' := hp (by simp)
    have he' : regs = markRecycle (clearInvalid (encodeReg (preRegs st nReg) p b n) p) nReg := he
    show Good (publish regs p nRepeat)
    rw [he']
    by_cases hn : nReg = 0
    · subst hn
      have hp0 : p = 0 := by
        rw [hp']; simp [preRegs, targetReg, hg.zero]
      subst hp0
      have : preRegs st 0 = st := by simp [preRegs]
      rw [this]
      exact good_store_of_zero st hg b n nRepeat
    · have hpc : p = chooseReg st := by
        rw [hp']; simp [preRegs, targetReg, selectReg, hn]
      subst hpc
      have : preRegs st nReg = selectReg st nReg := by simp [preRegs, hn]
      rw [this]
      exact good_store_of_ne st hg nReg hn b n nRepeat

theorem inv_step (s s2 : System) (e : Event) (h : Inv s) (hs : step s e = some s2) : Inv s2 := by
  cases e with
  | call nReg b nBytes nRepeat =>
    obtain ⟨regs, call⟩ := s
    cases call with
    | some fr => simp [step] at hs
    | none =>
      simp only [step] at hs
      split_ifs at hs with hneg
      injection hs with hs
      subst hs
      exact ⟨by show 0 ≤ coerceReg nReg regs.maxNumRegs; omega, regs, b, nBytes, h, rfl,
        by simp, by simp, by simp⟩
  | run =>
    obtain ⟨regs, call⟩ := s
    cases call with
    | none => simp [step] at hs
    | some fr => exact inv_run regs fr s2 h hs
  | adopt =>
    simp only [step] at hs
    injection hs with hs
    subst hs
    exact inv_adopt s h

theorem inv_runEvents (es : List Event) :
    ∀ s s2 : System, Inv s → runEvents s es = some s2 → Inv s2 := by
  induction es with
  | nil =>
    intro s s2 h hs
    simp only [runEvents] at hs
    injection hs with hs
    subst hs
    exact h
  | cons e es ih =>
    intro s s2 h hs
    simp only [runEvents] at hs
    cases h1 : step s e with
    | none => rw [h1] at hs; simp at hs
    | some s1 =>
      rw [h1] at hs
      exact ih s1 s2 (inv_step s s1 e h h1) hs

/-! ## The hand-off cell -/

theorem nextValid_mono (st st2 : RegisterList) (hn : st2.nextReg = st.nextReg)
    (hf : ∀ q, st.nextReg = some q → invalidFlag (st.reg q) = 0 → invalidFlag (st2.reg q) = 0)
    (h : nextValid st = true) : nextValid st2 = true := by
  unfold nextValid at *
  rw [hn]
  cases hq : st.nextReg with
  | none => rfl
  | some q =>
    rw [hq] at h
    simp only [beq_iff_eq] at h ⊢
    exact hf q hq h

theorem clearInvalid_flag_le (st : RegisterList) (p q : Nat)
    (h : invalidFlag (st.reg q) = 0) : invalidFlag ((clearInvalid st p).reg q) = 0 := by
  by_cases hq : q = p
  · subst hq; exact clearInvalid_flag_self st q
  · rw [clearInvalid_reg_of_ne _ _ _ hq]; exact h

theorem markRecycle_flag_self (st : RegisterList) (nReg : Int) (r : Nat)
    (hr : st.recycleReg = some r) (hn : nReg ≠ 0) :
    invalidFlag ((markRecycle st nReg).reg r) = 1 := by
  unfold markRecycle
  simp [hr, hn, invalidFlag, setByte, flag_after_or]

theorem nextValid_preRegs (st : RegisterList) (nReg : Int) (h : nextValid st = true) :
    nextValid (preRegs st nReg) = true :=
  nextValid_mono st (preRegs st nReg) (preRegs_nextReg st nReg)
    (fun q _ hq => by rw [preRegs_reg]; exact hq) h

theorem nextValid_encodeReg (st : RegisterList) (p : Nat) (b : Bytes) (n : Nat)
    (h : nextValid st = true) : nextValid (encodeReg st p b n) = true :=
  nextValid_mono st (encodeReg st p b n) rfl
    (fun q _ hq => encodeReg_flag_le st p q b n hq) h

theorem nextValid_clearInvalid (st : RegisterList) (p : Nat)
    (h : nextValid st = true) : nextValid (clearInvalid st p) = true :=
  nextValid_mono st (clearInvalid st p) rfl
    (fun q _ hq => clearInvalid_flag_le st p q hq) h

/-- Under the invariant, `nextReg` is `NULL` or valid unless a call for a slot number other
than 0 is at its busy-wait and `nextReg` still points to the register it has displaced. -/
theorem inv_next (s : System) (h : Inv s) :
    nextValid s.regs = true ∨
      ∃ fr q, s.call = some fr ∧ fr.pc = LoadPc.wait ∧ fr.nReg ≠ 0 ∧
        s.regs.nextReg = some q ∧ s.regs.recycleReg = some q ∧
        invalidFlag (s.regs.reg q) = 1 := by
  obtain ⟨regs, call⟩ := s
  cases call with
  | none => exact Or.inl h.next
  | some fr =>
    obtain ⟨h0, st, b, n, hg, he, hp, hz, hst⟩ := h
    have he' : regs = inFlight st fr b n := he
    have h1 := nextValid_preRegs st fr.nReg hg.next
    have h2 := nextValid_encodeReg _ fr.p b n h1
    have hm := nextValid_clearInvalid _ fr.p h2
    cases hpc : fr.pc with
    | select => left; show nextValid regs = true; rw [he']; simp only [inFlight, hpc]; exact hg.next
    | encode => left; show nextValid regs = true; rw [he']; simp only [inFlight, hpc]; exact h1
    | clear => left; show nextValid regs = true; rw [he']; simp only [inFlight, hpc]; exact h2
    | mark => left; show nextValid regs = true; rw [he']; simp only [inFlight, hpc]; exact hm
    | store =>
      left
      have hn : regs.nextReg = none := by
        rw [he', inFlight_nextReg]; exact hst hpc
      show nextValid regs = true
      unfold nextValid
      rw [hn]
    | wait =>
      have hr : regs = markRecycle (clearInvalid (encodeReg (preRegs st fr.nReg) fr.p b n) fr.p)
          fr.nReg := by
        rw [he']; simp only [inFlight, hpc]
      by_cases hn : fr.nReg = 0
      · left
        show nextValid regs = true
        rw [hr, hn, markRecycle_zero, ← hn]
        exact hm
      · cases hq : regs.nextReg with
        | none =>
          left
          show nextValid regs = true
          unfold nextValid
          rw [hq]
        | some q =>
          by_cases hrq : regs.recycleReg = some q
          · right
            refine ⟨fr, q, rfl, hpc, hn, rfl, hrq, ?_⟩
            show invalidFlag (regs.reg q) = 1
            rw [hr] at hrq ⊢
            rw [markRecycle_recycleReg] at hrq
            exact markRecycle_flag_self _ _ _ hrq hn
          · left
            show nextValid regs = true
            rw [hr] at hrq hq ⊢
            rw [markRecycle_recycleReg] at hrq
            rw [markRecycle_nextReg] at hq
            refine nextValid_mono _ _ (markRecycle_nextReg _ _) ?_ hm
            intro q2 hq2 hf2
            rw [hq] at hq2
            injection hq2 with hq2
            subst hq2
            rw [markRecycle_reg_of_ne _ _ _ hrq]; exact hf2

/-- C4, counterexample. Capacity 12, two `loadPacket` calls for slot number 1 and no
interrupt in between: when the second call reaches its busy-wait (line 110), `nextReg`
still points to register 1, which line 107 has just flagged invalid. -/
theorem handoff_counterexample :
    (runEvents (System.init 12)
      [Event.call 1 (bytesOf [3, 0x3F, 0x80]) 3 0, Event.run, Event.run, Event.run, Event.run,
       Event.run, Event.run,
       Event.call 1 (bytesOf [3, 0x3F, 0x81]) 3 0, Event.run, Event.run, Event.run,
       Event.run]).map
      (fun s => (s.regs.nextReg, invalidFlag (s.regs.reg 1), nextValid s.regs,
        s.call.map (fun fr => fr.pc)))
      = some (some 1, 1, false, some LoadPc.wait) := by
  decide

/-- C4, amended. In every state the interleaved system reaches from the constructor,
`nextReg` is `NULL` or points to a register whose invalid flag is 0, unless a `loadPacket`
call for a slot number other than 0 is at its busy-wait (line 110): there `nextReg` may
still point to `recycleReg`, the register the call has displaced and flagged invalid. -/
theorem handoff_invariant (maxNumRegs : Nat) (es : List Event) (s : System)
    (h : runEvents (System.init maxNumRegs) es = some s) :
    nextValid s.regs = true ∨
      ∃ fr q, s.call = some fr ∧ fr.pc = LoadPc.wait ∧ fr.nReg ≠ 0 ∧
        s.regs.nextReg = some q ∧ s.regs.recycleReg = some q ∧
        invalidFlag (s.regs.reg q) = 1 :=
  inv_next s (inv_runEvents es (System.init maxNumRegs) s (inv_init maxNumRegs) h)

theorem selectReg_adoptNext (st : RegisterList) (nReg : Int) :
    selectReg (adoptNext st) nReg = adoptNext (selectReg st nReg) := rfl

theorem targetReg_adoptNext (st : RegisterList) (nReg : Int) :
    targetReg (adoptNext st) nReg = targetReg st nReg := rfl

theorem encodeReg_adoptNext (st : RegisterList) (p : Nat) (b : Bytes) (n : Nat) :
    encodeReg (adoptNext st) p b n = adoptNext (encodeReg st p b n) := rfl

theorem clearInvalid_adoptNext (st : RegisterList) (p : Nat) :
    clearInvalid (adoptNext st) p = adoptNext (clearInvalid st p) := rfl

theorem publish_adoptNext (st : RegisterList) (p : Nat) (nRepeat : Int) :
    publish (adoptNext st) p nRepeat = publish st p nRepeat := rfl

/-- A `loadPacket` call that stays inside the arrays, run step by step with the interrupt
handler adopting `nextReg` before each busy-wait, ends in the state `loadPacket` computes. -/
theorem loadPacket_as_steps (regs : RegisterList) (nReg : Int) (b : Bytes) (nBytes : Nat)
    (nRepeat : Int) (h0 : 0 ≤ coerceReg nReg regs.maxNumRegs)
    (h1 : chooseReg regs ≤ regs.maxNumRegs) :
    runEvents { regs := regs, call := none }
      [Event.call nReg b nBytes nRepeat, Event.adopt, Event.run, Event.run, Event.run, Event.run,
       Event.adopt, Event.run, Event.run]
      = some { regs := (loadPacket regs nReg b nBytes nRepeat).1, call := none } := by
  have h0' : ¬ coerceReg nReg regs.maxNumRegs < 0 := by omega
  have h1' : ¬ chooseReg (adoptNext regs) > (adoptNext regs).maxNumRegs := by
    show ¬ chooseReg regs > regs.maxNumRegs
    omega
  have hx : ∀ st : RegisterList, (adoptNext st).nextReg = none := fun _ => rfl
  have hy : ∀ st : RegisterList, awaitNext st = adoptNext st := fun _ => rfl
  by_cases hn : coerceReg nReg regs.maxNumRegs ≠ 0
  · simp only [runEvents, step, runStep, Option.some_bind, h0', hn, h1', if_true, if_false,
      ne_eq, not_false_eq_true, hx, not_true_eq_false, and_false]
    congr 2
    simp only [loadPacket, hn, if_true, ne_eq, not_false_eq_true, hy, selectReg_adoptNext,
      targetReg_adoptNext, encodeReg_adoptNext, clearInvalid_adoptNext, markRecycle_adoptNext,
      publish_adoptNext]
  · have hn' : coerceReg nReg regs.maxNumRegs = 0 := by
      by_contra h; exact hn h
    simp only [runEvents, step, runStep, Option.some_bind, h0', hn', h1', if_true, if_false,
      ne_eq, not_false_eq_true, hx, not_true_eq_false, and_false, false_and, lt_self_iff_false]
    congr 2
    simp only [loadPacket, hn', if_true, ne_eq, not_false_eq_true, not_true_eq_false, if_false,
      hy, targetReg_adoptNext, encodeReg_adoptNext, clearInvalid_adoptNext,
      markRecycle_adoptNext, publish_adoptNext]

/-- A completed `loadPacket` call keeps the slot table invariant. -/
theorem good_loadPacket (st : RegisterList) (h : Good st) (nReg : Int) (b : Bytes)
    (nBytes : Nat) (nRepeat : Int) : Good (loadPacket st nReg b nBytes nRepeat).1 := by
  have hy : ∀ st : RegisterList, awaitNext st = adoptNext st := fun _ => rfl
  by_cases hn : coerceReg nReg st.maxNumRegs ≠ 0
  · have ht : targetReg (selectReg st (coerceReg nReg st.maxNumRegs)) (coerceReg nReg st.maxNumRegs)
        = chooseReg st := by simp [targetReg, selectReg]
    simp only [loadPacket, hn, if_true, ne_eq, not_false_eq_true, hy, publish_adoptNext, ht]
    exact good_store_of_ne st h _ hn _ _ _
  · have hn' : coerceReg nReg st.maxNumRegs = 0 := by
      by_contra h'; exact hn h'
    have ht : targetReg (adoptNext st) 0 = 0 := by
      simp [targetReg, adoptNext, h.zero]
    simp only [loadPacket, hn', if_true, ne_eq, not_true_eq_false, if_false, hy, ht]
    exact good_store_of_zero (adoptNext st) (good_adoptNext st h) _ _ _

/-! ## The acknowledgement detector -/

theorem subU32_self (a : Nat) : subU32 a a = 0 := by
  unfold subU32
  omega

theorem toInt16_excess (base : Nat) (x : Sample) (h : x.current < 32768) :
    toInt16 ((if base > x.current then base else x.current) - base) = excess base x := by
  unfold toInt16 excess
  split_ifs <;> omega

theorem ackStep_snd (thr : Int) (base : Nat) (regs regs2 : RegisterList) (l : AckLocals)
    (x : Sample) : (ackStep thr base regs l x).2 = (ackStep thr base regs2 l x).2 := by
  unfold ackStep
  simp only []
  split_ifs <;> rfl

theorem ackVerdict_regs (thr : Int) (base : Nat) (xs : List Sample) :
    ∀ (regs regs2 : RegisterList) (l : AckLocals),
      ackVerdict thr base regs l xs = ackVerdict thr base regs2 l xs := by
  induction xs with
  | nil => intro _ _ _; rfl
  | cons x xs ih =>
    intro regs regs2 l
    have h := ackStep_snd thr base regs regs2 l x
    unfold ackVerdict ackLoop
    rcases h1 : ackStep thr base regs l x with ⟨r1, l1, v1⟩
    rcases h2 : ackStep thr base regs2 l x with ⟨r2, l2, v2⟩
    rw [h1, h2] at h
    simp only [Prod.mk.injEq] at h
    obtain ⟨hl, hv⟩ := h
    subst hl hv
    cases v1 with
    | some r => rfl
    | none => exact ih r1 r2 l1

theorem ackVerdict_nil (thr : Int) (base : Nat) (regs : RegisterList) (l : AckLocals) :
    ackVerdict thr base regs l [] = none := rfl

/-- One pass while seeking a rise. -/
theorem ackVerdict_seekRise (thr : Int) (base entry u : Nat) (regs : RegisterList) (x : Sample)
    (xs : List Sample) (hx : x.current < 32768) :
    ackVerdict thr base regs (seekRise entry u) (x :: xs) =
      if 9 ≤ subU32 x.packetsTransmitted entry then some 0
      else if thr < excess base x then
        ackVerdict thr base regs (seekFall entry x.tickCounter) xs
      else ackVerdict thr base regs (seekRise entry u) xs := by
  have hc := toInt16_excess base x hx
  unfold ackVerdict
  rw [ackLoop]
  simp only [ackStep, seekRise, seekFall, hc]
  split_ifs <;> simp_all

/-- One pass while seeking the fall after a rise at tick `u`. -/
theorem ackVerdict_seekFall (thr : Int) (base entry u : Nat) (regs : RegisterList) (x : Sample)
    (xs : List Sample) (hx : x.current < 32768) :
    ackVerdict thr base regs (seekFall entry u) (x :: xs) =
      if excess base x < thr then
        if 1125 ≤ subU32 x.tickCounter u ∧ subU32 x.tickCounter u ≤ 2125 then
          ackVerdict thr base regs (lingering x.packetsTransmitted u) xs
        else if 9 ≤ subU32 x.packetsTransmitted entry then some 0
        else ackVerdict thr base regs (seekRise entry u) xs
      else if 9 ≤ subU32 x.packetsTransmitted entry then some 0
      else ackVerdict thr base regs (seekFall entry u) xs := by
  have hc := toInt16_excess base x hx
  have h0 := subU32_self x.packetsTransmitted
  have hr := ackVerdict_regs thr base xs (loadPacket regs 1 resetPacket 2 1).1 regs
    (lingering x.packetsTransmitted u)
  unfold ackVerdict at *
  rw [ackLoop]
  simp only [ackStep, seekRise, seekFall, lingering, hc] at *
  split_ifs <;> simp_all <;> omega

/-- One pass after the accepted fall. -/
theorem ackVerdict_lingering (thr : Int) (base old u : Nat) (regs : RegisterList) (x : Sample)
    (xs : List Sample) :
    ackVerdict thr base regs (lingering old u) (x :: xs) =
      if 3 ≤ subU32 x.packetsTransmitted old then some 1
      else ackVerdict thr base regs (lingering old u) xs := by
  unfold ackVerdict
  rw [ackLoop]
  simp only [ackStep, lingering]
  split_ifs <;> simp_all <;> omega

theorem confirms_nil (thr : Int) (base : Nat) (m : Option Nat) : ¬ Confirms thr base m [] := by
  intro h
  cases h

theorem acked_nil (thr : Int) (base entry : Nat) (m : Option Nat) :
    ¬ Acked thr base entry m [] := by
  rintro ⟨pre, y, post, h, -⟩
  cases pre <;> simp at h

theorem acked_seekRise (thr : Int) (base entry : Nat) (x : Sample) (xs : List Sample) :
    Acked thr base entry none (x :: xs) ↔
      subU32 x.packetsTransmitted entry < 9 ∧
        ((¬ thr < excess base x ∧ Acked thr base entry none xs) ∨
          (thr < excess base x ∧ Acked thr base entry (some x.tickCounter) xs)) := by
  constructor
  · rintro ⟨pre, y, post, h, hc, hp, hl⟩
    cases pre with
    | nil =>
      simp only [List.nil_append, List.cons.injEq] at h hc
      cases hc with
      | noRise _ _ _ h2 => exact absurd h2 (confirms_nil _ _ _)
      | rise _ _ _ h2 => exact absurd h2 (confirms_nil _ _ _)
    | cons p pre =>
      simp only [List.cons_append, List.cons.injEq] at h hc
      obtain ⟨rfl, rfl⟩ := h
      have hp0 := hp x (List.mem_cons_self _ _)
      have hp1 : ∀ z ∈ pre, subU32 z.packetsTransmitted entry < 9 :=
        fun z hz => hp z (List.mem_cons_of_mem _ hz)
      cases hc with
      | noRise _ _ h1 h2 => exact ⟨hp0, Or.inl ⟨h1, pre, y, post, rfl, h2, hp1, hl⟩⟩
      | rise _ _ h1 h2 => exact ⟨hp0, Or.inr ⟨h1, pre, y, post, rfl, h2, hp1, hl⟩⟩
  · rintro ⟨hp0, ⟨h1, pre, y, post, rfl, h2, hp1, hl⟩ | ⟨h1, pre, y, post, rfl, h2, hp1, hl⟩⟩
    · refine ⟨x :: pre, y, post, rfl, Confirms.noRise x _ h1 h2, ?_, hl⟩
      intro z hz
      rcases List.mem_cons.mp hz with rfl | hz
      · exact hp0
      · exact hp1 z hz
    · refine ⟨x :: pre, y, post, rfl, Confirms.rise x _ h1 h2, ?_, hl⟩
      intro z hz
      rcases List.mem_cons.mp hz with rfl | hz
      · exact hp0
      · exact hp1 z hz

theorem acked_seekFall (thr : Int) (base entry u : Nat) (x : Sample) (xs : List Sample) :
    Acked thr base entry (some u) (x :: xs) ↔
      (excess base x < thr ∧
        (1125 ≤ subU32 x.tickCounter u ∧ subU32 x.tickCounter u ≤ 2125) ∧
        ∃ z ∈ xs, 3 ≤ subU32 z.packetsTransmitted x.packetsTransmitted) ∨
      (subU32 x.packetsTransmitted entry < 9 ∧
        ((¬ excess base x < thr ∧ Acked thr base entry (some u) xs) ∨
          (excess base x < thr ∧
            ¬ (1125 ≤ subU32 x.tickCounter u ∧ subU32 x.tickCounter u ≤ 2125) ∧
            Acked thr base entry none xs))) := by
  constructor
  · rintro ⟨pre, y, post, h, hc, hp, hl⟩
    cases pre with
    | nil =>
      simp only [List.nil_append, List.cons.injEq] at h hc
      obtain ⟨rfl, rfl⟩ := h
      cases hc with
      | noFall _ _ _ _ h2 => exact absurd h2 (confirms_nil _ _ _)
      | badFall _ _ _ _ _ h2 => exact absurd h2 (confirms_nil _ _ _)
      | goodFall _ _ h1 h2 => exact Or.inl ⟨h1, h2, hl⟩
    | cons p pre =>
      simp only [List.cons_append, List.cons.injEq] at h hc
      obtain ⟨rfl, rfl⟩ := h
      have hp0 := hp x (List.mem_cons_self _ _)
      have hp1 : ∀ z ∈ pre, subU32 z.packetsTransmitted entry < 9 :=
        fun z hz => hp z (List.mem_cons_of_mem _ hz)
      generalize hq : pre ++ [y] = q at hc
      cases hc with
      | noFall _ _ _ h1 h2 =>
        subst hq
        exact Or.inr ⟨hp0, Or.inl ⟨h1, pre, y, post, rfl, h2, hp1, hl⟩⟩
      | badFall _ _ _ h1 h3 h2 =>
        subst hq
        exact Or.inr ⟨hp0, Or.inr ⟨h1, h3, pre, y, post, rfl, h2, hp1, hl⟩⟩
      | goodFall _ _ h1 h2 =>
        cases pre <;> simp at hq
  · rintro (⟨h1, hw, hl⟩ | ⟨hp0, ⟨h1, pre, y, post, rfl, h2, hp1, hl⟩ |
      ⟨h1, hw, pre, y, post, rfl, h2, hp1, hl⟩⟩)
    · exact ⟨[], x, xs, rfl, Confirms.goodFall u x h1 hw, by simp, hl⟩
    · refine ⟨x :: pre, y, post, rfl, Confirms.noFall u x _ h1 h2, ?_, hl⟩
      intro z hz
      rcases List.mem_cons.mp hz with rfl | hz
      · exact hp0
      · exact hp1 z hz
    · refine ⟨x :: pre, y, post, rfl, Confirms.badFall u x _ h1 hw h2, ?_, hl⟩
      intro z hz
      rcases List.mem_cons.mp hz with rfl | hz
      · exact hp0
      · exact hp1 z hz

theorem ackVerdict_lingering_iff (thr : Int) (base : Nat) (xs : List Sample) :
    ∀ (regs : RegisterList) (old u : Nat),
      (ackVerdict thr base regs (lingering old u) xs = some 1 ↔
        ∃ z ∈ xs, 3 ≤ subU32 z.packetsTransmitted old) ∧
      ∀ r, ackVerdict thr base regs (lingering old u) xs = some r → r = 1 := by
  induction xs with
  | nil =>
    intro regs old u
    simp [ackVerdict_nil]
  | cons x xs ih =>
    intro regs old u
    rw [ackVerdict_lingering]
    obtain ⟨ih1, ih2⟩ := ih regs old u
    by_cases h : 3 ≤ subU32 x.packetsTransmitted old
    · rw [if_pos h]
      exact ⟨⟨fun _ => ⟨x, List.mem_cons_self _ _, h⟩, fun _ => rfl⟩,
        fun r hr => by injection hr with hr; exact hr.symm⟩
    · rw [if_neg h]
      refine ⟨?_, ih2⟩
      rw [ih1]
      constructor
      · rintro ⟨z, hz, hz3⟩
        exact ⟨z, List.mem_cons_of_mem _ hz, hz3⟩
      · rintro ⟨z, hz, hz3⟩
        rcases List.mem_cons.mp hz with rfl | hz
        · exact absurd hz3 h
        · exact ⟨z, hz, hz3⟩

/-- The loop of `ackdetect` returns 1 exactly on the samples described by `Acked`, from
either seeking mode, and returns nothing but 0 and 1. -/
theorem ackVerdict_iff (thr : Int) (base entry : Nat) (xs : List Sample)
    (hs : ∀ x ∈ xs, x.current < 32768) :
    ∀ (regs : RegisterList) (u : Nat),
      (ackVerdict thr base regs (seekRise entry u) xs = some 1 ↔ Acked thr base entry none xs) ∧
      (ackVerdict thr base regs (seekFall entry u) xs = some 1 ↔
        Acked thr base entry (some u) xs) ∧
      (∀ r, ackVerdict thr base regs (seekRise entry u) xs = some r → r = 0 ∨ r = 1) ∧
      (∀ r, ackVerdict thr base regs (seekFall entry u) xs = some r → r = 0 ∨ r = 1) := by
  induction xs with
  | nil =>
    intro regs u
    simp [ackVerdict_nil, acked_nil]
  | cons x xs ih =>
    intro regs u
    have hx := hs x (List.mem_cons_self _ _)
    have ih' := ih (fun z hz => hs z (List.mem_cons_of_mem _ hz))
    obtain ⟨a1, a2, a3, a4⟩ := ih' regs u
    obtain ⟨b1, b2, b3, b4⟩ := ih' regs x.tickCounter
    obtain ⟨c1, c2⟩ := ackVerdict_lingering_iff thr base xs regs x.packetsTransmitted u
    rw [ackVerdict_seekRise _ _ _ _ _ _ _ hx, ackVerdict_seekFall _ _ _ _ _ _ _ hx,
      acked_seekRise, acked_seekFall]
    refine ⟨?_, ?_, ?_, ?_⟩
    · by_cases ht : 9 ≤ subU32 x.packetsTransmitted entry
      · rw [if_pos ht]
        constructor
        · intro h; injection h with h; omega
        · rintro ⟨h, -⟩; omega
      · rw [if_neg ht]
        by_cases hr : thr < excess base x
        · rw [if_pos hr, b2]
          constructor
          · intro h; exact ⟨by omega, Or.inr ⟨hr, h⟩⟩
          · rintro ⟨-, ⟨h, -⟩ | ⟨-, h⟩⟩
            · exact absurd hr h
            · exact h
        · rw [if_neg hr, a1]
          constructor
          · intro h; exact ⟨by omega, Or.inl ⟨hr, h⟩⟩
          · rintro ⟨-, ⟨-, h⟩ | ⟨h, -⟩⟩
            · exact h
            · exact absurd h hr
    · by_cases hf : excess base x < thr
      · rw [if_pos hf]
        by_cases hw : 1125 ≤ subU32 x.tickCounter u ∧ subU32 x.tickCounter u ≤ 2125
        · rw [if_pos hw, c1]
          constructor
          · intro h; exact Or.inl ⟨hf, hw, h⟩
          · rintro (⟨-, -, h⟩ | ⟨-, ⟨h, -⟩ | ⟨-, h, -⟩⟩)
            · exact h
            · exact absurd hf h
            · exact absurd hw h
        · rw [if_neg hw]
          by_cases ht : 9 ≤ subU32 x.packetsTransmitted entry
          · rw [if_pos ht]
            constructor
            · intro h; injection h with h; omega
            · rintro (⟨-, h, -⟩ | ⟨h, -⟩)
              · exact absurd h hw
              · omega
          · rw [if_neg ht, a1]
            constructor
            · intro h; exact Or.inr ⟨by omega, Or.inr ⟨hf, hw, h⟩⟩
            · rintro (⟨-, h, -⟩ | ⟨-, ⟨h, -⟩ | ⟨-, -, h⟩⟩)
              · exact absurd h hw
              · exact absurd hf h
              · exact h
      · rw [if_neg hf]
        by_cases ht : 9 ≤ subU32 x.packetsTransmitted entry
        · rw [if_pos ht]
          constructor
          · intro h; injection h with h; omega
          · rintro (⟨h, -⟩ | ⟨h, -⟩)
            · exact absurd h hf
            · omega
        · rw [if_neg ht, a2]
          constructor
          · intro h; exact Or.inr ⟨by omega, Or.inl ⟨hf, h⟩⟩
          · rintro (⟨h, -⟩ | ⟨-, ⟨-, h⟩ | ⟨h, -⟩⟩)
            · exact absurd h hf
            · exact h
            · exact absurd h hf
    · intro r hr
      split_ifs at hr
      · injection hr with hr; exact Or.inl hr.symm
      · exact b4 r hr
      · exact a3 r hr
    · intro r hr
      split_ifs at hr
      · exact Or.inr (c2 r hr)
      · injection hr with hr; exact Or.inl hr.symm
      · exact a3 r hr
      · injection hr with hr; exact Or.inl hr.symm
      · exact a4 r hr

/-- C7, amended. With every current sample below 32768: `ackdetect(base)` returns 1 if and
only if its samples split into `pre ++ y :: post` where, reading `pre ++ [y]` in order,
the detector takes the first sample above the threshold as the rise and the first later
sample below the threshold as the fall, starts over after a fall whose acktime is outside
`1125..2125`, and accepts the fall `y`; every sample of `pre` is read with the packet count
less than 9 past its value at entry; and some sample of `post` is read with the packet
count at least 3 past its value at `y`.  A run that returns anything else returns 0. -/
theorem ackdetect_verdict (regs : RegisterList) (thr : Int) (base entry : Nat)
    (trace : List Sample) (hs : ∀ x ∈ trace, x.current < 32768) :
    ((ackdetect regs thr base entry trace).map Prod.fst = some 1 ↔
      ∃ pre y post, trace = pre ++ y :: post ∧ Confirms thr base none (pre ++ [y]) ∧
        (∀ z ∈ pre, subU32 z.packetsTransmitted entry < 9) ∧
        ∃ z ∈ post, 3 ≤ subU32 z.packetsTransmitted y.packetsTransmitted) ∧
    ∀ r, (ackdetect regs thr base entry trace).map Prod.fst = some r → r = 0 ∨ r = 1 := by
  obtain ⟨h1, -, h3, -⟩ := ackVerdict_iff thr base entry trace hs regs 0
  exact ⟨h1, h3⟩

/-- C7, witness: threshold 30, base 100; a rise at tick 0, the fall at tick 1500 and the
return once the packet count is 3 past its value at the fall. -/
theorem ackdetect_verdict_witness :
    (ackdetect (RegisterList.RegisterList 12) 30 100 0
      [⟨200, 0, 0⟩, ⟨100, 1500, 2⟩, ⟨100, 1600, 5⟩]).map Prod.fst = some 1 ∧
    ∃ pre y post, [(⟨200, 0, 0⟩ : Sample), ⟨100, 1500, 2⟩, ⟨100, 1600, 5⟩] = pre ++ y :: post ∧
      Confirms 30 100 none (pre ++ [y]) ∧
      (∀ z ∈ pre, subU32 z.packetsTransmitted 0 < 9) ∧
      ∃ z ∈ post, 3 ≤ subU32 z.packetsTransmitted y.packetsTransmitted :=
  ⟨by decide,
   (ackdetect_verdict (RegisterList.RegisterList 12) 30 100 0
      [⟨200, 0, 0⟩, ⟨100, 1500, 2⟩, ⟨100, 1600, 5⟩] (by decide)).1.mp (by decide)⟩

/-- C7, counterexample (threshold 30, base 100, packet count 0 at entry).  First trace: the
sample read at tick 1000 is above the threshold and the sample read at tick 2200 is below
it, 1200 ticks later and with the packet count still 0, yet `ackdetect` returns 0: it
measures from the first sample above the threshold, read at tick 0.  Second trace: the
fall is read when the packet count is already 9 past its value at entry, yet `ackdetect`
returns 1: the timeout is tested at the end of a pass, after the sample is used. -/
theorem ackdetect_counterexample :
    ((ackdetect (RegisterList.RegisterList 12) 30 100 0
        [⟨200, 0, 0⟩, ⟨200, 1000, 0⟩, ⟨100, 2200, 0⟩, ⟨100, 2300, 9⟩]).map Prod.fst = some 0 ∧
      claimedAck 30 100 0 [⟨200, 0, 0⟩, ⟨200, 1000, 0⟩, ⟨100, 2200, 0⟩, ⟨100, 2300, 9⟩]) ∧
    ((ackdetect (RegisterList.RegisterList 12) 30 100 0
        [⟨200, 0, 0⟩, ⟨100, 1500, 9⟩, ⟨100, 1600, 12⟩]).map Prod.fst = some 1 ∧
      ¬ claimedAck 30 100 0 [⟨200, 0, 0⟩, ⟨100, 1500, 9⟩, ⟨100, 1600, 12⟩]) := by
  decide

/-! ## Bit operations on `int` -/

/-- The low 8 bits of an `int` in two's complement are the bits of its remainder modulo 256. -/
theorem testBit_low8 (x : Int) (i : Nat) (hi : i < 8) :
    Int.testBit x i = Nat.testBit (x % 256).toNat i := by
  cases x with
  | ofNat n =>
    have e : (Int.ofNat n % 256).toNat = n % 2 ^ 8 := by
      show ((n : Int) % 256).toNat = n % 256
      omega
    rw [e, Nat.testBit_mod_two_pow]
    simp [Int.testBit, hi]
  | negSucc n =>
    have e : (Int.negSucc n % 256).toNat = 2 ^ 8 - (n % 2 ^ 8 + 1) := by
      have : Int.negSucc n = -((n : Int) + 1) := Int.negSucc_eq n
      rw [this]
      omega
    rw [e, Nat.testBit_two_pow_sub_succ (Nat.mod_lt _ (by decide)), Nat.testBit_mod_two_pow]
    simp [Int.testBit, hi]

theorem toByte_lt (x : Int) : toByte x < 256 := by
  unfold toByte
  omega

theorem testBit_toByte (x : Int) (i : Nat) :
    Nat.testBit (toByte x) i = (decide (i < 8) && Int.testBit x i) := by
  by_cases hi : i < 8
  · simp only [hi, decide_True, Bool.true_and]
    exact (testBit_low8 x i hi).symm
  · simp only [hi, decide_False, Bool.false_and]
    exact Nat.testBit_lt_two_pow (lt_of_lt_of_le (toByte_lt x)
      (by
        have : 2 ^ 8 ≤ 2 ^ i := Nat.pow_le_pow_right (by decide) (by omega)
        simpa using this))

theorem testBit_natCast (n i : Nat) : Int.testBit (n : Int) i = Nat.testBit n i := rfl

/-- Masking and or-ing an `int` with constants below 256 acts on its low byte. -/
theorem toByte_cAnd_cOr (x : Int) (a m : Nat) :
    toByte (cAnd (cOr x a) m) = ((toByte x ||| a) &&& m) % 256 := by
  apply Nat.eq_of_testBit_eq
  intro i
  have e : ((toByte x ||| a) &&& m) % 256 = ((toByte x ||| a) &&& m) % 2 ^ 8 := rfl
  rw [testBit_toByte, e, Nat.testBit_mod_two_pow, Nat.testBit_and, Nat.testBit_or,
    testBit_toByte]
  simp only [cAnd, cOr, Int.testBit_land, Int.testBit_lor, testBit_natCast]
  by_cases hi : i < 8 <;> simp [hi]

theorem toByte_cXor (x : Int) (a : Nat) :
    toByte (cXor x a) = (toByte x ^^^ a) % 256 := by
  apply Nat.eq_of_testBit_eq
  intro i
  have e : (toByte x ^^^ a) % 256 = (toByte x ^^^ a) % 2 ^ 8 := rfl
  rw [testBit_toByte, e, Nat.testBit_mod_two_pow, Nat.testBit_xor, testBit_toByte]
  simp only [cXor, Int.testBit_lxor, testBit_natCast]
  by_cases hi : i < 8 <;> simp [hi]

/-! ## Function commands -/

set_option maxRecDepth 100000 in
theorem short_form_bits : ∀ r < 256,
    ((r ||| 0x80) &&& 0xBF) % 256 / 64 = 2 ∧ ((r ||| 0x80) &&& 0xBF) % 256 % 64 = r % 64 := by
  decide

set_option maxRecDepth 100000 in
theorem long_form_bits : ∀ r < 256, ((r ||| 0xDE) &&& 0xDF) % 256 = 0xDE + r % 2 := by
  decide

theorem short_form_byte (fByte : Int) :
    toByte (cAnd (cOr fByte 0x80) 0xBF) / 64 = 2 ∧
    toByte (cAnd (cOr fByte 0x80) 0xBF) % 64 = (fByte % 64).toNat := by
  have h := toByte_cAnd_cOr fByte 0x80 0xBF
  have h2 := short_form_bits (toByte fByte) (toByte_lt fByte)
  simp only [Nat.cast_ofNat] at h
  rw [h]
  refine ⟨h2.1, ?_⟩
  rw [h2.2]
  unfold toByte
  omega

theorem long_form_byte (fByte : Int) :
    toByte (cAnd (cOr fByte 0xDE) 0xDF) = 0xDE + (fByte % 2).toNat := by
  have h := toByte_cAnd_cOr fByte 0xDE 0xDF
  have h2 := long_form_bits (toByte fByte) (toByte_lt fByte)
  simp only [Nat.cast_ofNat] at h
  rw [h, h2]
  unfold toByte
  omega

theorem functionPacket_nB (cab fByte : Int) (eByte : Option Int) :
    (functionPacket cab fByte eByte).2 =
      (pushCab (fun _ => 0, 0) cab).2 + (if eByte.isSome then 2 else 1) := by
  simp only [functionPacket, pushCab, pushByte]
  cases eByte <;> split_ifs <;> simp_all

theorem functionPacket_b_cab (cab fByte : Int) (eByte : Option Int) (i : Nat)
    (hi : i < (pushCab (fun _ => 0, 0) cab).2) :
    (functionPacket cab fByte eByte).1 i = (pushCab (fun _ => 0, 0) cab).1 i := by
  simp only [functionPacket, pushCab, pushByte] at *
  cases eByte <;> split_ifs at * <;> simp only [setByte] at * <;> interval_cases i <;> simp

theorem functionPacket_b_lt (cab fByte : Int) (eByte : Option Int) (i : Nat) :
    (functionPacket cab fByte eByte).1 i < 256 := by
  simp only [functionPacket, pushCab, pushByte]
  cases eByte <;> split_ifs <;> simp only [setByte] <;> split_ifs <;> omega

theorem functionPacket_short (cab fByte : Int) :
    (functionPacket cab fByte none).1 ((functionPacket cab fByte none).2 - 1)
      = toByte (cAnd (cOr fByte 0x80) 0xBF) := by
  have h := toByte_lt (cAnd (cOr fByte 0x80) 0xBF)
  simp only [functionPacket, pushCab, pushByte]
  split_ifs <;> simp [setByte] <;> omega

theorem functionPacket_long (cab fByte eByte : Int) :
    (functionPacket cab fByte (some eByte)).1 ((functionPacket cab fByte (some eByte)).2 - 2)
      = toByte (cAnd (cOr fByte 0xDE) 0xDF) ∧
    (functionPacket cab fByte (some eByte)).1 ((functionPacket cab fByte (some eByte)).2 - 1)
      = toByte eByte := by
  have h := toByte_lt (cAnd (cOr fByte 0xDE) 0xDF)
  have h2 := toByte_lt eByte
  simp only [functionPacket, pushCab, pushByte]
  split_ifs <;> simp [setByte] <;> omega

theorem coerceReg_zero (n : Nat) : coerceReg 0 n = 0 := by
  unfold coerceReg
  exact Int.zero_tmod _

/-- A payload of 2, 3 or 4 bytes sent to slot number 0 lands in register 0, which is handed
over in `nextReg` with the given repeat count; the slot map is left alone. -/
theorem loadPacket_slot_zero (st : RegisterList) (b : Bytes) (k : Nat) (nRepeat : Int)
    (h0 : st.regMap 0 = some 0) (hk : 2 ≤ k ∧ k ≤ 4) (hb : ∀ i < k, b i < 256) :
    (loadPacket st 0 b k nRepeat).1.nRepeat = nRepeat ∧
    (loadPacket st 0 b k nRepeat).1.nextReg = some 0 ∧
    (loadPacket st 0 b k nRepeat).1.regMap = st.regMap ∧
    ((loadPacket st 0 b k nRepeat).1.reg 0).nBits = 9 * k + 10 ∧
    ∀ i < k, decodeByte ((loadPacket st 0 b k nRepeat).1.reg 0).buf i = b i := by
  obtain ⟨f1, f2, -, -, f5, f6, -, -⟩ :=
    loadPacket_fields_of_zero st 0 b k nRepeat (coerceReg_zero _)
  rw [h0] at f1 f5
  have f1' : loadTarget st 0 = 0 := f1
  obtain ⟨g1, -, g3⟩ := loadPacket_frame_short st 0 b k nRepeat hk hb
  rw [f1'] at g1 g3
  refine ⟨f6, f5, f2, g1, ?_⟩
  intro i hi
  rw [g3 i (by omega), loadPacket_snd, addChecksum_of_ne _ _ _ (by omega)]

/-- C13. For every integer `fByte`: the short form of `setFunction` emits, after the cab
address, the byte `(fByte | 0x80) & 0xBF`, whose top two bits are binary 10 and whose low
six bits are those of `fByte`; the long form emits `(fByte | 0xDE) & 0xDF`, which is `0xDE`
for an even and `0xDF` for an odd `fByte`, followed by `eByte`.  Both load the packet into
slot 0, register 0, with repeat 4. -/
theorem setFunction_packet (st : RegisterList) (cab fByte : Int) (eByte : Option Int)
    (h0 : st.regMap 0 = some 0) :
    ((functionPacket cab fByte none).1 ((functionPacket cab fByte none).2 - 1) / 64 = 2 ∧
      (functionPacket cab fByte none).1 ((functionPacket cab fByte none).2 - 1) % 64
        = (fByte % 64).toNat) ∧
    (∀ e : Int,
      (functionPacket cab fByte (some e)).1 ((functionPacket cab fByte (some e)).2 - 2)
        = 0xDE + (fByte % 2).toNat ∧
      ((functionPacket cab fByte (some e)).1 ((functionPacket cab fByte (some e)).2 - 2) = 0xDF
        ↔ fByte % 2 = 1) ∧
      (functionPacket cab fByte (some e)).1 ((functionPacket cab fByte (some e)).2 - 1)
        = toByte e) ∧
    (∀ i < (pushCab (fun _ => 0, 0) cab).2,
      (functionPacket cab fByte eByte).1 i = (pushCab (fun _ => 0, 0) cab).1 i) ∧
    (functionPacket cab fByte eByte).2
      = (pushCab (fun _ => 0, 0) cab).2 + (if eByte.isSome then 2 else 1) ∧
    (setFunction st cab fByte eByte).nRepeat = 4 ∧
    (setFunction st cab fByte eByte).nextReg = some 0 ∧
    ∀ i < (functionPacket cab fByte eByte).2,
      decodeByte ((setFunction st cab fByte eByte).reg 0).buf i
        = (functionPacket cab fByte eByte).1 i := by
  have hn := functionPacket_nB cab fByte eByte
  have hcab : (pushCab (fun _ => 0, 0) cab).2 = 1 ∨ (pushCab (fun _ => 0, 0) cab).2 = 2 := by
    simp only [pushCab, pushByte]; split_ifs <;> simp
  have hk : 2 ≤ (functionPacket cab fByte eByte).2 ∧ (functionPacket cab fByte eByte).2 ≤ 4 := by
    rw [hn]; split_ifs <;> omega
  obtain ⟨l1, l2, -, -, l5⟩ := loadPacket_slot_zero st (functionPacket cab fByte eByte).1
    (functionPacket cab fByte eByte).2 4 h0 hk (fun i _ => functionPacket_b_lt cab fByte eByte i)
  have hm := Int.emod_two_eq fByte
  refine ⟨?_, ?_, functionPacket_b_cab cab fByte eByte, hn, l1, l2, l5⟩
  · rw [functionPacket_short]
    exact short_form_byte fByte
  · intro e
    obtain ⟨a1, a2⟩ := functionPacket_long cab fByte e
    rw [a1, a2, long_form_byte]
    refine ⟨rfl, ?_, rfl⟩
    constructor <;> intro h <;> omega

/-- C13, witness: `3 144` builds `[0x03, 0x90]`, loaded with repeat 4. -/
theorem setFunction_packet_witness :
    (RegisterList.RegisterList 12).regMap 0 = some 0 ∧
    payloadOf (functionPacket 3 144 none).1 (functionPacket 3 144 none).2 = [0x03, 0x90] ∧
    (setFunction (RegisterList.RegisterList 12) 3 144 none).nRepeat = 4 :=
  ⟨rfl, by decide, (setFunction_packet (RegisterList.RegisterList 12) 3 144 none rfl).2.2.2.2.1⟩

/-! ## Accessory commands -/

theorem toByte_natCast (n : Nat) : toByte (n : Int) = n % 256 := by
  unfold toByte
  omega

theorem cAnd_zero_left (m : Int) : cAnd 0 m = 0 := by
  cases m with
  | ofNat n => show ((0 &&& n : Nat) : Int) = 0; simp
  | negSucc n => show ((Nat.ldiff 0 n : Nat) : Int) = 0; simp [Nat.ldiff]

/-- The test `x != x&m` never takes its branch. -/
theorem neMask_eq_false (x m : Int) : neMask x m = false := by
  unfold neMask
  simp [cAnd_zero_left]

set_option maxRecDepth 1000000 in
set_option maxHeartbeats 4000000 in
theorem accessory_forms : ∀ a < 512, ∀ p < 4, ∀ v < 2,
    (a % 64 + 128) % 256 = (a &&& 0x3F) ||| 0x80 ∧
    ((((a / 64 % 8) * 16 + p * 2 + v) % 256) ^^^ 0xF8) % 256
      = ((((a >>> 6) &&& 7) <<< 4) ||| (p <<< 1) ||| v) ^^^ 0xF8 ∧
    ((a &&& 0x3F) ||| 0x80) / 64 = 2 ∧
    (((((a >>> 6) &&& 7) <<< 4) ||| (p <<< 1) ||| v) ^^^ 0xF8) / 128 = 1 ∧
    (((((a >>> 6) &&& 7) <<< 4) ||| (p <<< 1) ||| v) ^^^ 0xF8) / 8 % 2 = 1 := by
  decide

theorem accessoryBytes_natCast (a p v : Nat) :
    accessoryBytes (a : Int) (p : Int) (v : Int) =
      ((a % 64 + 128) % 256, ((((a / 64 % 8) * 16 + p * 2 + v) % 256) ^^^ 0xF8) % 256) := by
  unfold accessoryBytes
  have e1 : Int.tmod (a : Int) 64 + 128 = ((a % 64 + 128 : Nat) : Int) := by
    rw [Int.tmod_eq_emod (by omega) (by omega)]
    omega
  have e2 : (Int.tmod (Int.tdiv (a : Int) 64) 8) * 16 + (p : Int) * 2 + (v : Int)
      = (((a / 64 % 8) * 16 + p * 2 + v : Nat) : Int) := by
    rw [Int.tdiv_eq_ediv (by omega) (by omega), Int.tmod_eq_emod (by omega) (by omega)]
    omega
  have h := toByte_cXor (((a / 64 % 8) * 16 + p * 2 + v : Nat) : Int) 0xF8
  simp only [Nat.cast_ofNat] at h
  rw [e1, e2, toByte_natCast, h, toByte_natCast]

theorem setAccessory_eq (st : RegisterList) (reversed : Bool) (aAdd aNum activate : Int) :
    setAccessory st reversed aAdd aNum activate =
      (loadPacket st 0
        (setByte (setByte (fun _ => 0) 0
          (accessoryBytes aAdd aNum
            (if reversed then (if activate = 0 then 1 else 0) else activate)).1) 1
          (accessoryBytes aAdd aNum
            (if reversed then (if activate = 0 then 1 else 0) else activate)).2) 2 4).1 := by
  simp [setAccessory, neMask_eq_false]

/-- C12. With `ACCESSORIES_REVERSED` undefined, for `addr` in `0..511`, `port` in `0..3` and
`activate` in `0..1` the two bytes `setAccessory` computes with `%`, `/` and `+` are
`(addr & 0x3F) | 0x80` and `((((addr >> 6) & 7) << 4) | (port << 1) | activate) ^ 0xF8`;
byte 0 has the form `10AAAAAA`, byte 1 has bits 7 and 3 set, and the two bytes are loaded
into slot 0, register 0, with repeat 4. -/
theorem setAccessory_packet (st : RegisterList) (aAdd aNum activate : Int)
    (h0 : st.regMap 0 = some 0)
    (ha : 0 ≤ aAdd ∧ aAdd ≤ 511) (hp : 0 ≤ aNum ∧ aNum ≤ 3) (hv : 0 ≤ activate ∧ activate ≤ 1) :
    accessoryBytes aAdd aNum activate
      = accessoryBytesSpec aAdd.toNat aNum.toNat activate.toNat ∧
    (accessoryBytes aAdd aNum activate).1 / 64 = 2 ∧
    (accessoryBytes aAdd aNum activate).2 / 128 = 1 ∧
    (accessoryBytes aAdd aNum activate).2 / 8 % 2 = 1 ∧
    (setAccessory st false aAdd aNum activate).nRepeat = 4 ∧
    (setAccessory st false aAdd aNum activate).nextReg = some 0 ∧
    ((setAccessory st false aAdd aNum activate).reg 0).nBits = 28 ∧
    decodeByte ((setAccessory st false aAdd aNum activate).reg 0).buf 0
      = (accessoryBytes aAdd aNum activate).1 ∧
    decodeByte ((setAccessory st false aAdd aNum activate).reg 0).buf 1
      = (accessoryBytes aAdd aNum activate).2 := by
  obtain ⟨a, rfl⟩ := Int.eq_ofNat_of_zero_le ha.1
  obtain ⟨p, rfl⟩ := Int.eq_ofNat_of_zero_le hp.1
  obtain ⟨v, rfl⟩ := Int.eq_ofNat_of_zero_le hv.1
  obtain ⟨e1, e2, e3, e4, e5⟩ := accessory_forms a (by omega) p (by omega) v (by omega)
  have hb := accessoryBytes_natCast a p v
  have hspec : accessoryBytes (a : Int) (p : Int) (v : Int) = accessoryBytesSpec a p v := by
    rw [hb]; unfold accessoryBytesSpec; rw [e1, e2]
  have h1 : (accessoryBytes (a : Int) (p : Int) (v : Int)).1 < 256 := by
    rw [hb]; exact Nat.mod_lt _ (by decide)
  have h2 : (accessoryBytes (a : Int) (p : Int) (v : Int)).2 < 256 := by
    rw [hb]; exact Nat.mod_lt _ (by decide)
  have hlt : ∀ i < 2, setByte (setByte (fun _ => 0) 0
      (accessoryBytes (a : Int) (p : Int) (v : Int)).1) 1
      (accessoryBytes (a : Int) (p : Int) (v : Int)).2 i < 256 := by
    intro i hi
    simp only [setByte]
    split_ifs <;> omega
  obtain ⟨l1, l2, -, l4, l5⟩ := loadPacket_slot_zero st _ 2 4 h0 (by decide) hlt
  rw [setAccessory_eq]
  simp only [Bool.false_eq_true, if_false]
  refine ⟨?_, ?_, ?_, ?_, l1, l2, l4, ?_, ?_⟩
  · simpa using hspec
  · rw [hspec]; exact e3
  · rw [hspec]; exact e4
  · rw [hspec]; exact e5
  · rw [l5 0 (by decide)]
    simp [setByte, Nat.mod_eq_of_lt h1]
  · rw [l5 1 (by decide)]
    simp [setByte, Nat.mod_eq_of_lt h2]

/-- C12, witness: `24 1 1` builds `[0x98, 0xFB]`. -/
theorem setAccessory_packet_witness :
    (RegisterList.RegisterList 12).regMap 0 = some 0 ∧
    ((0 : Int) ≤ 24 ∧ (24 : Int) ≤ 511) ∧ ((0 : Int) ≤ 1 ∧ (1 : Int) ≤ 3) ∧
    ((0 : Int) ≤ 1 ∧ (1 : Int) ≤ 1) ∧
    accessoryBytes 24 1 1 = (0x98, 0xFB) ∧
    (setAccessory (RegisterList.RegisterList 12) false 24 1 1).nRepeat = 4 :=
  ⟨rfl, by decide, by decide, by decide, by decide,
    (setAccessory_packet (RegisterList.RegisterList 12) 24 1 1 rfl (by decide) (by decide)
      (by decide)).2.2.2.2.1⟩

/-- C11. Capacity 12, accessory commands `600 1 1` (address above 511), `24 9 1` (port above
3) and `24 1 2` (activate above 1): none is rejected; each loads a packet, setting `nextReg`
to register 0 and `nRepeat` to 4, where the constructor left `NULL` and 0. -/
theorem setAccessory_out_of_range :
    (RegisterList.RegisterList 12).nextReg = none ∧
    (RegisterList.RegisterList 12).nRepeat = 0 ∧
    neMask 600 511 = false ∧
    (setAccessory (RegisterList.RegisterList 12) false 600 1 1).nextReg = some 0 ∧
    (setAccessory (RegisterList.RegisterList 12) false 600 1 1).nRepeat = 4 ∧
    (setAccessory (RegisterList.RegisterList 12) false 24 9 1).nextReg = some 0 ∧
    (setAccessory (RegisterList.RegisterList 12) false 24 1 2).nextReg = some 0 := by
  decide

/-! ## CV addresses and bit numbers -/

theorem cv_selector_bits : ∀ h < 4,
    (h &&& 0x03 = h) ∧
    ((0x78 + h) &&& 0xFC = 0x78 ∧ (0x78 + h) &&& 0x03 = h) ∧
    ((0x74 + h) &&& 0xFC = 0x74 ∧ (0x74 + h) &&& 0x03 = h) ∧
    ((0x7C + h) &&& 0xFC = 0x7C ∧ (0x7C + h) &&& 0x03 = h) ∧
    ((0xEC + h) &&& 0xFC = 0xEC ∧ (0xEC + h) &&& 0x03 = h) ∧
    ((0xE8 + h) &&& 0xFC = 0xE8 ∧ (0xE8 + h) &&& 0x03 = h) := by
  decide

/-- C15. For a CV number `cv` in `1..1024` and an operation selector `op` among `0x78`,
`0x74`, `0x7C`, `0xEC` and `0xE8`, the two address bytes are `op + ((cv-1) >> 8)` and
`(cv-1) & 0xFF`; the selector bits are untouched, `first & 0xFC = op`, and the address is
recovered as `(((first & 0x03) << 8) | second) + 1 = cv`. -/
theorem cvAddress_round_trip (op : Nat) (cv : Int) (hcv : 1 ≤ cv ∧ cv ≤ 1024)
    (hop : op = 0x78 ∨ op = 0x74 ∨ op = 0x7C ∨ op = 0xEC ∨ op = 0xE8) :
    (cvAddress op cv).1 = op + (cv - 1).toNat / 256 ∧
    (cvAddress op cv).2 = (cv - 1).toNat % 256 ∧
    (cvAddress op cv).1 &&& 0xFC = op ∧
    ((((((cvAddress op cv).1 &&& 0x03) <<< 8) ||| (cvAddress op cv).2) + 1 : Nat) : Int) = cv := by
  obtain ⟨n, hn⟩ := Int.eq_ofNat_of_zero_le (by omega : 0 ≤ cv - 1)
  have hlt : n < 1024 := by omega
  have hh : n / 256 % 256 = n / 256 := Nat.mod_eq_of_lt (by omega)
  obtain ⟨c0, c1, c2, c3, c4, c5⟩ := cv_selector_bits (n / 256) (by omega)
  have e3 := shift_or_low (n / 256) (n % 256) (Nat.mod_lt _ (by decide))
  have hdm := Nat.div_add_mod n 256
  have hfirst : (cvAddress op cv).1 = op + n / 256 := by
    simp only [cvAddress, hn, highByte_natCast, hh, c0]
    rcases hop with rfl | rfl | rfl | rfl | rfl <;> omega
  have hsecond : (cvAddress op cv).2 = n % 256 := by
    simp only [cvAddress, hn, lowByte_natCast]
  have hto : (cv - 1).toNat = n := by omega
  rw [hfirst, hsecond, hto]
  refine ⟨rfl, rfl, ?_, ?_⟩
  · rcases hop with rfl | rfl | rfl | rfl | rfl
    · exact c1.1
    · exact c2.1
    · exact c3.1
    · exact c4.1
    · exact c5.1
  · have hlow : (op + n / 256) &&& 0x03 = n / 256 := by
      rcases hop with rfl | rfl | rfl | rfl | rfl
      · exact c1.2
      · exact c2.2
      · exact c3.2
      · exact c4.2
      · exact c5.2
    rw [hlow, e3]
    omega

/-- C15, witness: CV 300 read from the programming track has the bytes `0x79 0x2B`. -/
theorem cvAddress_round_trip_witness :
    ((1 : Int) ≤ 300 ∧ (300 : Int) ≤ 1024) ∧ cvAddress 0x78 300 = (0x79, 0x2B) ∧
    (cvAddress 0x78 300).1 &&& 0xFC = 0x78 :=
  ⟨by decide, by decide,
    (cvAddress_round_trip 0x78 300 (by decide) (Or.inl rfl)).2.2.1⟩

/-- For a bit number and a value that are not negative the normalised bit number is in
`0..7`, the normalised value in `0..1`, and the byte is `0xF0 | (value << 3) | bit`. -/
theorem cvBit_of_nonneg (bNum bValue : Int) (hb : 0 ≤ bNum) (hv : 0 ≤ bValue) :
    (0 ≤ (cvBitArgs bNum bValue).1 ∧ (cvBitArgs bNum bValue).1 ≤ 7) ∧
    (0 ≤ (cvBitArgs bNum bValue).2 ∧ (cvBitArgs bNum bValue).2 ≤ 1) ∧
    cvBitByte bNum bValue
      = 0xF0 ||| ((cvBitArgs bNum bValue).2.toNat <<< 3) ||| (cvBitArgs bNum bValue).1.toNat ∧
    cvBitByte bNum bValue / 16 = 0xF := by
  have e1 : Int.tmod bNum 8 = bNum % 8 := Int.tmod_eq_emod hb (by decide)
  have e2 : Int.tmod bValue 2 = bValue % 2 := Int.tmod_eq_emod hv (by decide)
  have hforms : ∀ b < 8, ∀ v < 2,
      0xF0 + v * 8 + b = 0xF0 ||| (v <<< 3) ||| b ∧ (0xF0 + v * 8 + b) / 16 = 0xF := by
    decide
  simp only [cvBitByte, cvBitArgs, e1, e2]
  obtain ⟨b, hb'⟩ := Int.eq_ofNat_of_zero_le (Int.emod_nonneg bNum (by decide : (8 : Int) ≠ 0))
  obtain ⟨v, hv'⟩ := Int.eq_ofNat_of_zero_le (Int.emod_nonneg bValue (by decide : (2 : Int) ≠ 0))
  rw [hb', hv']
  have hb8 : b < 8 := by omega
  have hv2 : v < 2 := by omega
  obtain ⟨f1, f2⟩ := hforms b hb8 v hv2
  have hbyte : toByte (0xF0 + (v : Int) * 8 + (b : Int)) = 0xF0 + v * 8 + b := by
    unfold toByte
    omega
  rw [hbyte, Int.toNat_ofNat, Int.toNat_ofNat]
  exact ⟨⟨by omega, by omega⟩, ⟨by omega, by omega⟩, f1, f2⟩

/-- C16. Bit number -1 with value 0 (`writeCVBitMain` on `3 5 -1 0`, `writeCVBit` on
`5 -1 0 ...`): the normalised bit number is -1, outside `0..7`, and the third byte is
`0xEF`, whose top four bits are 1110.  Value -1 with bit number 3 is normalised to -1 and
gives `0xEB`. -/
theorem cvBit_negative :
    cvBitArgs (-1) 0 = (-1, 0) ∧
    cvBitByte (-1) 0 = 0xEF ∧
    payloadOf (cvBitMainPacket 3 5 (-1) 0).1 (cvBitMainPacket 3 5 (-1) 0).2
      = [0x03, 0xE8, 0x04, 0xEF] ∧
    payloadOf (cvBitPacket 5 (-1) 0) 3 = [0x78, 0x04, 0xEF] ∧
    cvBitArgs 3 (-1) = (3, -1) ∧
    cvBitByte 3 (-1) = 0xEB := by
  decide

/-! ## Start bits -/

set_option maxHeartbeats 1000000 in
theorem packBits_startBit (buf b : Bytes) (k i : Nat) (hk : 2 ≤ k ∧ k ≤ 5)
    (hb : ∀ j ≤ k, b j < 256) (hi : i ≤ k) :
    streamBit (packBits buf b (k + 1)).1 (9 * i) = 0 := by
  obtain ⟨h2, h5⟩ := hk
  have h0 := hb 0 (by omega)
  have h1 := hb 1 (by omega)
  have h2 := hb 2 (by omega)
  interval_cases k
  · interval_cases i <;>
      simp (disch := omega) [packBits, streamBit, setByte, Nat.shiftLeft_eq,
        Nat.shiftRight_eq_div_pow, bitSet_eq] <;> omega
  · have h3 := hb 3 (by omega)
    interval_cases i <;>
      simp (disch := omega) [packBits, streamBit, setByte, Nat.shiftLeft_eq,
        Nat.shiftRight_eq_div_pow, bitSet_eq] <;> omega
  · have h3 := hb 3 (by omega)
    have h4 := hb 4 (by omega)
    interval_cases i <;>
      simp (disch := omega) [packBits, streamBit, setByte, Nat.shiftLeft_eq,
        Nat.shiftRight_eq_div_pow, bitSet_eq] <;> omega
  · have h3 := hb 3 (by omega)
    have h4 := hb 4 (by omega)
    have h5 := hb 5 (by omega)
    interval_cases i <;>
      simp (disch := omega) [packBits, streamBit, setByte, Nat.shiftLeft_eq,
        Nat.shiftRight_eq_div_pow, bitSet_eq] <;> omega

/-- C19. For every payload of `k` bytes, `k` in `2..5`, loaded under any slot number from
any state, and every `i` in `0..k`, stream bit `9i` of the register that `loadPacket` has
written is 0: one 0 start bit stands before each byte of the payload and before the
checksum. -/
theorem loadPacket_start_bits (st : RegisterList) (nReg : Int) (b : Bytes) (k : Nat)
    (nRepeat : Int) (hk : 2 ≤ k ∧ k ≤ 5) (hb : ∀ i < k, b i < 256) (i : Nat) (hi : i ≤ k) :
    streamBit ((loadPacket st nReg b k nRepeat).1.reg (loadTarget st nReg)).buf (9 * i) = 0 := by
  rw [streamBit_congr _ _ _ (by omega) (loadPacket_buf st nReg b k nRepeat)]
  exact packBits_startBit _ _ k i hk (addChecksum_bytes b k hb) hi

/-- C19, witness: the five bytes `FF FF FF FF FF` loaded into slot 0 of a fresh table; the
bit before the checksum, stream bit 45, is 0. -/
theorem loadPacket_start_bits_witness :
    ((2 ≤ 5 ∧ 5 ≤ 5) ∧ ∀ i < 5, bytesOf [0xFF, 0xFF, 0xFF, 0xFF, 0xFF] i < 256) ∧
    streamBit ((loadPacket (RegisterList.RegisterList 12) 0
      (bytesOf [0xFF, 0xFF, 0xFF, 0xFF, 0xFF]) 5 0).1.reg
        (loadTarget (RegisterList.RegisterList 12) 0)).buf (9 * 5) = 0 :=
  ⟨⟨by decide, by decide⟩,
    loadPacket_start_bits (RegisterList.RegisterList 12) 0
      (bytesOf [0xFF, 0xFF, 0xFF, 0xFF, 0xFF]) 5 0 (by decide) (by decide) 5 (by decide)⟩

/-! ## Slot numbers out of range -/

theorem tmod_neg_natCast (x m : Nat) : Int.tmod (-(x : Int)) (m : Int) = -((x % m : Nat) : Int) := by
  cases x with
  | zero => simp
  | succ a => rfl

theorem coerceReg_idem (nReg : Int) (n : Nat) :
    coerceReg (coerceReg nReg n) n = coerceReg nReg n := by
  unfold coerceReg
  have hm : ((n : Int) + 1) = ((n + 1 : Nat) : Int) := by push_cast; rfl
  rw [hm]
  rcases Int.le_total 0 nReg with h | h
  · exact Int.tmod_eq_of_lt (Int.tmod_nonneg _ h) (Int.tmod_lt_of_pos _ (by omega))
  · obtain ⟨x, hx⟩ := Int.eq_ofNat_of_zero_le (by omega : 0 ≤ -nReg)
    have hn : nReg = -(x : Int) := by omega
    rw [hn, tmod_neg_natCast, tmod_neg_natCast, Nat.mod_mod]

theorem coerceReg_of_nonneg (nReg : Int) (n : Nat) (h : 0 ≤ nReg) :
    coerceReg nReg n = nReg % ((n : Int) + 1) :=
  Int.tmod_eq_emod h (by omega)

theorem loadPacket_coerce (st : RegisterList) (nReg : Int) (b : Bytes) (nBytes : Nat)
    (nRepeat : Int) :
    loadPacket st (coerceReg nReg st.maxNumRegs) b nBytes nRepeat
      = loadPacket st nReg b nBytes nRepeat := by
  simp only [loadPacket, coerceReg_idem]

/-- C17, counterexample. On a table of capacity 12 the raw packet `14 00 00` (slot number
14, outside `0..12`) is not ignored: nothing is reported, a packet is handed over, user slot
1 is mapped to register 1 and `maxLoadedReg` becomes 1. -/
theorem writeTextPacket_counterexample :
    (14 : Int) > (RegisterList.RegisterList 12).maxNumRegs ∧
    (writeTextPacket (RegisterList.RegisterList 12) 14 [0x00, 0x00]).2 = false ∧
    (RegisterList.RegisterList 12).nextReg = none ∧
    (writeTextPacket (RegisterList.RegisterList 12) 14 [0x00, 0x00]).1.nextReg = some 1 ∧
    (RegisterList.RegisterList 12).regMap 1 = none ∧
    (writeTextPacket (RegisterList.RegisterList 12) 14 [0x00, 0x00]).1.regMap 1 = some 1 ∧
    (RegisterList.RegisterList 12).maxLoadedReg = 0 ∧
    (writeTextPacket (RegisterList.RegisterList 12) 14 [0x00, 0x00]).1.maxLoadedReg = 1 := by
  decide

/-- C17, amended. A throttle command with a slot number outside `1..N` is ignored: the
register list is unchanged and nothing is answered.  A raw packet is ignored, and reported
as invalid, only when fewer than two bytes were read; its slot number is not checked: with
two or more bytes and a slot number above `N`, the packet is loaded as it is for the slot
number `nReg % (N+1)`, and a register is handed over. -/
theorem invalid_slot_handling (st : RegisterList) (nReg cab tSpeed tDirection : Int)
    (vals : List Nat) (hslot : nReg < 1 ∨ nReg > st.maxNumRegs) :
    setThrottle st nReg cab tSpeed tDirection = (st, none) ∧
    (vals.length < 2 → writeTextPacket st nReg vals = (st, true)) ∧
    (2 ≤ vals.length → nReg > st.maxNumRegs →
      writeTextPacket st nReg vals
        = writeTextPacket st (nReg % ((st.maxNumRegs : Int) + 1)) vals ∧
      (writeTextPacket st nReg vals).2 = false ∧
      (writeTextPacket st nReg vals).1.nextReg = some (loadTarget st nReg)) := by
  have hlen : (vals.take 5).length = min 5 vals.length := List.length_take 5 vals
  refine ⟨?_, ?_, ?_⟩
  · unfold setThrottle
    rw [if_pos hslot]
  · intro h
    unfold writeTextPacket
    rw [if_pos (Or.inl (by omega))]
  · intro h hn
    have hc := coerceReg_of_nonneg nReg st.maxNumRegs (by omega)
    have hif : ¬ ((vals.take 5).length < 2 ∨ (vals.take 5).length > 5) := by omega
    unfold writeTextPacket
    simp only [if_neg hif]
    rw [← hc, loadPacket_coerce]
    exact ⟨rfl, trivial, loadPacket_nextReg _ _ _ _ _⟩

/-- C17, witness: on capacity 12 the throttle command `14 3 0 1` is ignored, and the raw
packet `14 00 00` is loaded as `1 00 00` is. -/
theorem invalid_slot_handling_witness :
    ((14 : Int) < 1 ∨ (14 : Int) > (RegisterList.RegisterList 12).maxNumRegs) ∧
    2 ≤ [0x00, 0x00].length ∧
    setThrottle (RegisterList.RegisterList 12) 14 3 0 1 = (RegisterList.RegisterList 12, none) ∧
    writeTextPacket (RegisterList.RegisterList 12) 14 [0x00, 0x00]
      = writeTextPacket (RegisterList.RegisterList 12)
          (14 % (((RegisterList.RegisterList 12).maxNumRegs : Int) + 1)) [0x00, 0x00] :=
  ⟨by decide, by decide,
    (invalid_slot_handling (RegisterList.RegisterList 12) 14 3 0 1 [0x00, 0x00]
      (Or.inr (by decide))).1,
    ((invalid_slot_handling (RegisterList.RegisterList 12) 14 3 0 1 [0x00, 0x00]
      (Or.inr (by decide))).2.2 (by decide) (by decide)).1⟩

/-! ## Invalid flags and slot selection in reachable states -/

theorem flags_init (maxNumRegs : Nat) : Flags (RegisterList.RegisterList maxNumRegs) where
  live := by
    intro i q hi h
    simp [RegisterList.RegisterList, hi] at h
  dead := by
    intro r h
    simp [RegisterList.RegisterList] at h
  low := by
    intro r h
    simp [RegisterList.RegisterList] at h

theorem flags_store_of_ne (st : RegisterList) (h : Good st) (hf : Flags st) (nReg : Int)
    (hn : nReg ≠ 0) (b : Bytes) (n : Nat) (nRepeat : Int) :
    Flags (publish (markRecycle (clearInvalid (encodeReg (selectReg st nReg) (chooseReg st) b n)
      (chooseReg st)) nReg) (chooseReg st) nRepeat) := by
  obtain ⟨hp1, hp2⟩ := chooseReg_fresh st h
  obtain ⟨f1, f2, f3, f4, f5⟩ :=
    store_fields (selectReg st nReg) nReg (chooseReg st) b n nRepeat
  have g1 : (selectReg st nReg).regMap
      = fun i => if i = nReg then some (chooseReg st) else st.regMap i := rfl
  have g2 : (selectReg st nReg).recycleReg = st.regMap nReg := rfl
  have g3 : (selectReg st nReg).maxLoadedReg = st.maxLoadedReg := rfl
  have g4 : (selectReg st nReg).reg = st.reg := rfl
  have hrec : (clearInvalid (encodeReg (selectReg st nReg) (chooseReg st) b n)
      (chooseReg st)).recycleReg = st.regMap nReg := rfl
  rw [g1] at f1
  rw [g2] at f2
  rw [g3] at f3
  constructor
  · intro i q hi hq
    rw [f1] at hq
    rw [f5]
    have hq' : (if i = nReg then some (chooseReg st) else st.regMap i) = some q := hq
    by_cases e : i = nReg
    · rw [if_pos e] at hq'
      injection hq' with hq'
      subst hq'
      rw [markRecycle_reg_of_ne _ _ _ (by rw [hrec]; exact hp2 nReg)]
      exact clearInvalid_flag_self _ _
    · rw [if_neg e] at hq'
      have hqc : q ≠ chooseReg st := fun hc => hp2 i (hc ▸ hq')
      have hqr : st.regMap nReg ≠ some q := fun hc => e (h.inj i nReg q hq' hc)
      rw [markRecycle_reg_of_ne _ _ _ (by rw [hrec]; exact hqr),
        clearInvalid_reg_of_ne _ _ _ hqc, encodeReg_reg_of_ne _ _ _ _ _ hqc, g4]
      exact hf.live i q hi hq'
  · intro r hr
    rw [f2] at hr
    rw [f5]
    exact markRecycle_flag_self _ _ _ (by rw [hrec]; exact hr) hn
  · intro r hr
    rw [f2] at hr
    rw [f3]
    exact le_trans (h.pos nReg r hn hr).2.1 (le_max_left _ _)

theorem flags_store_of_zero (st : RegisterList) (h : Good st) (hf : Flags st) (b : Bytes)
    (n : Nat) (nRepeat : Int) :
    Flags (publish (markRecycle (clearInvalid (encodeReg st 0 b n) 0) 0) 0 nRepeat) := by
  obtain ⟨f1, f2, f3, f4, f5⟩ := store_fields st 0 0 b n nRepeat
  have hreg : ∀ q, 1 ≤ q →
      (publish (markRecycle (clearInvalid (encodeReg st 0 b n) 0) 0) 0 nRepeat).reg q
        = st.reg q := by
    intro q hq
    rw [f5, markRecycle_zero, clearInvalid_reg_of_ne _ _ _ (by omega),
      encodeReg_reg_of_ne _ _ _ _ _ (by omega)]
  constructor
  · intro i q hi hq
    rw [f1] at hq
    rw [hreg q (h.pos i q hi hq).1]
    exact hf.live i q hi hq
  · intro r hr
    rw [f2] at hr
    rw [hreg r (h.recyc r hr)]
    exact hf.dead r hr
  · intro r hr
    rw [f2] at hr
    rw [f3]
    exact le_trans (hf.low r hr) (le_max_left _ _)

theorem flags_adoptNext (st : RegisterList) (h : Flags st) : Flags (adoptNext st) where
  live := h.live
  dead := h.dead
  low := h.low

/-- A completed `loadPacket` call keeps the invalid flags as `Flags` describes them. -/
theorem flags_loadPacket (st : RegisterList) (h : Good st) (hf : Flags st) (nReg : Int)
    (b : Bytes) (nBytes : Nat) (nRepeat : Int) :
    Flags (loadPacket st nReg b nBytes nRepeat).1 := by
  have hy : ∀ st : RegisterList, awaitNext st = adoptNext st := fun _ => rfl
  by_cases hn : coerceReg nReg st.maxNumRegs ≠ 0
  · have ht : targetReg (selectReg st (coerceReg nReg st.maxNumRegs)) (coerceReg nReg st.maxNumRegs)
        = chooseReg st := by simp [targetReg, selectReg]
    simp only [loadPacket, hn, if_true, ne_eq, not_false_eq_true, hy, publish_adoptNext, ht]
    exact flags_store_of_ne st h hf _ hn _ _ _
  · have hn' : coerceReg nReg st.maxNumRegs = 0 := by
      by_contra h'; exact hn h'
    have ht : targetReg (adoptNext st) 0 = 0 := by
      simp [targetReg, adoptNext, h.zero]
    simp only [loadPacket, hn', if_true, ne_eq, not_true_eq_false, if_false, hy, ht]
    exact flags_store_of_zero (adoptNext st) (good_adoptNext st h) (flags_adoptNext st hf) _ _ _

theorem loadPacket_maxNumRegs (st : RegisterList) (nReg : Int) (b : Bytes) (nBytes : Nat)
    (nRepeat : Int) : (loadPacket st nReg b nBytes nRepeat).1.maxNumRegs = st.maxNumRegs := by
  by_cases hn : coerceReg nReg st.maxNumRegs ≠ 0
  · exact (loadPacket_fields_of_ne st nReg b nBytes nRepeat hn).2.2.2.2.2.2.1
  · exact (loadPacket_fields_of_zero st nReg b nBytes nRepeat
      (by by_contra h'; exact hn h')).2.2.2.2.2.2.1

theorem chooseReg_of_some (st : RegisterList) (r : Nat) (hr : st.recycleReg = some r)
    (hle : r ≤ st.maxLoadedReg) : chooseReg st = r := by
  unfold chooseReg
  split
  · next q hq =>
    have h1 := List.find?_some hq
    simp only [decide_eq_true_eq] at h1
    rw [hr] at h1
    injection h1
  · next hq =>
    rw [List.find?_eq_none] at hq
    have := hq r (List.mem_range.mpr (by omega))
    simp only [decide_eq_true_eq] at this
    exact absurd hr.symm this

theorem chooseReg_of_none (st : RegisterList) (hr : st.recycleReg = none) :
    chooseReg st = st.maxLoadedReg + 1 := by
  rcases chooseReg_cases st with ⟨h1, -⟩ | h1
  · rw [hr] at h1; exact absurd h1 (by simp)
  · exact h1

theorem loadPacket_maxLoadedReg (st : RegisterList) (nReg : Int) (b : Bytes) (nBytes : Nat)
    (nRepeat : Int) :
    (loadPacket st nReg b nBytes nRepeat).1.maxLoadedReg
      = max st.maxLoadedReg (loadTarget st nReg) := by
  by_cases hn : coerceReg nReg st.maxNumRegs ≠ 0
  · obtain ⟨f1, -, -, f4, -⟩ := loadPacket_fields_of_ne st nReg b nBytes nRepeat hn
    rw [f4, f1]
  · obtain ⟨f1, -, -, f4, -⟩ := loadPacket_fields_of_zero st nReg b nBytes nRepeat
      (by by_contra h'; exact hn h')
    rw [f4, f1]

/-! ## Reading a configuration variable -/

theorem ackStep_verdict_le (thr : Int) (base : Nat) (regs : RegisterList) (l : AckLocals)
    (x : Sample) (r : Nat) (h : (ackStep thr base regs l x).2.2 = some r) : r ≤ 1 := by
  unfold ackStep at h
  simp only [] at h
  split_ifs at h <;> simp at h <;> omega

theorem ackLoop_verdict_le (thr : Int) (base : Nat) (xs : List Sample) :
    ∀ (regs : RegisterList) (l : AckLocals) (r : Nat) (regs2 : RegisterList),
      ackLoop thr base regs l xs = some (r, regs2) → r ≤ 1 := by
  induction xs with
  | nil => intro regs l r regs2 h; simp [ackLoop] at h
  | cons x xs ih =>
    intro regs l r regs2 h
    unfold ackLoop at h
    rcases hs : ackStep thr base regs l x with ⟨regs1, l1, v⟩
    rw [hs] at h
    cases v with
    | none => exact ih regs1 l1 r regs2 h
    | some r1 =>
      simp only [Option.some.injEq, Prod.mk.injEq] at h
      have := ackStep_verdict_le thr base regs l x r1 (by rw [hs])
      omega

theorem ackdetect_fst (thr : Int) (base entry : Nat) (trace : List Sample)
    (regs regs2 : RegisterList) :
    (ackdetect regs thr base entry trace).map Prod.fst
      = (ackdetect regs2 thr base entry trace).map Prod.fst :=
  ackVerdict_regs thr base trace regs regs2 _

/-- A call of `ackdetect` whose verdict is `d` on one register list returns `d`, which is
0 or 1, on every register list. -/
theorem ackdetect_of_verdict (thr : Int) (base entry : Nat) (trace : List Sample)
    (regs0 regs : RegisterList) (d : Nat)
    (h : (ackdetect regs0 thr base entry trace).map Prod.fst = some d) :
    d ≤ 1 ∧ ∃ regs2, ackdetect regs thr base entry trace = some (d, regs2) := by
  rw [ackdetect_fst thr base entry trace regs0 regs] at h
  cases hr : ackdetect regs thr base entry trace with
  | none => rw [hr] at h; simp at h
  | some p =>
    obtain ⟨r, regs2⟩ := p
    rw [hr] at h
    simp only [Option.map_some', Option.some.injEq] at h
    subst h
    exact ⟨ackLoop_verdict_le thr base trace _ _ _ _ hr, regs2, rfl⟩

set_option maxRecDepth 100000 in
theorem bitWrite_step : ∀ i < 8, ∀ v < 2 ^ i, ∀ d ≤ 1,
    bitWrite ((v : Nat) : Int) i d = ((v + d * 2 ^ i : Nat) : Int) := by
  decide

/-! ## The coerced slot number -/

/-- For a slot number that is not negative the remainder of line 43 lies in `0..N`. -/
theorem coerceReg_mem_of_nonneg (nReg : Int) (n : Nat) (h : 0 ≤ nReg) :
    0 ≤ coerceReg nReg n ∧ coerceReg nReg n ≤ n := by
  rw [coerceReg_of_nonneg nReg n h]
  have h1 := Int.emod_nonneg nReg (by omega : ((n : Int) + 1) ≠ 0)
  have h2 := Int.emod_lt_of_pos nReg (by omega : (0 : Int) < (n : Int) + 1)
  omega

/-- For a negative slot number the remainder of line 43 lies in `-N..0`: it is negative
unless the slot number is a multiple of `N+1`. -/
theorem coerceReg_of_neg (nReg : Int) (n : Nat) (h : nReg < 0) :
    coerceReg nReg n = -((-nReg) % ((n : Int) + 1)) ∧
    -(n : Int) ≤ coerceReg nReg n ∧ coerceReg nReg n ≤ 0 := by
  obtain ⟨x, hx⟩ := Int.eq_ofNat_of_zero_le (by omega : 0 ≤ -nReg)
  have hn : nReg = -(x : Int) := by omega
  have hm : ((n : Int) + 1) = ((n + 1 : Nat) : Int) := by push_cast; rfl
  have hlt : x % (n + 1) < n + 1 := Nat.mod_lt _ (by omega)
  unfold coerceReg
  rw [hn, hm, tmod_neg_natCast, neg_neg]
  refine ⟨by push_cast; rfl, ?_, ?_⟩ <;> omega

/-- C21. Capacity 12, slot number -1: the remainder of line 43 is -1, not a number in
`0..12`.  The raw packet `-1 00 00` passes the byte-count test of `writeTextPacket`, and
`loadPacket` then reads and writes `regMap[-1]`, before the start of the array. -/
theorem coerceReg_negative :
    coerceReg (-1) 12 = -1 ∧
    ¬ (0 ≤ coerceReg (-1) 12 ∧ coerceReg (-1) 12 ≤ 12) ∧
    (writeTextPacket (RegisterList.RegisterList 12) (-1) [0x00, 0x00]).2 = false ∧
    (RegisterList.RegisterList 12).regMap (-1) = none ∧
    (writeTextPacket (RegisterList.RegisterList 12) (-1) [0x00, 0x00]).1.regMap (-1) = some 1 := by
  decide

/-! ## Packets of other slot numbers -/

/-- A completed `loadPacket` call writes a register that no slot number is mapped to, and
leaves the mapping and the register of every other slot number than 0 as they were. -/
theorem loadPacket_keeps_others (st : RegisterList) (h : Good st) (nReg : Int) (b : Bytes)
    (nBytes : Nat) (nRepeat : Int) (t : Int) (q : Nat) (ht : t ≠ 0)
    (hne : t ≠ coerceReg nReg st.maxNumRegs) (hq : st.regMap t = some q) :
    loadTarget st nReg ≠ q ∧
    (loadPacket st nReg b nBytes nRepeat).1.regMap t = some q ∧
    (loadPacket st nReg b nBytes nRepeat).1.reg q = st.reg q := by
  have hy : ∀ st : RegisterList, awaitNext st = adoptNext st := fun _ => rfl
  obtain ⟨q1, -, q3⟩ := h.pos t q ht hq
  by_cases hn : coerceReg nReg st.maxNumRegs ≠ 0
  · obtain ⟨f1, f2, -⟩ := loadPacket_fields_of_ne st nReg b nBytes nRepeat hn
    obtain ⟨-, hp2⟩ := chooseReg_fresh st h
    have hqc : q ≠ chooseReg st := fun hc => hp2 t (hc ▸ hq)
    have hqr : st.regMap (coerceReg nReg st.maxNumRegs) ≠ some q :=
      fun hc => hne (h.inj t _ q hq hc)
    refine ⟨by rw [f1]; exact fun e => hqc e.symm, by rw [f2]; simp [hne, hq], ?_⟩
    have ht : targetReg (selectReg st (coerceReg nReg st.maxNumRegs)) (coerceReg nReg st.maxNumRegs)
        = chooseReg st := by simp [targetReg, selectReg]
    simp only [loadPacket, hn, if_true, ne_eq, not_false_eq_true, hy, publish_adoptNext, ht]
    rw [(store_fields (selectReg st (coerceReg nReg st.maxNumRegs))
      (coerceReg nReg st.maxNumRegs) (chooseReg st) _ _ nRepeat).2.2.2.2,
      markRecycle_reg_of_ne _ _ _ (by exact hqr),
      clearInvalid_reg_of_ne _ _ _ hqc, encodeReg_reg_of_ne _ _ _ _ _ hqc]
    rfl
  · have hn' : coerceReg nReg st.maxNumRegs = 0 := by
      by_contra h'; exact hn h'
    obtain ⟨f1, f2, -⟩ := loadPacket_fields_of_zero st nReg b nBytes nRepeat hn'
    have hq0 : q ≠ 0 := by omega
    refine ⟨by rw [f1, h.zero]; exact fun e => hq0 e.symm, by rw [f2]; exact hq, ?_⟩
    have ht : targetReg (adoptNext st) 0 = 0 := by
      simp [targetReg, adoptNext, h.zero]
    simp only [loadPacket, hn', if_true, ne_eq, not_true_eq_false, if_false, hy, ht]
    rw [(store_fields (adoptNext st) 0 0 _ _ nRepeat).2.2.2.2, markRecycle_zero,
      clearInvalid_reg_of_ne _ _ _ hq0, encodeReg_reg_of_ne _ _ _ _ _ hq0]
    rfl


/-! ## The hand-off: two runs -/

/-- C4, witness.  Capacity 12.  First run: one call for slot number 1, run to its end;
`nextReg` points to register 1, whose invalid flag is 0.  Second run: a second call for
slot number 1 follows with no interrupt in between and reaches its busy-wait (line 110);
`nextReg` still points to register 1, which is now `recycleReg` and flagged invalid. -/
theorem handoff_invariant_witness :
    (∃ s, runEvents (System.init 12)
        [Event.call 1 (bytesOf [3, 0x3F, 0x80]) 3 0, Event.run, Event.run, Event.run,
         Event.run, Event.run, Event.run] = some s ∧
      s.call.isNone = true ∧ s.regs.nextReg = some 1 ∧ invalidFlag (s.regs.reg 1) = 0 ∧
      nextValid s.regs = true) ∧
    (∃ s fr, runEvents (System.init 12)
        [Event.call 1 (bytesOf [3, 0x3F, 0x80]) 3 0, Event.run, Event.run, Event.run,
         Event.run, Event.run, Event.run,
         Event.call 1 (bytesOf [3, 0x3F, 0x81]) 3 0, Event.run, Event.run, Event.run,
         Event.run] = some s ∧
      nextValid s.regs = false ∧
      s.call = some fr ∧ fr.pc = LoadPc.wait ∧ fr.nReg ≠ 0 ∧
      s.regs.nextReg = some 1 ∧ s.regs.recycleReg = some 1 ∧
      invalidFlag (s.regs.reg 1) = 1) := by
  constructor
  · have hm : (runEvents (System.init 12)
        [Event.call 1 (bytesOf [3, 0x3F, 0x80]) 3 0, Event.run, Event.run, Event.run,
         Event.run, Event.run, Event.run]).map
        (fun s => (s.call.isNone, s.regs.nextReg, invalidFlag (s.regs.reg 1)))
        = some (true, some 1, 0) := by decide
    cases h : runEvents (System.init 12)
        [Event.call 1 (bytesOf [3, 0x3F, 0x80]) 3 0, Event.run, Event.run, Event.run,
         Event.run, Event.run, Event.run] with
    | none => rw [h] at hm; exact absurd hm (by simp)
    | some s =>
      rw [h] at hm
      simp only [Option.map_some', Option.some.injEq, Prod.mk.injEq] at hm
      obtain ⟨h1, h2, h3⟩ := hm
      refine ⟨s, rfl, h1, h2, h3, ?_⟩
      rcases handoff_invariant 12 _ s h with hv | ⟨fr, q, hc, -⟩
      · exact hv
      · rw [hc] at h1; exact absurd h1 (by simp)
  · have hm : (runEvents (System.init 12)
        [Event.call 1 (bytesOf [3, 0x3F, 0x80]) 3 0, Event.run, Event.run, Event.run,
         Event.run, Event.run, Event.run,
         Event.call 1 (bytesOf [3, 0x3F, 0x81]) 3 0, Event.run, Event.run, Event.run,
         Event.run]).map
        (fun s => (s.regs.nextReg, nextValid s.regs)) = some (some 1, false) := by decide
    cases h : runEvents (System.init 12)
        [Event.call 1 (bytesOf [3, 0x3F, 0x80]) 3 0, Event.run, Event.run, Event.run,
         Event.run, Event.run, Event.run,
         Event.call 1 (bytesOf [3, 0x3F, 0x81]) 3 0, Event.run, Event.run, Event.run,
         Event.run] with
    | none => rw [h] at hm; exact absurd hm (by simp)
    | some s =>
      rw [h] at hm
      simp only [Option.map_some', Option.some.injEq, Prod.mk.injEq] at hm
      obtain ⟨h1, h2⟩ := hm
      rcases handoff_invariant 12 _ s h with hv | ⟨fr, q, hc, hpc, hn, hq, hr, hf⟩
      · rw [h2] at hv; exact absurd hv (by simp)
      · rw [h1] at hq
        injection hq with hq
        subst hq
        exact ⟨s, fr, rfl, h2, hc, hpc, hn, h1, hr, hf⟩

/-! ## loadPacket with the interrupt handler at line 114 -/

theorem loadPacketWith_false (st : RegisterList) (nReg : Int) (b : Bytes) (nBytes : Nat)
    (nRepeat : Int) :
    loadPacketWith st nReg b nBytes nRepeat false = (loadPacket st nReg b nBytes nRepeat).1 :=
  rfl

/-- The handler at line 114 changes what the call leaves in `nextReg` and `maxLoadedReg`,
and nothing else. -/
theorem loadPacketWith_fields (st : RegisterList) (nReg : Int) (b : Bytes) (nBytes : Nat)
    (nRepeat : Int) (adopted : Bool) :
    (loadPacketWith st nReg b nBytes nRepeat adopted).regMap
      = (loadPacket st nReg b nBytes nRepeat).1.regMap ∧
    (loadPacketWith st nReg b nBytes nRepeat adopted).recycleReg
      = (loadPacket st nReg b nBytes nRepeat).1.recycleReg ∧
    (loadPacketWith st nReg b nBytes nRepeat adopted).reg
      = (loadPacket st nReg b nBytes nRepeat).1.reg ∧
    (loadPacketWith st nReg b nBytes nRepeat adopted).maxNumRegs = st.maxNumRegs ∧
    (loadPacketWith st nReg b nBytes nRepeat adopted).maxLoadedReg
      = (if adopted then st.maxLoadedReg else max st.maxLoadedReg (loadTarget st nReg)) ∧
    (loadPacketWith st nReg b nBytes nRepeat adopted).nextReg
      = (if adopted then none else some (loadTarget st nReg)) := by
  cases adopted with
  | false =>
    rw [loadPacketWith_false]
    refine ⟨rfl, rfl, rfl, loadPacket_maxNumRegs _ _ _ _ _, ?_, ?_⟩
    · simpa using loadPacket_maxLoadedReg st nReg b nBytes nRepeat
    · simpa using loadPacket_nextReg st nReg b nBytes nRepeat
  | true =>
    by_cases hn : coerceReg nReg st.maxNumRegs ≠ 0
    · refine ⟨?_, ?_, ?_, ?_, ?_, ?_⟩ <;>
        simp [loadPacketWith, loadPacket, publishWith, publish, adoptNext, awaitNext, maxReg, hn,
          encodeReg, clearInvalid, selectReg]
    · have hn' : coerceReg nReg st.maxNumRegs = 0 := by
        by_contra h'; exact hn h'
      refine ⟨?_, ?_, ?_, ?_, ?_, ?_⟩ <;>
        simp [loadPacketWith, loadPacket, publishWith, publish, adoptNext, awaitNext, maxReg, hn',
          encodeReg, clearInvalid, markRecycle_zero]

/-! ## The recycling bound -/

theorem inside_of_le (st : RegisterList) (nReg : Int)
    (h0 : 0 ≤ coerceReg nReg st.maxNumRegs) (h1 : loadTarget st nReg ≤ st.maxNumRegs) :
    inside st nReg = true := by
  simp [inside, h0, h1]

theorem inside_iff (st : RegisterList) (nReg : Int) :
    inside st nReg = true ↔
      0 ≤ coerceReg nReg st.maxNumRegs ∧ loadTarget st nReg ≤ st.maxNumRegs := by
  simp [inside]

/-- One more call for slot number `s`, with or without the handler at line 114, stays
inside a table of capacity 2 or more and keeps the slot table in one of its shapes. -/
theorem soleSlot_step (st : RegisterList) (s : Int) (c : Call) (hN : 2 ≤ st.maxNumRegs)
    (hs : 1 ≤ s ∧ s ≤ st.maxNumRegs) (hc : c.nReg = s) (h : soleSlot st s) :
    inside st c.nReg = true ∧
    (loadPacketWith st c.nReg c.b c.nBytes c.nRepeat c.adopted).maxNumRegs = st.maxNumRegs ∧
    soleSlot (loadPacketWith st c.nReg c.b c.nBytes c.nRepeat c.adopted) s ∧
    (loadPacketWith st c.nReg c.b c.nBytes c.nRepeat c.adopted).regMap s ≠ none := by
  subst hc
  have hco : coerceReg c.nReg st.maxNumRegs = c.nReg := coerceReg_of_mem _ _ ⟨by omega, hs.2⟩
  have hne : coerceReg c.nReg st.maxNumRegs ≠ 0 := by rw [hco]; omega
  obtain ⟨f1, f2, f3, -⟩ := loadPacket_fields_of_ne st c.nReg c.b c.nBytes c.nRepeat hne
  obtain ⟨g1, g2, -, g4, g5, -⟩ :=
    loadPacketWith_fields st c.nReg c.b c.nBytes c.nRepeat c.adopted
  rw [hco] at f2 f3
  have hmap : (loadPacketWith st c.nReg c.b c.nBytes c.nRepeat c.adopted).regMap c.nReg
      = some (chooseReg st) := by rw [g1, f2]; simp
  have hch : (chooseReg st = 1 ∨ chooseReg st = 2) ∧
      (st.regMap c.nReg = none → chooseReg st = 1 ∧ st.maxLoadedReg = 0) := by
    rcases h with ⟨a1, a2, a3⟩ | ⟨a1, a2, a3⟩
    · have := chooseReg_of_none st a2
      exact ⟨by omega, fun _ => ⟨by omega, a3⟩⟩
    · refine ⟨?_, fun hnone => by rcases a1 with a1 | a1 <;> rw [a1] at hnone <;> simp at hnone⟩
      rcases a3 with ⟨b1, b2⟩ | b1 | b1
      · have := chooseReg_of_none st b1; omega
      · rcases chooseReg_cases st with ⟨c1, -⟩ | c1
        · rw [b1] at c1; injection c1 with c1; omega
        · by_cases hm : st.maxLoadedReg ≤ 1
          · omega
          · have := chooseReg_of_some st 1 b1 (by omega); omega
      · rcases chooseReg_cases st with ⟨c1, -⟩ | c1
        · rw [b1] at c1; injection c1 with c1; omega
        · by_cases hm : st.maxLoadedReg ≤ 1
          · omega
          · have := chooseReg_of_some st 2 b1 (by omega); omega
  obtain ⟨hch1, hch2⟩ := hch
  have hmax : (loadPacketWith st c.nReg c.b c.nBytes c.nRepeat c.adopted).maxLoadedReg
      ≤ max st.maxLoadedReg (chooseReg st) := by
    rw [g5, f1]; split_ifs
    · exact le_max_left _ _
    · exact le_refl _
  refine ⟨inside_of_le st c.nReg (by rw [hco]; omega) (by rw [f1]; omega), g4, ?_,
    by rw [hmap]; simp⟩
  right
  refine ⟨by rw [hmap]; rcases hch1 with e | e <;> rw [e] <;> simp, ?_, ?_⟩
  · rcases h with ⟨-, -, a3⟩ | ⟨-, a2, -⟩
    · have := max_le (by omega : st.maxLoadedReg ≤ 2) (by omega : chooseReg st ≤ 2); omega
    · have := max_le a2 (by omega : chooseReg st ≤ 2); omega
  · rw [g2, f3]
    rcases h with ⟨a1, -, a3⟩ | ⟨a1, -, -⟩
    · left
      obtain ⟨e1, e2⟩ := hch2 a1
      refine ⟨a1, ?_⟩
      have := max_le (by omega : st.maxLoadedReg ≤ 1) (by omega : chooseReg st ≤ 1)
      omega
    · right; exact a1

theorem soleSlot_run (s : Int) (cs : List Call) (hall : ∀ c ∈ cs, c.nReg = s) :
    ∀ st : RegisterList, 2 ≤ st.maxNumRegs → 1 ≤ s ∧ s ≤ st.maxNumRegs → soleSlot st s →
      ∃ st2, runCalls st cs = some st2 ∧ soleSlot st2 s ∧
        (st.regMap s ≠ none ∨ cs ≠ [] → st2.regMap s ≠ none) := by
  induction cs with
  | nil =>
    intro st _ _ h
    exact ⟨st, rfl, h, fun h' => h'.elim id (fun h'' => absurd rfl h'')⟩
  | cons c cs ih =>
    intro st hN hs h
    obtain ⟨e0, e1, e2, e3⟩ := soleSlot_step st s c hN hs (hall c (List.mem_cons_self _ _)) h
    obtain ⟨st2, r1, r2, r3⟩ := ih (fun c' hc' => hall c' (List.mem_cons_of_mem _ hc'))
      (loadPacketWith st c.nReg c.b c.nBytes c.nRepeat c.adopted) (by rw [e1]; exact hN)
      (by rw [e1]; exact hs) e2
    refine ⟨st2, ?_, r2, fun _ => r3 (Or.inl e3)⟩
    simp only [runCalls, e0, if_true]
    exact r1

theorem runCalls_cons (st st2 : RegisterList) (c : Call) (cs : List Call)
    (h : runCalls st (c :: cs) = some st2) :
    inside st c.nReg = true ∧
    runCalls (loadPacketWith st c.nReg c.b c.nBytes c.nRepeat c.adopted) cs = some st2 := by
  simp only [runCalls] at h
  by_cases hi : inside st c.nReg = true
  · rw [if_pos hi] at h; exact ⟨hi, h⟩
  · rw [if_neg hi] at h; exact absurd h (by simp)

theorem runCalls_one (st st2 : RegisterList) (c : Call) (h : runCalls st [c] = some st2) :
    inside st c.nReg = true ∧
    st2 = loadPacketWith st c.nReg c.b c.nBytes c.nRepeat c.adopted := by
  obtain ⟨h1, h2⟩ := runCalls_cons st st2 c [] h
  simp only [runCalls, Option.some.injEq] at h2
  exact ⟨h1, h2.symm⟩

/-- Calls that stay inside the arrays, with no reset of `nextReg` between lines 114 and
117, keep the capacity, `Good`, `Flags`, and `maxLoadedReg` inside the table. -/
theorem reach_runCalls (cs : List Call) :
    ∀ st st2 : RegisterList, (∀ c ∈ cs, c.adopted = false) → Good st → Flags st →
      st.maxLoadedReg ≤ st.maxNumRegs → runCalls st cs = some st2 →
      st2.maxNumRegs = st.maxNumRegs ∧ Good st2 ∧ Flags st2 ∧
        st2.maxLoadedReg ≤ st2.maxNumRegs := by
  induction cs with
  | nil =>
    intro st st2 _ hg hf hm h
    simp only [runCalls, Option.some.injEq] at h
    subst h
    exact ⟨rfl, hg, hf, hm⟩
  | cons c cs ih =>
    intro st st2 hq hg hf hm h
    obtain ⟨h1, h2⟩ := runCalls_cons st st2 c cs h
    rw [hq c (List.mem_cons_self _ _), loadPacketWith_false] at h2
    rw [inside_iff] at h1
    obtain ⟨a1, a2, a3, a4⟩ := ih (loadPacket st c.nReg c.b c.nBytes c.nRepeat).1 st2
      (fun c' hc' => hq c' (List.mem_cons_of_mem _ hc')) (good_loadPacket st hg _ _ _ _)
      (flags_loadPacket st hg hf _ _ _ _)
      (by rw [loadPacket_maxLoadedReg, loadPacket_maxNumRegs]; exact max_le hm h1.2) h2
    rw [loadPacket_maxNumRegs] at a1
    exact ⟨a1, a2, a3, a4⟩

/-- With or without the handler at line 114, calls that stay inside the arrays keep the
capacity and every mapped register at most one above `maxLoadedReg`. -/
theorem low_runCalls (cs : List Call) :
    ∀ st st2 : RegisterList,
      (∀ i q, st.regMap i = some q → q ≤ st.maxLoadedReg + 1) →
      runCalls st cs = some st2 →
      st2.maxNumRegs = st.maxNumRegs ∧
        (∀ i q, st2.regMap i = some q → q ≤ st2.maxLoadedReg + 1) := by
  induction cs with
  | nil =>
    intro st st2 hm h
    simp only [runCalls, Option.some.injEq] at h
    subst h
    exact ⟨rfl, hm⟩
  | cons c cs ih =>
    intro st st2 hm h
    obtain ⟨-, h2⟩ := runCalls_cons st st2 c cs h
    obtain ⟨g1, -, -, g4, g5, -⟩ :=
      loadPacketWith_fields st c.nReg c.b c.nBytes c.nRepeat c.adopted
    have hle : st.maxLoadedReg
        ≤ (loadPacketWith st c.nReg c.b c.nBytes c.nRepeat c.adopted).maxLoadedReg := by
      rw [g5]; split_ifs
      · exact le_refl _
      · exact le_max_left _ _
    have hch : chooseReg st ≤ st.maxLoadedReg + 1 := by
      rcases chooseReg_cases st with ⟨-, c2⟩ | c1 <;> omega
    obtain ⟨a1, a2⟩ := ih (loadPacketWith st c.nReg c.b c.nBytes c.nRepeat c.adopted) st2
      (by
        intro i q hq
        rw [g1] at hq
        by_cases hn : coerceReg c.nReg st.maxNumRegs ≠ 0
        · rw [(loadPacket_fields_of_ne st c.nReg c.b c.nBytes c.nRepeat hn).2.1] at hq
          have hq' : (if i = coerceReg c.nReg st.maxNumRegs then some (chooseReg st)
              else st.regMap i) = some q := hq
          split_ifs at hq'
          · injection hq' with hq'; omega
          · have := hm i q hq'; omega
        · rw [(loadPacket_fields_of_zero st c.nReg c.b c.nBytes c.nRepeat
            (by by_contra h'; exact hn h')).2.1] at hq
          have := hm i q hq; omega) h2
    exact ⟨a1.trans g4, a2⟩

theorem chooseReg_of_some_succ (st : RegisterList) (r : Nat) (hr : st.recycleReg = some r)
    (hle : r ≤ st.maxLoadedReg + 1) : chooseReg st = r := by
  by_cases h : r ≤ st.maxLoadedReg
  · exact chooseReg_of_some st r hr h
  · rcases chooseReg_cases st with ⟨c1, -⟩ | c1
    · rw [hr] at c1; injection c1 with c1; exact c1.symm
    · omega

/-- In a state the calls of `low_runCalls` reach, `recycleReg` is at most one above
`maxLoadedReg`. -/
theorem low_recycleReg (cs : List Call) :
    ∀ st st2 : RegisterList,
      (∀ i q, st.regMap i = some q → q ≤ st.maxLoadedReg + 1) →
      (∀ r, st.recycleReg = some r → r ≤ st.maxLoadedReg + 1) →
      runCalls st cs = some st2 →
      ∀ r, st2.recycleReg = some r → r ≤ st2.maxLoadedReg + 1 := by
  induction cs with
  | nil =>
    intro st st2 _ hr h
    simp only [runCalls, Option.some.injEq] at h
    subst h
    exact hr
  | cons c cs ih =>
    intro st st2 hm hr h
    obtain ⟨-, h2⟩ := runCalls_cons st st2 c cs h
    obtain ⟨-, g2, -, -, g5, -⟩ :=
      loadPacketWith_fields st c.nReg c.b c.nBytes c.nRepeat c.adopted
    have hle : st.maxLoadedReg
        ≤ (loadPacketWith st c.nReg c.b c.nBytes c.nRepeat c.adopted).maxLoadedReg := by
      rw [g5]; split_ifs
      · exact le_refl _
      · exact le_max_left _ _
    have hone := (low_runCalls [c] st
      (loadPacketWith st c.nReg c.b c.nBytes c.nRepeat c.adopted) hm
      (by
        have hi := (runCalls_cons st st2 c cs h).1
        simp only [runCalls, hi, if_true])).2
    refine ih (loadPacketWith st c.nReg c.b c.nBytes c.nRepeat c.adopted) st2 hone ?_ h2
    intro r hr2
    rw [g2] at hr2
    by_cases hn : coerceReg c.nReg st.maxNumRegs ≠ 0
    · rw [(loadPacket_fields_of_ne st c.nReg c.b c.nBytes c.nRepeat hn).2.2.1] at hr2
      have := hm _ r hr2; omega
    · rw [(loadPacket_fields_of_zero st c.nReg c.b c.nBytes c.nRepeat
        (by by_contra h'; exact hn h')).2.2.1] at hr2
      have := hr r hr2; omega

theorem addChecksum_three (b : Bytes) (hb : ∀ i < 3, b i < 256) :
    addChecksum b 3 3 = xorBytes (bytesOf [b 0, b 1, b 2]) 3 := by
  have h0 := hb 0 (by omega)
  have h1 := hb 1 (by omega)
  have h01 := xor_byte_lt h0 h1
  have h012 := xor_byte_lt h01 (hb 2 (by omega))
  simp [addChecksum, xorBytes, bytesOf, setByte, List.range_succ, Nat.mod_eq_of_lt, *]

/-- After `loadPacket(1,b,3,nRepeat)` on a table of capacity 1 or more, slot number 1 has
the three bytes of `b` installed. -/
theorem installed_loadPacket (st : RegisterList) (hg : Good st) (hN : 1 ≤ st.maxNumRegs)
    (b : Bytes) (nRepeat : Int) (hb : ∀ i < 3, b i < 256) :
    installed (loadPacket st 1 b 3 nRepeat).1 1 [b 0, b 1, b 2] := by
  have hc : coerceReg 1 st.maxNumRegs = 1 := coerceReg_of_mem 1 st.maxNumRegs (by omega)
  obtain ⟨f1, f2, -, -, f5, -⟩ :=
    loadPacket_fields_of_ne st 1 b 3 nRepeat (by rw [hc]; decide)
  obtain ⟨k1, -, k3⟩ := loadPacket_frame_short st 1 b 3 nRepeat (by decide) hb
  have hgood := good_loadPacket st hg 1 b 3 nRepeat
  have hflag : invalidFlag ((loadPacket st 1 b 3 nRepeat).1.reg (loadTarget st 1)) = 0 := by
    have := hgood.next
    simp only [nextValid, loadPacket_nextReg, beq_iff_eq] at this
    exact this
  have hmap : (loadPacket st 1 b 3 nRepeat).1.regMap 1 = some (loadTarget st 1) := by
    rw [f2, hc, f1]; simp
  have hframe : frameOf ((loadPacket st 1 b 3 nRepeat).1.reg (loadTarget st 1))
      = [b 0, b 1, b 2] ++ [xorBytes (bytesOf [b 0, b 1, b 2]) [b 0, b 1, b 2].length] := by
    unfold frameOf
    rw [k1]
    simp only [List.range_succ, List.range_zero, List.nil_append, List.cons_append,
      List.map_cons, List.map_nil, show (9 * 3 + 10 - 1) / 9 = 4 from rfl]
    rw [k3 0 (by omega), k3 1 (by omega), k3 2 (by omega), k3 3 (by omega), loadPacket_snd,
      addChecksum_of_ne b 3 0 (by decide), addChecksum_of_ne b 3 1 (by decide),
      addChecksum_of_ne b 3 2 (by decide), addChecksum_three b hb]
    rfl
  unfold installed
  rw [hmap]
  exact ⟨loadPacket_nextReg _ _ _ _ _, hframe, hflag⟩

theorem ackStep_good (thr : Int) (base : Nat) (regs : RegisterList) (l : AckLocals)
    (x : Sample) (h : Good regs) :
    Good (ackStep thr base regs l x).1 ∧
      (ackStep thr base regs l x).1.maxNumRegs = regs.maxNumRegs := by
  unfold ackStep
  simp only []
  split_ifs <;>
    first
    | exact ⟨h, rfl⟩
    | exact ⟨good_loadPacket _ h _ _ _ _, loadPacket_maxNumRegs _ _ _ _ _⟩
    | exact ⟨good_loadPacket _ (good_loadPacket _ h _ _ _ _) _ _ _ _,
        by rw [loadPacket_maxNumRegs, loadPacket_maxNumRegs]⟩

theorem ackLoop_good (thr : Int) (base : Nat) (xs : List Sample) :
    ∀ (regs : RegisterList) (l : AckLocals) (r : Nat) (regs2 : RegisterList), Good regs →
      ackLoop thr base regs l xs = some (r, regs2) →
      Good regs2 ∧ regs2.maxNumRegs = regs.maxNumRegs := by
  induction xs with
  | nil => intro regs l r regs2 _ h; simp [ackLoop] at h
  | cons x xs ih =>
    intro regs l r regs2 hg h
    unfold ackLoop at h
    obtain ⟨g1, g2⟩ := ackStep_good thr base regs l x hg
    rcases hs : ackStep thr base regs l x with ⟨regs1, l1, v⟩
    rw [hs] at h g1 g2
    cases v with
    | none =>
      obtain ⟨a1, a2⟩ := ih regs1 l1 r regs2 g1 h
      exact ⟨a1, a2.trans g2⟩
    | some r1 =>
      simp only [Option.some.injEq, Prod.mk.injEq] at h
      obtain ⟨-, rfl⟩ := h
      exact ⟨g1, g2⟩

/-- A call of `ackdetect` with verdict `d` returns `d`, which is 0 or 1, and a register
list that is `Good` and has the capacity it had. -/
theorem ackdetect_good (thr : Int) (base entry : Nat) (trace : List Sample)
    (regs : RegisterList) (d : Nat) (hg : Good regs)
    (h : (ackdetect regs thr base entry trace).map Prod.fst = some d) :
    d ≤ 1 ∧ ∃ regs2, ackdetect regs thr base entry trace = some (d, regs2) ∧
      Good regs2 ∧ regs2.maxNumRegs = regs.maxNumRegs := by
  obtain ⟨h1, regs2, h2⟩ := ackdetect_of_verdict thr base entry trace regs regs d h
  obtain ⟨h3, h4⟩ := ackLoop_good thr base trace regs _ d regs2 hg h2
  exact ⟨h1, regs2, h2, h3, h4⟩

/-- One pass of the loop of `readCV`: the call of `ackdetect` starts with the two address
bytes and `0xE8+i` installed in slot number 1, and its verdict becomes bit `i` of
`bValue`. -/
theorem probeBit_step (thr : Int) (base : Nat) (env : Nat → RegisterList → Probe)
    (st : RegisterList) (bRead : Bytes) (bValue : Int) (i d : Nat) (hi : i < 8)
    (hg : Good st) (hN : 1 ≤ st.maxNumRegs) (h0 : bRead 0 < 256) (h1 : bRead 1 < 256)
    (h : ∀ regs, installed regs 1 [bRead 0, bRead 1, 0xE8 + i] →
      (ackdetect regs thr base (env i regs).entry (env i regs).trace).map Prod.fst = some d) :
    d ≤ 1 ∧ ∃ st2 bRead2, probeBit thr base env (some (st, bRead, bValue)) i
        = some (st2, bRead2, bitWrite bValue i d) ∧
      Good st2 ∧ st2.maxNumRegs = st.maxNumRegs ∧
      bRead2 0 = bRead 0 ∧ bRead2 1 = bRead 1 := by
  have hg0 := good_loadPacket st hg 0 resetPacket 2 3
  have hN0 : 1 ≤ (loadPacket st 0 resetPacket 2 3).1.maxNumRegs := by
    rw [loadPacket_maxNumRegs]; exact hN
  have hb : ∀ j < 3, setByte bRead 2 (0xE8 + i) j < 256 := by
    intro j hj
    simp only [setByte]
    split_ifs
    · exact Nat.mod_lt _ (by decide)
    · interval_cases j
      · exact h0
      · exact h1
      · omega
  have hinst := installed_loadPacket (loadPacket st 0 resetPacket 2 3).1 hg0 hN0
    (setByte bRead 2 (0xE8 + i)) 1 hb
  have e0 : setByte bRead 2 (0xE8 + i) 0 = bRead 0 := by simp [setByte]
  have e1 : setByte bRead 2 (0xE8 + i) 1 = bRead 1 := by simp [setByte]
  have e2 : setByte bRead 2 (0xE8 + i) 2 = 0xE8 + i := by
    simp only [setByte, if_true]; omega
  rw [e0, e1, e2] at hinst
  obtain ⟨hd, regs2, hr, hg2, hN2⟩ := ackdetect_good thr base _ _ _ d
    (good_loadPacket _ hg0 1 (setByte bRead 2 (0xE8 + i)) 3 1) (h _ hinst)
  refine ⟨hd, regs2,
    (loadPacket (loadPacket st 0 resetPacket 2 3).1 1 (setByte bRead 2 (0xE8 + i)) 3 1).2,
    ?_, hg2, ?_, ?_, ?_⟩
  · simp only [probeBit, hr]
  · rw [hN2, loadPacket_maxNumRegs, loadPacket_maxNumRegs]
  · rw [loadPacket_snd, addChecksum_of_ne _ _ _ (by decide)]
    exact e0
  · rw [loadPacket_snd, addChecksum_of_ne _ _ _ (by decide)]
    exact e1

end DCCpp
